import Mathlib

/-!
# taskset: a verification development

A shallow embedding of the Go package `github.com/bennydictor/taskset`
(`task.go`, `taskset.go`, `depend.go`, `middleware.go`) and theorems about it.

* Pointers (`*Task`, `*TaskSet`) are indices into a heap.
* Code that runs in goroutines (task bodies, middleware hooks, the library's own
  `depend`/`wait`) is an interaction tree `Prog`; a scheduler-driven step function
  executes a pool of goroutines, one atomic action at a time.
* `Depend.ErrGroup` / `Depend.SyncGroup` are modelled by their own small step
  machine, whose awaiter goroutines call an arbitrary `depend`.
* `uint32` arithmetic is `Nat` arithmetic modulo `2 ^ 32`.
-/

namespace Taskset

/-! ## Values, results, contexts -/

/-- Go `interface{}` values that occur in the package and its examples. -/
inductive Any where
  | nil
  | unit
  | int (n : Int)
  | str (s : String)
  /-- The `float64` value NaN: its type is comparable, but `NaN == NaN` is false. -/
  | nan
  /-- A slice of ints, a value of a type that is not comparable. -/
  | slice (xs : List Int)
  /-- The value `T{}` of the `n`-th named empty struct type, such as `nameProperty{}`. -/
  | token (n : Nat)
deriving DecidableEq, Repr, Inhabited

/-- `type Result struct { Value interface{}; Err error }`; `Err = none` is the nil error. -/
structure Result where
  Value : Any
  Err : Option String
deriving DecidableEq, Repr, Inhabited

abbrev TaskPtr := Nat

abbrev SetPtr := Nat

/-- Context keys: a `*TaskSet` pointer (the key `Start` uses) or any other comparable key. -/
inductive Key where
  | taskSet (ts : SetPtr)
  | user (n : Nat)
deriving DecidableEq, Repr

/-- A `context.Context`: the cancellation scopes it belongs to (its own and its
ancestors') and the chain of key/value bindings, innermost first. -/
structure Context where
  scopes : List Nat
  values : List (Key × Any)
deriving DecidableEq, Repr, Inhabited

/-- `context.Background()`. -/
def Context.Background : Context := ⟨[], []⟩

/-- `context.WithValue(ctx, key, val)`. -/
def Context.WithValue (ctx : Context) (key : Key) (val : Any) : Context :=
  { ctx with values := (key, val) :: ctx.values }

/-- `context.WithCancel(ctx)`, the new cancellation scope being `scope`. -/
def Context.WithCancel (ctx : Context) (scope : Nat) : Context :=
  { ctx with scopes := scope :: ctx.scopes }

/-- `ctx.Value(key)`: the innermost binding of `key`, `nil` when there is none. -/
def Context.Value (ctx : Context) (key : Key) : Any :=
  match ctx.values.lookup key with
  | some v => v
  | none => Any.nil

/-- `ctx.Err()` given the scopes cancelled so far (with their causes): non-nil exactly
when `ctx.Done()` is closed. -/
def Context.Err (ctx : Context) (cancelled : List (Nat × String)) : Option String :=
  match cancelled.find? (fun c => ctx.scopes.contains c.1) with
  | some c => some c.2
  | none => none

/-! ## Middleware (`middleware.go`) -/

/-- The type of `Middleware.Run`; `R` is what a hook call produces (a `Result`, or a
computation that yields one). -/
abbrev RunHook (R : Type) := Context → TaskPtr → (Context → R) → R

/-- The type of `Middleware.Depend`. -/
abbrev DependHook (R : Type) := Context → TaskPtr → TaskPtr → (Context → R) → R

/-- `type Middleware struct { Run func(...); Depend func(...) }`; `none` is a nil hook. -/
structure Middleware (R : Type) where
  Run : Option (RunHook R)
  Depend : Option (DependHook R)

def composeRun {R : Type} (mw1 mw2 : Middleware R) : Option (RunHook R) :=
  match mw1.Run, mw2.Run with
  | none, _ => mw2.Run
  | some _, none => mw1.Run
  | some r1, some r2 =>
    some (fun ctx task next => r1 ctx task (fun ctx => r2 ctx task next))

def composeDepend {R : Type} (mw1 mw2 : Middleware R) : Option (DependHook R) :=
  match mw1.Depend, mw2.Depend with
  | none, _ => mw2.Depend
  | some _, none => mw1.Depend
  | some d1, some d2 =>
    some (fun ctx task dependency next =>
      d1 ctx task dependency (fun ctx => d2 ctx task dependency next))

def composeMiddlewares {R : Type} (mw1 mw2 : Middleware R) : Middleware R :=
  { Run := composeRun mw1 mw2, Depend := composeDepend mw1 mw2 }

/-- The loop `for _, m := range middlewares { result = composeMiddlewares(result, m) }`
from the zero value of `Middleware`. -/
def chainMiddlewares {R : Type} (middlewares : List (Middleware R)) : Middleware R :=
  middlewares.foldl composeMiddlewares { Run := none, Depend := none }

/-- `type TaskSet struct { middleware Middleware; eagerTasks []*Task }`. -/
structure TaskSet (R : Type) where
  middleware : Middleware R
  eagerTasks : List TaskPtr

/-- The pass-through `Run` hook that `NewTaskSet` installs for a nil hook. -/
def passRun {R : Type} : RunHook R := fun ctx _ next => next ctx

/-- The pass-through `Depend` hook that `NewTaskSet` installs for a nil hook. -/
def passDepend {R : Type} : DependHook R := fun ctx _ _ next => next ctx

def NewTaskSet {R : Type} (middlewares : List (Middleware R)) : TaskSet R :=
  let mw := chainMiddlewares middlewares
  let mw := if mw.Run.isNone then { mw with Run := some passRun } else mw
  let mw := if mw.Depend.isNone then { mw with Depend := some passDepend } else mw
  { middleware := mw, eagerTasks := [] }

/-- The result of calling the `Run` hook, when there is one. -/
def Middleware.runAt {R : Type} (mw : Middleware R) (ctx : Context) (task : TaskPtr)
    (next : Context → R) : Option R :=
  mw.Run.map (fun run => run ctx task next)

/-- The result of calling the `Depend` hook, when there is one. -/
def Middleware.dependAt {R : Type} (mw : Middleware R) (ctx : Context)
    (task dependency : TaskPtr) (next : Context → R) : Option R :=
  mw.Depend.map (fun dep => dep ctx task dependency next)

/-- The monoid unit named in `middleware.go`: `mempty = Middleware{id, id}`. -/
def Middleware.identity {R : Type} : Middleware R :=
  { Run := some passRun, Depend := some passDepend }

/-- The zero value `Middleware{}`: both hooks nil. -/
def Middleware.zero {R : Type} : Middleware R := { Run := none, Depend := none }

/-- Reference nesting of the `Run` hooks of a list, first entry outermost, entries
without a `Run` hook skipped (stated from the specification). -/
def nestRun {R : Type} : List (Middleware R) → Context → TaskPtr → (Context → R) → R
  | [], ctx, _, next => next ctx
  | m :: rest, ctx, task, next =>
    match m.Run with
    | some run => run ctx task (fun c => nestRun rest c task next)
    | none => nestRun rest ctx task next

/-- Reference nesting of the `Depend` hooks of a list (stated from the specification). -/
def nestDepend {R : Type} :
    List (Middleware R) → Context → TaskPtr → TaskPtr → (Context → R) → R
  | [], ctx, _, _, next => next ctx
  | m :: rest, ctx, task, dependency, next =>
    match m.Depend with
    | some dep => dep ctx task dependency (fun c => nestDepend rest c task dependency next)
    | none => nestDepend rest ctx task dependency next

/-- Calling a possibly nil `Run` hook the way a `TaskSet` does: a nil hook passes through. -/
def runOr {R : Type} (h : Option (RunHook R)) (ctx : Context) (task : TaskPtr)
    (next : Context → R) : R :=
  match h with
  | some run => run ctx task next
  | none => next ctx

/-- Calling a possibly nil `Depend` hook the way a `TaskSet` does. -/
def dependOr {R : Type} (h : Option (DependHook R)) (ctx : Context) (task dependency : TaskPtr)
    (next : Context → R) : R :=
  match h with
  | some dep => dep ctx task dependency next
  | none => next ctx

/-! ## Goroutine code -/

/-- Code run by a goroutine, as a tree of the actions it performs on the shared state.
Task bodies and middleware hooks are functions that produce such trees. -/
inductive Prog where
  /-- Return `r` from the function. -/
  | ret (r : Result)
  /-- The statement `t.once.Do(func() { go func() { ... }() })` of `Task.depend`, called
  with `ctx`: the first execution for `t` starts the worker goroutine of `t`. -/
  | once (t : TaskPtr) (ctx : Context) (k : Prog)
  /-- The `select` of `Task.wait`: blocks until `ctx.Done()` or `t.done` is ready. -/
  | wait (t : TaskPtr) (ctx : Context) (k : Result → Prog)
  /-- The statement `go func() { p }()`. -/
  | go (p : Prog) (k : Prog)
  /-- An observable output, such as `fmt.Println(s)`. -/
  | print (s : String) (k : Prog)
  /-- The statement `panic(msg)`. -/
  | panic (msg : String)
  /-- The call `runtime.Goexit()`: the goroutine ends after running its deferred calls. -/
  | goexit
  /-- Ghost: the call `t.run(ctx, t.dependFunc)` made by the innermost `next` of the `Run`
  hooks of `t` begins; `k` is the code of the run function. -/
  | invoke (t : TaskPtr) (ctx : Context) (k : Prog)

instance : Inhabited Prog := ⟨Prog.panic ""⟩

/-- Sequencing: run `p`, then continue with `f` applied to what `p` returned. -/
def Prog.bind : Prog → (Result → Prog) → Prog
  | Prog.ret r, f => f r
  | Prog.once t ctx k, f => Prog.once t ctx (k.bind f)
  | Prog.wait t ctx k, f => Prog.wait t ctx (fun r => (k r).bind f)
  | Prog.go p k, f => Prog.go p (k.bind f)
  | Prog.print s k, f => Prog.print s (k.bind f)
  | Prog.panic msg, _ => Prog.panic msg
  | Prog.goexit, _ => Prog.goexit
  | Prog.invoke t ctx k, f => Prog.invoke t ctx (k.bind f)

/-- The value a finished piece of code has returned. -/
def Prog.returned : Prog → Option Result
  | Prog.ret r => some r
  | _ => none

/-- How a piece of code has ended without returning: `some (some msg)` is an unrecovered
`panic(msg)`, `some none` is `runtime.Goexit()`. -/
def Prog.aborted : Prog → Option (Option String)
  | Prog.panic msg => some (some msg)
  | Prog.goexit => some none
  | _ => none

/-- The code `p` under `defer func() { if err := recover(); err != nil { ... } }()`: a
panic of `p` itself (not of a goroutine it starts) is recovered and `handler` runs; a
`runtime.Goexit()` is not a panic and goes on. -/
def Prog.recover : Prog → (String → Prog) → Prog
  | Prog.ret r, _ => Prog.ret r
  | Prog.once t ctx k, handler => Prog.once t ctx (k.recover handler)
  | Prog.wait t ctx k, handler => Prog.wait t ctx (fun r => (k r).recover handler)
  | Prog.go p k, handler => Prog.go p (k.recover handler)
  | Prog.print s k, handler => Prog.print s (k.recover handler)
  | Prog.panic msg, handler => handler msg
  | Prog.goexit, _ => Prog.goexit
  | Prog.invoke t ctx k, handler => Prog.invoke t ctx (k.recover handler)

/-- `type Depend func(context.Context, *Task) Result`. -/
abbrev Depend := Context → TaskPtr → Prog

/-- `type RunFunc func(context.Context, Depend) (interface{}, error)`; the returned pair
is the `Result` the code returns. -/
abbrev RunFunc := Context → Depend → Prog

/-! ## Tasks (`task.go`) -/

/-- `type Task struct`. `once` is whether `sync.Once` has fired, `done` whether the
channel `done` is closed. -/
structure Task where
  taskSet : SetPtr
  properties : List (Any × Any)
  once : Bool
  started : Bool
  done : Bool
  run : RunFunc
  result : Result

def newTask (taskSet : SetPtr) (run : RunFunc) : Task :=
  { taskSet := taskSet, properties := [], once := false, started := false, done := false,
    run := run, result := { Value := Any.nil, Err := none } }

/-- The heap: the allocated `Task`s and `TaskSet`s, a pointer being an index. -/
structure Heap where
  tasks : List Task
  sets : List (TaskSet Prog)

/-- The runtime panic of dereferencing a nil pointer or calling a nil function. -/
def nilDeref : String := "runtime error: invalid memory address or nil pointer dereference"

def crossSetDepend : String := "dependency is from a different task set"

def crossSetTask : String := "task doesn't belong to task set"

def reentrantResult : String :=
  "Don't call taskSet.Result(task) from inside tasks. Use depend(task) instead."

/-- Calling the field `middleware.Run`, a nil function panicking. -/
def callRun (h : Option (RunHook Prog)) (ctx : Context) (task : TaskPtr)
    (next : Context → Prog) : Prog :=
  match h with
  | some run => run ctx task next
  | none => Prog.panic nilDeref

/-- Calling the field `middleware.Depend`, a nil function panicking. -/
def callDepend (h : Option (DependHook Prog)) (ctx : Context) (task dependency : TaskPtr)
    (next : Context → Prog) : Prog :=
  match h with
  | some dep => dep ctx task dependency next
  | none => Prog.panic nilDeref

/-- `func (t *Task) wait(ctx context.Context) Result`. -/
def Task.wait (t : TaskPtr) (ctx : Context) : Prog :=
  Prog.wait t ctx Prog.ret

/-- `func (t *Task) depend(ctx context.Context) Result`: the once-only launch, then the wait. -/
def Task.depend (t : TaskPtr) (ctx : Context) : Prog :=
  Prog.once t ctx (Task.wait t ctx)

/-- `func (t *Task) dependFunc(ctx context.Context, dependency *Task) Result`. The fields
`taskSet` and `middleware`, which never change, are read from `h`. -/
def Task.dependFunc (h : Heap) (t : TaskPtr) (ctx : Context) (dependency : TaskPtr) : Prog :=
  match h.tasks[t]?, h.tasks[dependency]? with
  | some task, some dep =>
    if task.taskSet ≠ dep.taskSet then
      Prog.panic crossSetDepend
    else
      match h.sets[task.taskSet]? with
      | some ts =>
        callDepend ts.middleware.Depend ctx t dependency (fun ctx => Task.depend dependency ctx)
      | none => Prog.panic nilDeref
  | _, _ => Prog.panic nilDeref

/-- The code of the goroutine started inside `t.once.Do` by `t.depend(ctx)`, up to the
value assigned to `t.result`:
`t.taskSet.middleware.Run(ctx, t, func(ctx) { result.Value, result.Err = t.run(ctx, t.dependFunc) })`.
The call of the run function is marked by the ghost `Prog.invoke`. -/
def Task.worker (h : Heap) (t : TaskPtr) (ctx : Context) : Prog :=
  match h.tasks[t]? with
  | some task =>
    match h.sets[task.taskSet]? with
    | some ts =>
      callRun ts.middleware.Run ctx t
        (fun ctx => Prog.invoke t ctx (task.run ctx (Task.dependFunc h t)))
    | none => Prog.panic nilDeref
  | none => Prog.panic nilDeref

/-! ## The scheduler -/

/-- Ghost record of what happened, in order. -/
inductive Event where
  /-- A call `t.depend(ctx)` reached `t.once.Do`. -/
  | dependCall (t : TaskPtr) (ctx : Context)
  /-- `t.once.Do` ran its function: the worker of `t` was started with `ctx`. -/
  | launch (t : TaskPtr) (ctx : Context)
  /-- The worker of `t` assigned `t.result = r`. -/
  | store (t : TaskPtr) (r : Result)
  /-- The worker of `t` ran its deferred `close(t.done)`. -/
  | close (t : TaskPtr)
  /-- The code of the worker of `t` ended without returning, by a panic (`some msg`) or by
  `runtime.Goexit()` (`none`): `t.result` is not assigned. -/
  | unwind (t : TaskPtr) (cause : Option String)
  /-- The run function of `t` was called with `ctx`. -/
  | invoke (t : TaskPtr) (ctx : Context)
  /-- A `t.wait(ctx)` returned `t.result = r` through `<-t.done`. -/
  | waitDone (t : TaskPtr) (ctx : Context) (r : Result)
  /-- A `t.wait(ctx)` returned `Result{Err: ctx.Err()}` through `<-ctx.Done()`. -/
  | waitCancelled (t : TaskPtr) (ctx : Context) (err : String)
  /-- Output of user code. -/
  | print (s : String)
deriving DecidableEq, Repr

/-- A goroutine of the pool. -/
inductive Goroutine where
  /-- A goroutine running `p` (a caller of the API, or one started by `go`); when `p` is
  `Prog.ret r` it has finished with `r`. -/
  | code (p : Prog)
  /-- The worker of task `t`, started by `t.once.Do`, still computing the result. -/
  | worker (t : TaskPtr) (p : Prog)
  /-- The worker of `t` after `t.result = ...`, before its deferred `close(t.done)`. -/
  | closing (t : TaskPtr)
  /-- A worker that has returned. -/
  | exited

/-- The state of the running program. -/
structure State where
  heap : Heap
  pool : List Goroutine
  /-- The cancelled scopes with their causes, oldest first. -/
  cancelled : List (Nat × String)
  /-- The panic that stopped the program, if any. -/
  panicked : Option String
  trace : List Event

def Heap.setTask (h : Heap) (t : TaskPtr) (task : Task) : Heap :=
  { h with tasks := h.tasks.set t task }

/-- One atomic action of goroutine `g` whose remaining code is `p`; `wrap` rebuilds the
goroutine from its remaining code. `viaCtx` is the branch a `select` takes. A panic that
reaches the top of a goroutine stops the program (for a worker, `step` runs the deferred
`close(t.done)` first); so does the runtime panic of `once` or `wait` on a nil task, which
the package's own callers (`dependFunc`, `Eager`, `Result`) exclude beforehand. A
goroutine whose code is `Prog.ret r` or `Prog.goexit` has ended and stays as it is. -/
def stepProg (s : State) (g : Nat) (viaCtx : Bool) (wrap : Prog → Goroutine) : Prog → State
  | Prog.ret _ => s
  | Prog.once t ctx k =>
    match s.heap.tasks[t]? with
    | none => { s with panicked := some nilDeref }
    | some task =>
      if task.once then
        { s with pool := s.pool.set g (wrap k),
                 trace := s.trace ++ [Event.dependCall t ctx] }
      else
        { s with heap := s.heap.setTask t { task with once := true },
                 pool := s.pool.set g (wrap k) ++ [Goroutine.worker t (Task.worker s.heap t ctx)],
                 trace := s.trace ++ [Event.dependCall t ctx, Event.launch t ctx] }
  | Prog.wait t ctx k =>
    match s.heap.tasks[t]? with
    | none => { s with panicked := some nilDeref }
    | some task =>
      if viaCtx then
        match ctx.Err s.cancelled with
        | some err =>
          { s with pool := s.pool.set g (wrap (k { Value := Any.nil, Err := some err })),
                   trace := s.trace ++ [Event.waitCancelled t ctx err] }
        | none => s
      else if task.done then
        { s with pool := s.pool.set g (wrap (k task.result)),
                 trace := s.trace ++ [Event.waitDone t ctx task.result] }
      else s
  | Prog.go p k =>
    { s with pool := s.pool.set g (wrap k) ++ [Goroutine.code p] }
  | Prog.print str k =>
    { s with pool := s.pool.set g (wrap k), trace := s.trace ++ [Event.print str] }
  | Prog.panic msg => { s with panicked := some msg }
  | Prog.goexit => s
  | Prog.invoke t ctx k =>
    { s with pool := s.pool.set g (wrap k), trace := s.trace ++ [Event.invoke t ctx] }

/-- The goroutine left when the code of a worker has ended without returning and the
deferred `close(t.done)` has run: after a panic the goroutine that brings the program
down, after `runtime.Goexit()` nothing. -/
def Goroutine.unwound : Option String → Goroutine
  | some msg => Goroutine.code (Prog.panic msg)
  | none => Goroutine.exited

/-- One atomic action of goroutine `g`. A blocked or finished goroutine, and any goroutine
of a program that has panicked, does nothing. The worker of `t` is
`go func() { defer close(t.done); t.result = ... }()`: when its code returns `r`, the
assignment `t.result = r` and then the deferred close run; when its code panics or calls
`runtime.Goexit()`, the assignment is skipped and the deferred close runs, after which a
panic stops the program. -/
def step (s : State) (g : Nat) (viaCtx : Bool) : State :=
  if s.panicked.isSome then s
  else
    match s.pool[g]? with
    | none => s
    | some (Goroutine.code p) => stepProg s g viaCtx Goroutine.code p
    | some (Goroutine.worker t p) =>
      match p.returned with
      | some r =>
        match s.heap.tasks[t]? with
        | none => { s with panicked := some nilDeref }
        | some task =>
          { s with heap := s.heap.setTask t { task with result := r },
                   pool := s.pool.set g (Goroutine.closing t),
                   trace := s.trace ++ [Event.store t r] }
      | none =>
        match p.aborted with
        | some cause =>
          match s.heap.tasks[t]? with
          | none => { s with panicked := some nilDeref }
          | some task =>
            { s with heap := s.heap.setTask t { task with done := true },
                     pool := s.pool.set g (Goroutine.unwound cause),
                     trace := s.trace ++ [Event.unwind t cause, Event.close t] }
        | none => stepProg s g viaCtx (Goroutine.worker t) p
    | some (Goroutine.closing t) =>
      match s.heap.tasks[t]? with
      | none => { s with panicked := some nilDeref }
      | some task =>
        { s with heap := s.heap.setTask t { task with done := true },
                 pool := s.pool.set g Goroutine.exited,
                 trace := s.trace ++ [Event.close t] }
    | some Goroutine.exited => s

/-- What the scheduler and the environment can do next. -/
inductive Action where
  /-- Goroutine `g` performs its next action; `viaCtx` picks the branch of a `select`. -/
  | run (g : Nat) (viaCtx : Bool)
  /-- The cancellation scope `scope` is cancelled with cause `cause`. -/
  | cancel (scope : Nat) (cause : String)
deriving DecidableEq, Repr

def act (s : State) : Action → State
  | Action.run g viaCtx => step s g viaCtx
  | Action.cancel scope cause => { s with cancelled := s.cancelled ++ [(scope, cause)] }

/-- Run a schedule. -/
def exec (s : State) (schedule : List Action) : State :=
  schedule.foldl act s

/-! ## Task sets (`taskset.go`) -/

/-- `func (ts *TaskSet) NewLazy(run RunFunc, properties ...Property) *Task`, the
properties being functions that modify the new task. Returns the new heap and pointer. -/
def TaskSet.NewLazy (h : Heap) (ts : SetPtr) (run : RunFunc) (properties : List (Task → Task)) :
    Heap × TaskPtr :=
  let task := properties.foldl (fun task p => p task) (newTask ts run)
  ({ h with tasks := h.tasks ++ [task] }, h.tasks.length)

/-- Appending to `ts.eagerTasks`. -/
def Heap.appendEager (h : Heap) (ts : SetPtr) (task : TaskPtr) : Heap :=
  match h.sets[ts]? with
  | some tset =>
    { h with sets := h.sets.set ts { tset with eagerTasks := tset.eagerTasks ++ [task] } }
  | none => h

/-- `func (ts *TaskSet) New(run RunFunc, properties ...Property) *Task`. -/
def TaskSet.New (h : Heap) (ts : SetPtr) (run : RunFunc) (properties : List (Task → Task)) :
    Heap × TaskPtr :=
  let (h1, task) := TaskSet.NewLazy h ts run properties
  (h1.appendEager ts task, task)

/-- `func (ts *TaskSet) Eager(task *Task)`: the panic raised, if any, and the heap after
the call. -/
def TaskSet.Eager (h : Heap) (ts : SetPtr) (task : TaskPtr) : Option String × Heap :=
  match h.tasks[task]? with
  | none => (some nilDeref, h)
  | some t =>
    if t.taskSet ≠ ts then (some crossSetTask, h)
    else (none, h.appendEager ts task)

/-- The context `Start` derives: `context.WithValue(ctx, ts, struct{}{})`. -/
def TaskSet.startContext (ts : SetPtr) (ctx : Context) : Context :=
  ctx.WithValue (Key.taskSet ts) Any.unit

/-- `func (ts *TaskSet) Start(ctx context.Context)`: one goroutine per entry of
`ts.eagerTasks`, each running `task.depend(ctx)` with the derived context. -/
def TaskSet.Start (s : State) (ts : SetPtr) (ctx : Context) : State :=
  match s.heap.sets[ts]? with
  | some tset =>
    let launchers := List.map
      (fun task => Goroutine.code (Task.depend task (TaskSet.startContext ts ctx)))
      tset.eagerTasks
    { s with pool := s.pool ++ launchers }
  | none => { s with panicked := some nilDeref }

/-- `func (ts *TaskSet) Result(ctx context.Context, task *Task) Result`. -/
def TaskSet.Result (h : Heap) (ts : SetPtr) (ctx : Context) (task : TaskPtr) : Prog :=
  match h.tasks[task]? with
  | none => Prog.panic nilDeref
  | some t =>
    if t.taskSet ≠ ts then
      Prog.panic crossSetTask
    else if ctx.Value (Key.taskSet ts) ≠ Any.nil then
      Prog.panic reentrantResult
    else
      Task.wait task ctx

/-- The value a goroutine has returned, if it has. -/
def Goroutine.returned : Goroutine → Option Result
  | Goroutine.code p => p.returned
  | _ => none

/-- A context carries the marker of task set `ts`: `ctx.Value(ts) != nil`. -/
def Context.marked (ts : SetPtr) (ctx : Context) : Prop :=
  ctx.Value (Key.taskSet ts) ≠ Any.nil

instance (ts : SetPtr) (ctx : Context) : Decidable (Context.marked ts ctx) := by
  unfold Context.marked; infer_instance

/-- A `Run` hook passes to `next` only contexts that satisfy `P` whenever its own input
does: on such an input, what the hook does depends on `next` only at contexts
satisfying `P`. -/
def RunHook.passes {R : Type} (P : Context → Prop) (run : RunHook R) : Prop :=
  ∀ (ctx : Context) (task : TaskPtr) (next1 next2 : Context → R),
    P ctx → (∀ c, P c → next1 c = next2 c) → run ctx task next1 = run ctx task next2

/-- A `Depend` hook passes to `next` only contexts that satisfy `P` whenever its own
input does. -/
def DependHook.passes {R : Type} (P : Context → Prop) (dep : DependHook R) : Prop :=
  ∀ (ctx : Context) (task dependency : TaskPtr) (next1 next2 : Context → R),
    P ctx → (∀ c, P c → next1 c = next2 c) →
      dep ctx task dependency next1 = dep ctx task dependency next2

/-- Both hooks of a middleware, where present, pass on only contexts satisfying `P`. -/
def Middleware.passes {R : Type} (P : Context → Prop) (m : Middleware R) : Prop :=
  (∀ run, m.Run = some run → RunHook.passes P run)
  ∧ (∀ dep, m.Depend = some dep → DependHook.passes P dep)

/-! ## Ghost projections and the once-only launch invariant -/

/-- The contexts of the calls `T.depend(ctx)` recorded in a trace, in order. -/
def callsOf (T : TaskPtr) (tr : List Event) : List Context :=
  tr.filterMap (fun e =>
    match e with
    | Event.dependCall t ctx => if t = T then some ctx else none
    | _ => none)

/-- The contexts with which the worker of `T` was started, in order. -/
def launchesOf (T : TaskPtr) (tr : List Event) : List Context :=
  tr.filterMap (fun e =>
    match e with
    | Event.launch t ctx => if t = T then some ctx else none
    | _ => none)

/-- The results that waits on `T` returned through the completion signal, in order. -/
def donesOf (T : TaskPtr) (tr : List Event) : List Result :=
  tr.filterMap (fun e =>
    match e with
    | Event.waitDone t _ r => if t = T then some r else none
    | _ => none)

/-- The task whose worker a goroutine is, if it is one. -/
def Goroutine.tag : Goroutine → Option TaskPtr
  | Goroutine.worker t _ => some t
  | Goroutine.closing t => some t
  | _ => none

/-- The number of live worker goroutines of `T` in a pool. -/
def workersOf (T : TaskPtr) (pool : List Goroutine) : Nat :=
  pool.countP (fun g => g.tag == some T)

/-- The once-only launch invariant of task `T`. -/
structure OnceInv (T : TaskPtr) (s : State) (task : Task) : Prop where
  here : s.heap.tasks[T]? = some task
  launches : launchesOf T s.trace = (callsOf T s.trace).take 1
  fired : task.once = true ↔ callsOf T s.trace ≠ []
  idle : task.once = false → workersOf T s.pool = 0 ∧ task.done = false
  running : task.done = false → workersOf T s.pool ≤ 1 ∧ donesOf T s.trace = []
  finished : task.done = true →
    workersOf T s.pool = 0 ∧ ∀ r ∈ donesOf T s.trace, r = task.result

/-! ## `Depend.ErrGroup` and `Depend.SyncGroup` (`depend.go`) -/

/-- Where the goroutine started for one entry of `tasks` is. -/
inductive Awaiter where
  /-- Inside `depend(ctx, task)`, which has not returned. -/
  | calling
  /-- `depend(ctx, task)` has returned `r`; the test of `r.Err` is next (`ErrGroup`). -/
  | returned (r : Result)
  /-- Before `atomic.AddUint32(&doneCount, 1)`. -/
  | counting
  /-- The goroutine has finished. -/
  | finished
deriving DecidableEq, Repr

/-- What the scheduler can do next in a group: `i` is the index in `tasks` of the entry
whose goroutine moves. -/
inductive GroupAction where
  /-- The call `depend(ctx, tasks[i])` returns `r`. -/
  | ret (i : Nat) (r : Result)
  /-- `ErrGroup`: the statement `if r.Err != nil { doneOnce.Do(...) }`. -/
  | publish (i : Nat)
  /-- The statement `if atomic.AddUint32(&doneCount, 1) == uint32(len(tasks)) { ... }`. -/
  | count (i : Nat)
deriving DecidableEq, Repr

/-- `uint32(n)`. -/
def uint32 (n : Nat) : Nat := n % 2 ^ 32

/-- The local variables of one call of `ErrGroup` and its goroutines. -/
structure ErrGroupState where
  tasks : List TaskPtr
  awaiter : Nat → Awaiter
  doneCount : Nat
  doneOnce : Bool
  /-- Whether the channel `done` is closed. -/
  done : Bool
  /-- The named result; `none` is nil. -/
  result : Option TaskPtr
  /-- Ghost: the awaited results in the order they reached the test of `Err`. -/
  published : List (Nat × Result)
  /-- Ghost: the goroutines that have incremented `doneCount`, in order. -/
  counted : List Nat

def ErrGroup.init (tasks : List TaskPtr) : ErrGroupState :=
  { tasks := tasks, awaiter := fun _ => Awaiter.calling, doneCount := 0, doneOnce := false,
    done := false, result := none, published := [], counted := [] }

def ErrGroup.step (s : ErrGroupState) : GroupAction → ErrGroupState
  | GroupAction.ret i r =>
    if i < s.tasks.length ∧ s.awaiter i = Awaiter.calling then
      { s with awaiter := Function.update s.awaiter i (Awaiter.returned r) }
    else s
  | GroupAction.publish i =>
    match s.awaiter i with
    | Awaiter.returned r =>
      let s1 := { s with awaiter := Function.update s.awaiter i Awaiter.counting,
                         published := s.published ++ [(i, r)] }
      if r.Err ≠ none ∧ s.doneOnce = false then
        { s1 with doneOnce := true, result := s.tasks[i]?, done := true }
      else s1
    | _ => s
  | GroupAction.count i =>
    match s.awaiter i with
    | Awaiter.counting =>
      let s1 := { s with awaiter := Function.update s.awaiter i Awaiter.finished,
                         doneCount := uint32 (s.doneCount + 1),
                         counted := s.counted ++ [i] }
      if uint32 (s.doneCount + 1) = uint32 s.tasks.length ∧ s.doneOnce = false then
        { s1 with doneOnce := true, done := true }
      else s1
    | _ => s

def ErrGroup.exec (s : ErrGroupState) (schedule : List GroupAction) : ErrGroupState :=
  schedule.foldl ErrGroup.step s

/-- What `ErrGroup` returns once `<-done` is passed; `none` while it is blocked. -/
def ErrGroup.returns (s : ErrGroupState) : Option (Option TaskPtr) :=
  if s.done then some s.result else none

/-- The task of the first published result that carries an error. -/
def ErrGroup.winner (tasks : List TaskPtr) (published : List (Nat × Result)) : Option TaskPtr :=
  match published.find? (fun p => p.2.Err.isSome) with
  | some p => tasks[p.1]?
  | none => none

/-- The local variables of one call of `SyncGroup` and its goroutines. -/
structure SyncGroupState where
  tasks : List TaskPtr
  awaiter : Nat → Awaiter
  doneCount : Nat
  /-- Whether the channel `done` is closed. -/
  done : Bool
  /-- Ghost: the goroutines that executed `close(done)`, in order; a second close panics. -/
  closedBy : List Nat
  /-- Ghost: the goroutines that have incremented `doneCount`, in order. -/
  counted : List Nat

def SyncGroup.init (tasks : List TaskPtr) : SyncGroupState :=
  { tasks := tasks, awaiter := fun _ => Awaiter.calling, doneCount := 0, done := false,
    closedBy := [], counted := [] }

def SyncGroup.step (s : SyncGroupState) : GroupAction → SyncGroupState
  | GroupAction.ret i _ =>
    if i < s.tasks.length ∧ s.awaiter i = Awaiter.calling then
      { s with awaiter := Function.update s.awaiter i Awaiter.counting }
    else s
  | GroupAction.publish _ => s
  | GroupAction.count i =>
    match s.awaiter i with
    | Awaiter.counting =>
      let s1 := { s with awaiter := Function.update s.awaiter i Awaiter.finished,
                         doneCount := uint32 (s.doneCount + 1),
                         counted := s.counted ++ [i] }
      if uint32 (s.doneCount + 1) = uint32 s.tasks.length then
        { s1 with done := true, closedBy := s.closedBy ++ [i] }
      else s1
    | _ => s

def SyncGroup.exec (s : SyncGroupState) (schedule : List GroupAction) : SyncGroupState :=
  schedule.foldl SyncGroup.step s

/-- Whether `SyncGroup` has passed `<-done` and returned. -/
def SyncGroup.returned (s : SyncGroupState) : Bool := s.done

/-- Whether the program has panicked with "close of closed channel". -/
def SyncGroup.panicked (s : SyncGroupState) : Bool := decide (2 ≤ s.closedBy.length)

/-- The invariant of `ErrGroup`'s goroutines, for a list of at least one and at most
`2 ^ 32` tasks. -/
structure ErrInv (s : ErrGroupState) : Prop where
  pos : 0 < s.tasks.length
  bound : s.tasks.length ≤ 2 ^ 32
  once_done : s.doneOnce = s.done
  count_eq : s.doneCount = uint32 s.counted.length
  nodup : s.counted.Nodup
  counted_iff : ∀ i, i ∈ s.counted ↔ s.awaiter i = Awaiter.finished
  lt : ∀ i, s.awaiter i ≠ Awaiter.calling → i < s.tasks.length
  pub_of : ∀ i, s.awaiter i = Awaiter.counting ∨ s.awaiter i = Awaiter.finished →
    ∃ r, (i, r) ∈ s.published
  pub_lt : ∀ p ∈ s.published, p.1 < s.tasks.length
  idle : s.doneOnce = false → s.result = none ∧ ∀ p ∈ s.published, p.2.Err = none
  fired : s.doneOnce = true → s.result = ErrGroup.winner s.tasks s.published ∧
    (s.result = none →
      (∀ p ∈ s.published, p.2.Err = none) ∧ ∀ i, i < s.tasks.length → s.awaiter i = Awaiter.finished)
  live : s.counted.length = s.tasks.length → s.doneOnce = true

/-- The invariant of `SyncGroup`'s goroutines, for a list of at least one and at most
`2 ^ 32` tasks. -/
structure SyncInv (s : SyncGroupState) : Prop where
  pos : 0 < s.tasks.length
  bound : s.tasks.length ≤ 2 ^ 32
  count_eq : s.doneCount = uint32 s.counted.length
  nodup : s.counted.Nodup
  counted_iff : ∀ i, i ∈ s.counted ↔ s.awaiter i = Awaiter.finished
  lt : ∀ i, s.awaiter i ≠ Awaiter.calling → i < s.tasks.length
  open_ : s.counted.length ≠ s.tasks.length → s.done = false ∧ s.closedBy = []
  closed : s.counted.length = s.tasks.length →
    s.done = true ∧ ∃ i, s.closedBy = [i] ∧ s.counted.getLast? = some i

/-! ## Example programs -/

/-- A task body that returns `(1, nil)`. -/
def Example.returnsOne : RunFunc := fun _ _ => Prog.ret { Value := Any.int 1, Err := none }

/-- A heap with one task set without middlewares and no task. -/
def Example.emptyHeap : Heap := { tasks := [], sets := [NewTaskSet []] }

/-- One task set without middlewares and one lazy task (pointer 0) returning `(1, nil)`. -/
def Example.lazyHeap : Heap := (TaskSet.NewLazy Example.emptyHeap 0 Example.returnsOne []).1

/-- A program state that has just started, with the given goroutines. -/
def Example.stateOf (h : Heap) (pool : List Goroutine) : State :=
  { heap := h, pool := pool, cancelled := [], panicked := none, trace := [] }

/-- The `taskSet` fields of three tasks of task set 0, as `TaskSet.Result` reads them. -/
def Example.fields : Heap :=
  { tasks := [newTask 0 Example.returnsOne, newTask 0 Example.returnsOne,
      newTask 0 Example.returnsOne], sets := [] }

/-- Task set 0 without middlewares; lazy task A (pointer 0) whose body calls
`taskSet.Result(ctx, C)` with the context it received; eager task B (pointer 1) whose body
calls `depend(context.Background(), A)`; eager task C (pointer 2) returning `(1, nil)`. -/
def Example.reentrantHeap : Heap :=
  let h1 := (TaskSet.NewLazy Example.emptyHeap 0
    (fun ctx _ => TaskSet.Result Example.fields 0 ctx 2) []).1
  let h2 := (TaskSet.New h1 0 (fun _ depend => depend Context.Background 0) []).1
  (TaskSet.New h2 0 Example.returnsOne []).1

/-- The state after `taskSet.Start(context.Background())` on `Example.reentrantHeap`. -/
def Example.reentrantStart : State :=
  TaskSet.Start (Example.stateOf Example.reentrantHeap []) 0 Context.Background

/-- A schedule of `Example.reentrantStart` that runs C, then B up to its `depend` on A,
then A, then the rest of B. -/
def Example.reentrantSchedule : List Action :=
  [Action.run 1 false, Action.run 2 false, Action.run 2 false, Action.run 2 false,
   Action.run 0 false, Action.run 3 false, Action.run 3 false, Action.run 4 false,
   Action.run 4 false, Action.run 4 false, Action.run 4 false, Action.run 3 false,
   Action.run 3 false, Action.run 3 false]

/-- A middleware whose `Run` hook prints and passes on a context derived with
`context.WithValue`, and whose `Depend` hook prints and passes its context on. -/
def Example.tracing : Middleware Prog :=
  { Run := some (fun ctx _ next =>
      Prog.print "run" (next (ctx.WithValue (Key.user 0) (Any.int 1))))
    Depend := some (fun ctx _ _ next => Prog.print "depend" (next ctx)) }

/-- Two task sets without middlewares; task 0 belongs to set 0 and task 1 to set 1. -/
def Example.twoSets : Heap :=
  let h0 : Heap := { tasks := [], sets := [NewTaskSet [], NewTaskSet []] }
  let h1 := (TaskSet.NewLazy h0 0 (fun ctx depend => depend ctx 1) []).1
  (TaskSet.NewLazy h1 1 Example.returnsOne []).1

/-- `Example.twoSets` while the worker of task 0 is about to run
`t.dependFunc(context.Background(), task 1)`. -/
def Example.crossState : State :=
  Example.stateOf Example.twoSets
    [Goroutine.worker 0
      ((Task.dependFunc Example.twoSets 0 Context.Background 1).bind Prog.ret)]

/-- The lazy task of `Example.lazyHeap` and a caller of `taskSet.Result` on it. -/
def Example.resultCaller : State :=
  Example.stateOf Example.lazyHeap
    [Goroutine.code (TaskSet.Result Example.lazyHeap 0 Context.Background 0)]

/-- The lazy task of `Example.lazyHeap` and a caller of `task.depend` on it. -/
def Example.dependCaller : State :=
  Example.stateOf Example.lazyHeap [Goroutine.code (Task.depend 0 Context.Background)]

/-- A schedule that lets the caller and a worker, if there is one, run to the end. -/
def Example.callerSchedule : List Action :=
  [Action.run 0 false, Action.run 1 false, Action.run 1 false, Action.run 1 false,
   Action.run 0 false, Action.run 0 true]

/-- Three callers of `task.depend` on the lazy task of `Example.lazyHeap`, with three
different contexts. -/
def Example.threeCallers : State :=
  Example.stateOf Example.lazyHeap
    [Goroutine.code (Task.depend 0 (Context.Background.WithCancel 1)),
     Goroutine.code (Task.depend 0 (Context.Background.WithCancel 2)),
     Goroutine.code (Task.depend 0 (Context.Background.WithCancel 3))]

/-- The second caller arrives first; the three calls, the worker and the waits follow. -/
def Example.threeCallersSchedule : List Action :=
  [Action.run 1 false, Action.run 0 false, Action.run 2 false, Action.cancel 3 "stop",
   Action.run 3 false, Action.run 3 false, Action.run 2 true, Action.run 3 false,
   Action.run 0 false, Action.run 1 false]

/-- An `ErrGroup` on tasks 7 and 8: the await of 8 succeeds and is counted, then the
await of 7 fails. -/
def Example.groupSchedule : List GroupAction :=
  [GroupAction.ret 1 { Value := Any.int 1, Err := none },
   GroupAction.ret 0 { Value := Any.nil, Err := some "fail" },
   GroupAction.publish 1, GroupAction.count 1, GroupAction.publish 0]

/-- A `SyncGroup` on tasks 7, 8 and 7 again: the three awaits return and are counted. -/
def Example.syncSchedule : List GroupAction :=
  [GroupAction.ret 2 { Value := Any.int 1, Err := none },
   GroupAction.ret 0 { Value := Any.nil, Err := some "fail" },
   GroupAction.count 2, GroupAction.ret 1 { Value := Any.int 2, Err := none },
   GroupAction.count 1, GroupAction.count 0]

/-! ## Static fields and what code can do -/

/-- The results a piece of code can return, for some outcomes of its waits. -/
def Prog.mayReturn : Prog → Result → Prop
  | Prog.ret r0, r => r0 = r
  | Prog.once _ _ k, r => k.mayReturn r
  | Prog.wait _ _ k, r => ∃ res, (k res).mayReturn r
  | Prog.go _ k, r => k.mayReturn r
  | Prog.print _ k, r => k.mayReturn r
  | Prog.panic _, _ => False
  | Prog.goexit, _ => False
  | Prog.invoke _ _ k, r => k.mayReturn r

/-- Every call `t.depend(ctx)` that a piece of code makes, in itself or in the goroutines
it starts, has its target `t` in `L`. -/
def Prog.within (L : TaskPtr → Prop) : Prog → Prop
  | Prog.ret _ => True
  | Prog.once t _ k => L t ∧ k.within L
  | Prog.wait _ _ k => ∀ res, (k res).within L
  | Prog.go p k => p.within L ∧ k.within L
  | Prog.print _ k => k.within L
  | Prog.panic _ => True
  | Prog.goexit => True
  | Prog.invoke _ _ k => k.within L

/-- The fields of the heap that never change after the tasks and sets are created: the
`taskSet` and `run` of every task and the `middleware` of every set. -/
def Heap.static (h : Heap) : List (SetPtr × RunFunc) × List (Middleware Prog) :=
  (h.tasks.map (fun t => (t.taskSet, t.run)), h.sets.map (fun ts => ts.middleware))

/-! ## `TaskSet.Wait` -/

/-- `func (ts *TaskSet) Wait(ctx context.Context)`: `task.wait(ctx)` for every entry of
`ts.eagerTasks` in order, the results being dropped. -/
def TaskSet.Wait (h : Heap) (ts : SetPtr) (ctx : Context) : Prog :=
  match h.sets[ts]? with
  | some tset =>
    tset.eagerTasks.foldr (fun task rest => Prog.wait task ctx (fun _ => rest))
      (Prog.ret { Value := Any.nil, Err := none })
  | none => Prog.panic nilDeref

/-! ## The life cycle of a task -/

/-- The results that the worker of `T` assigned to `T.result`, in order. -/
def storesOf (T : TaskPtr) (tr : List Event) : List Result :=
  tr.filterMap (fun e =>
    match e with
    | Event.store t r => if t = T then some r else none
    | _ => none)

/-- The number of times `close(T.done)` was executed. -/
def closesOf (T : TaskPtr) (tr : List Event) : Nat :=
  tr.count (Event.close T)

/-- The goroutine is the worker of `T`, still computing the result. -/
def Goroutine.runs (T : TaskPtr) : Goroutine → Bool
  | Goroutine.worker t _ => t == T
  | _ => false

/-- The goroutine is the worker of `T`, between `T.result = ...` and `close(T.done)`. -/
def Goroutine.closes (T : TaskPtr) : Goroutine → Bool
  | Goroutine.closing t => t == T
  | _ => false

/-- In a trace, every `close(T.done)` comes after the end of the code of the worker of
`T`: after the write of `T.result`, or after the panic or `runtime.Goexit()` that skipped
the write. -/
def closedAfter (T : TaskPtr) (tr : List Event) : Prop :=
  ∀ i, tr[i]? = some (Event.close T) →
    ∃ j : Nat, j < i ∧ ((∃ r : Result, tr[j]? = some (Event.store T r))
      ∨ ∃ cause : Option String, tr[j]? = some (Event.unwind T cause))

/-- The life-cycle invariant of task `T`: registered (not launched, no worker, nothing
written), running (one worker; the result slot is written at most once, and only by it),
done (no worker left, `done` closed once; either the slot was written once, before the
close, and holds that value, or the worker's code ended by a panic or `runtime.Goexit()`
and the slot was never written). `R` is a property of every result the worker's code can
return. -/
structure WorkerInv (T : TaskPtr) (R : Result → Prop) (h0 : Heap) (s : State) (task : Task) :
    Prop where
  here : s.heap.tasks[T]? = some task
  static : s.heap.static = h0.static
  codes : ∀ p, Goroutine.worker T p ∈ s.pool → ∀ r, p.mayReturn r → R r
  idle : task.once = false →
    s.pool.countP (Goroutine.runs T) = 0 ∧ s.pool.countP (Goroutine.closes T) = 0
    ∧ storesOf T s.trace = [] ∧ task.done = false
  busy : task.once = true → task.done = false →
    (s.pool.countP (Goroutine.runs T) = 1 ∧ s.pool.countP (Goroutine.closes T) = 0
      ∧ storesOf T s.trace = [])
    ∨ (s.pool.countP (Goroutine.runs T) = 0 ∧ s.pool.countP (Goroutine.closes T) = 1
      ∧ storesOf T s.trace = [task.result] ∧ R task.result)
  fin : task.done = true →
    task.once = true ∧ s.pool.countP (Goroutine.runs T) = 0
    ∧ s.pool.countP (Goroutine.closes T) = 0
    ∧ closesOf T s.trace = 1
    ∧ ((storesOf T s.trace = [task.result] ∧ R task.result)
      ∨ (storesOf T s.trace = [] ∧ ∃ cause, Event.unwind T cause ∈ s.trace))
  unclosed : task.done = false → closesOf T s.trace = 0
  order : closedAfter T s.trace
  fresh : storesOf T s.trace = [] → ∀ t0, h0.tasks[T]? = some t0 → task.result = t0.result

/-- What the `Run` hook of `Example.failToZero` does with the result of `next`: a failing
`Result` becomes `(0, nil)`. -/
def Example.zeroIfFailed (r : Result) : Prog :=
  if r.Err.isSome then Prog.ret { Value := Any.int 0, Err := none } else Prog.ret r

/-- A middleware whose `Run` hook replaces every failing `Result` by `(0, nil)`. -/
def Example.failToZero : Middleware Prog :=
  { Run := some (fun ctx _ next => (next ctx).bind Example.zeroIfFailed), Depend := none }

/-- A set with the middleware `Example.failToZero` and one eager task whose body fails
with error "e". -/
def Example.failingHeap : Heap :=
  (TaskSet.New { tasks := [], sets := [NewTaskSet [Example.failToZero]] } 0
    (fun _ _ => Prog.ret { Value := Any.nil, Err := some "e" }) []).1

/-- The program calls `Start` and then `Result` on the failing task. -/
def Example.failingStart : State :=
  TaskSet.Start
    (Example.stateOf Example.failingHeap
      [Goroutine.code (TaskSet.Result Example.failingHeap 0 Context.Background 0)])
    0 Context.Background

/-- The launcher, the worker (call of the body, write, close), then the caller of
`Result`. -/
def Example.failingSchedule : List Action :=
  [Action.run 1 false, Action.run 2 false, Action.run 2 false, Action.run 2 false,
   Action.run 0 false]

/-- A task that is launched and running, a caller of `Result` on it whose context belongs
to the cancellation scope 1, and a caller of `depend` with a context that is never
cancelled. -/
def Example.cancelState : State :=
  Example.stateOf Example.lazyHeap
    [Goroutine.code (TaskSet.Result Example.lazyHeap 0 (Context.Background.WithCancel 1) 0),
     Goroutine.code (Task.depend 0 Context.Background)]

/-- The task is launched, then the scope 1 is cancelled. -/
def Example.cancelPrefix : List Action :=
  [Action.run 1 false, Action.cancel 1 "context canceled"]

/-- The cancelled wait returns, the worker writes and closes, the other wait returns. -/
def Example.cancelRest : List Action :=
  [Action.run 0 true, Action.run 2 false, Action.run 2 false, Action.run 2 false,
   Action.run 1 false]

/-- Every call `t.depend(ctx)` that the goroutine still makes has its target in `L`, and
a worker is the worker of a task in `L`. -/
def Goroutine.within (L : TaskPtr → Prop) : Goroutine → Prop
  | Goroutine.code p => p.within L
  | Goroutine.worker t p => L t ∧ p.within L
  | Goroutine.closing t => L t
  | Goroutine.exited => True

/-- The invariant of a task `T` outside a set `L` of tasks that is closed under launches:
nothing calls `T.depend`, so `T` stays as it was registered. -/
structure LazyInv (L : TaskPtr → Prop) (h0 : Heap) (T : TaskPtr) (task : Task) (s : State) :
    Prop where
  static : s.heap.static = h0.static
  pool : ∀ x ∈ s.pool, x.within L
  here : s.heap.tasks[T]? = some task
  calls : callsOf T s.trace = []
  launches : launchesOf T s.trace = []
  stores : storesOf T s.trace = []

/-- The state of a program whose main goroutine has called `taskSet.Start(ctx)` and is
about to run `taskSet.Wait(wctx)`; goroutine 0 is the main goroutine. -/
def startThenWait (h : Heap) (ts : SetPtr) (ctx wctx : Context) : State :=
  TaskSet.Start (Example.stateOf h [Goroutine.code (TaskSet.Wait h ts wctx)]) ts ctx

/-- The sum of two `int` results, as `a + b` after the type assertions `.(int)`. -/
def Example.sum (a b : Result) : Prog :=
  match a.Value, b.Value with
  | Any.int x, Any.int y => Prog.ret { Value := Any.int (x + y), Err := none }
  | _, _ => Prog.panic "interface conversion: interface {} is not int"

/-- Task set 0 without middlewares; lazy tasks A, B, C (pointers 0, 1, 2) returning 1, 2
and 3; eager task D (pointer 3) whose body depends on A, then on B, and returns the sum. -/
def Example.lazySetHeap : Heap :=
  let h1 := (TaskSet.NewLazy Example.emptyHeap 0 Example.returnsOne []).1
  let h2 := (TaskSet.NewLazy h1 0
    (fun _ _ => Prog.ret { Value := Any.int 2, Err := none }) []).1
  let h3 := (TaskSet.NewLazy h2 0
    (fun _ _ => Prog.ret { Value := Any.int 3, Err := none }) []).1
  (TaskSet.New h3 0
    (fun ctx depend => (depend ctx 0).bind (fun a => (depend ctx 1).bind (Example.sum a))) []).1

/-- A schedule of `Start` and `Wait` on `Example.lazySetHeap` in which D, A and B run
to completion and `Wait` returns. -/
def Example.lazySetSchedule : List Action :=
  [Action.run 1 false, Action.run 2 false, Action.run 2 false, Action.run 3 false,
   Action.run 3 false, Action.run 3 false, Action.run 2 false, Action.run 2 false,
   Action.run 4 false, Action.run 4 false, Action.run 4 false, Action.run 2 false,
   Action.run 2 false, Action.run 2 false, Action.run 1 false, Action.run 0 false]

/-! ## `ErrGroup` inside a running program -/

/-- One call `depend.ErrGroup(ctx, tasks...)` inside a running program: the program, the
variables of the call, and for each entry of `tasks` the index in the pool of the
goroutine that evaluates `depend(ctx, task)` for it. -/
structure GroupRun where
  engine : State
  group : ErrGroupState
  callers : List Nat

/-- What the scheduler can do next while an `ErrGroup` call is in progress. -/
inductive RunAction where
  /-- An action of the program: a step of a goroutine or a cancellation. -/
  | engine (a : Action)
  /-- The call `depend(ctx, tasks[i])` has returned: its value reaches the test of `Err`. -/
  | ret (i : Nat)
  /-- The statement `if r.Err != nil { doneOnce.Do(...) }` of goroutine `i`. -/
  | publish (i : Nat)
  /-- The statement `if atomic.AddUint32(&doneCount, 1) == uint32(len(tasks)) { ... }`. -/
  | count (i : Nat)
deriving DecidableEq, Repr

/-- The loop of `ErrGroup`: one goroutine per entry of `tasks`, each starting with the call
`depend(ctx, task)`; then `ErrGroup` blocks in `<-done`. -/
def ErrGroup.start (s : State) (depend : Depend) (ctx : Context) (tasks : List TaskPtr) :
    GroupRun :=
  let awaiters := List.map (fun task => Goroutine.code (depend ctx task)) tasks
  { engine := { s with pool := s.pool ++ awaiters }
    group := ErrGroup.init tasks
    callers := List.range' s.pool.length tasks.length }

/-- The value `depend(ctx, tasks[i])` has returned in goroutine `i`, if it has. -/
def GroupRun.returnedBy (r : GroupRun) (i : Nat) : Option Result :=
  match r.callers[i]? with
  | some g =>
    match r.engine.pool[g]? with
    | some x => x.returned
    | none => none
  | none => none

def GroupRun.step (r : GroupRun) : RunAction → GroupRun
  | RunAction.engine a => { r with engine := act r.engine a }
  | RunAction.ret i =>
    match r.returnedBy i with
    | some res => { r with group := ErrGroup.step r.group (GroupAction.ret i res) }
    | none => r
  | RunAction.publish i => { r with group := ErrGroup.step r.group (GroupAction.publish i) }
  | RunAction.count i => { r with group := ErrGroup.step r.group (GroupAction.count i) }

def GroupRun.exec (r : GroupRun) (schedule : List RunAction) : GroupRun :=
  schedule.foldl GroupRun.step r

/-- The actions of the program in a schedule, without those of the `ErrGroup` call. -/
def engineActions : List RunAction → List Action
  | [] => []
  | RunAction.engine a :: rest => a :: engineActions rest
  | _ :: rest => engineActions rest

/-- The cancellations a list of actions makes. -/
def cancelsOf : List Action → List (Nat × String)
  | [] => []
  | Action.cancel scope cause :: rest => (scope, cause) :: cancelsOf rest
  | _ :: rest => cancelsOf rest

/-- Task set 0 without middlewares; A (pointer 0) fails with "fail", B (pointer 1) returns
`(2, nil)`, and C (pointer 2) is the task whose body calls `depend.ErrGroup(ctx, A, B)`
and afterwards `depend(ctx, B)`. -/
def Example.groupHeap : Heap :=
  let h1 := (TaskSet.New Example.emptyHeap 0
    (fun _ _ => Prog.ret { Value := Any.nil, Err := some "fail" }) []).1
  let h2 := (TaskSet.New h1 0 (fun _ _ => Prog.ret { Value := Any.int 2, Err := none }) []).1
  (TaskSet.New h2 0 (fun ctx depend => depend ctx 1) []).1

/-- The call `depend.ErrGroup(ctx, A, B)` made by C; goroutine 0 is C's later
`depend(ctx, B)`, goroutines 1 and 2 are the group's calls on A and B. -/
def Example.groupStart : GroupRun :=
  ErrGroup.start
    (Example.stateOf Example.groupHeap
      [Goroutine.code (Task.dependFunc Example.groupHeap 2
        (TaskSet.startContext 0 Context.Background) 1)])
    (Task.dependFunc Example.groupHeap 2) (TaskSet.startContext 0 Context.Background) [0, 1]

/-- A runs and fails and the group's call on A returns, while the call on B has not
even started. -/
def Example.groupFailure : List RunAction :=
  [RunAction.engine (Action.run 1 false), RunAction.engine (Action.run 3 false),
   RunAction.engine (Action.run 3 false), RunAction.engine (Action.run 3 false),
   RunAction.engine (Action.run 1 false), RunAction.ret 0]

/-- After the release: the group's call on B launches B, B completes, and C's later
`depend(ctx, B)` runs. -/
def Example.groupLater : List RunAction :=
  [RunAction.engine (Action.run 2 false), RunAction.engine (Action.run 4 false),
   RunAction.engine (Action.run 4 false), RunAction.engine (Action.run 4 false),
   RunAction.engine (Action.run 0 false), RunAction.engine (Action.run 0 false)]

/-! ## Properties (`task.go`, `properties/name.go`) -/

/-- `reflect.TypeOf(v).Comparable()` for a non-nil value `v`. -/
def Any.comparable : Any → Bool
  | Any.slice _ => false
  | _ => true

/-- The Go comparison `a == b` of two interface values of comparable types. -/
def Any.equal (a b : Any) : Bool :=
  match a with
  | Any.nan => false
  | _ => decide (a = b)

/-- The map read `m[key]`, the zero value nil when there is no entry. -/
def mapGet (m : List (Any × Any)) (key : Any) : Any :=
  match m.find? (fun p => Any.equal p.1 key) with
  | some p => p.2
  | none => Any.nil

/-- The map write `m[key] = val`: the entry of an equal key is overwritten, otherwise a new
entry is added. -/
def mapSet (m : List (Any × Any)) (key val : Any) : List (Any × Any) :=
  if m.any (fun p => Any.equal p.1 key) then
    m.map (fun p => if Any.equal p.1 key then (p.1, val) else p)
  else m ++ [(key, val)]

/-- `func (t *Task) Property(key interface{}) interface{}`; an error is a panic. -/
def Task.Property (t : Task) (key : Any) : Except String Any :=
  if key = Any.nil then Except.error "nil key"
  else if ¬ key.comparable then Except.error "key is not comparable"
  else Except.ok (mapGet t.properties key)

/-- `func (t *Task) ModifyProperty(key interface{}, modify func(interface{}) interface{})`:
the task after the call; an error is a panic. -/
def Task.ModifyProperty (t : Task) (key : Any) (modify : Any → Any) : Except String Task :=
  if key = Any.nil then Except.error "nil key"
  else if ¬ key.comparable then Except.error "key is not comparable"
  else Except.ok { t with properties := mapSet t.properties key (modify (mapGet t.properties key)) }

/-- The key `nameProperty{}` of `properties/name.go`. -/
def nameProperty : Any := Any.token 0

/-- `func WithName(name string) taskset.Property`; a panic of `ModifyProperty` would leave
the task as it is. -/
def WithName (name : String) : Task → Task := fun task =>
  match task.ModifyProperty nameProperty (fun _ => Any.str name) with
  | Except.ok t => t
  | Except.error _ => task

/-- `func Name(task *taskset.Task) string`; an error is a panic. -/
def Name (task : Task) : Except String String :=
  match task.Property nameProperty with
  | Except.ok Any.nil => Except.ok ""
  | Except.ok (Any.str s) => Except.ok s
  | Except.ok _ => Except.error "interface conversion: interface {} is not string"
  | Except.error e => Except.error e

/-! ## The printer middleware (`middleware_test.go`) -/

/-- The code left after a step that is not a wait. -/
def Prog.rest : Prog → Prog
  | Prog.once _ _ k => k
  | Prog.go _ k => k
  | Prog.print _ k => k
  | Prog.invoke _ _ k => k
  | p => p

/-- A call of `sync.Locker` that has returned. -/
inductive LockCall where
  | lock
  | unlock
deriving DecidableEq, Repr

/-- Where the `Run` hook of `NewConcurrencyLimiter` is, for one task. -/
inductive RunPc where
  /-- Before `task.ModifyProperty(dependCountProperty{}, ...)`. -/
  | counting
  /-- Before `getLock(task).Lock()`. -/
  | locking
  /-- Inside `next(ctx)`: the body of the task runs. -/
  | body
  /-- `next(ctx)` has returned; the deferred `getLock(task).Unlock()` is next. -/
  | unlocking
  | finished
deriving DecidableEq, Repr

/-- Where one call of the `Depend` hook of `NewConcurrencyLimiter` is. -/
inductive DependPc where
  /-- Before the first `task.ModifyProperty`, which increments the count. -/
  | entering
  /-- The count was 0: before `getLock(task).Unlock()`. -/
  | unlocking
  /-- Inside `next(ctx)`. -/
  | waiting
  /-- `next(ctx)` has returned: before the deferred `task.ModifyProperty`, which
  decrements the count. -/
  | leaving
  /-- The count is 0 again: before the deferred `getLock(task).Lock()`. -/
  | locking
  | finished
deriving DecidableEq, Repr

/-- The statements of the hooks of one task that the scheduler can run next; `i` numbers
the calls of the `Depend` hook in the order they began. -/
inductive LimiterAction where
  /-- `Run`: `task.ModifyProperty(dependCountProperty{}, func(_) { return uint(0) })`. -/
  | runCount
  /-- `Run`: `getLock(task).Lock()`. -/
  | runLock
  /-- `Run`: `next(ctx)` returns. -/
  | bodyReturns
  /-- `Run`: the deferred `getLock(task).Unlock()`. -/
  | runUnlock
  /-- The body, or a goroutine of `ErrGroup` or `SyncGroup` it started, calls `depend`. -/
  | start
  /-- `Depend`: the `ModifyProperty` that reads the count and stores the count plus one. -/
  | enter (i : Nat)
  /-- `Depend`: `if dependCount == 0 { getLock(task).Unlock() }`. -/
  | unlock (i : Nat)
  /-- `Depend`: `next(ctx)` returns. -/
  | nextReturns (i : Nat)
  /-- `Depend`, deferred: the `ModifyProperty` that stores the count minus one. -/
  | leave (i : Nat)
  /-- `Depend`, deferred: `if dependCount == 0 { getLock(task).Lock() }`. -/
  | lock (i : Nat)
deriving DecidableEq, Repr

/-- One task under `NewConcurrencyLimiter` whose lock is a `sync.Mutex` that no other
task uses: the mutex, the property `dependCountProperty{}`, the hooks' positions, the
`Lock` and `Unlock` calls made so far, and the fatal error that stopped the program. -/
structure LimiterState where
  locked : Bool
  dependCount : Nat
  runPc : RunPc
  depends : List DependPc
  calls : List LockCall
  fatal : Option String

/-- Arithmetic of the Go type `uint` (64 bits). -/
def uint (n : Int) : Nat := (n % 2 ^ 64).toNat

/-- `sync.Mutex.Lock`: `none` while the mutex is held, the call blocking. -/
def LimiterState.Lock (s : LimiterState) : Option LimiterState :=
  if s.locked then none
  else some { s with locked := true, calls := s.calls ++ [LockCall.lock] }

/-- `sync.Mutex.Unlock`: a fatal error when the mutex is not locked. -/
def LimiterState.Unlock (s : LimiterState) : LimiterState :=
  if s.locked then { s with locked := false, calls := s.calls ++ [LockCall.unlock] }
  else { s with calls := s.calls ++ [LockCall.unlock],
                fatal := some "sync: unlock of unlocked mutex" }

def Limiter.init : LimiterState :=
  { locked := false, dependCount := 0, runPc := RunPc.counting, depends := [], calls := [],
    fatal := none }

def Limiter.step (s : LimiterState) (a : LimiterAction) : LimiterState :=
  if s.fatal.isSome then s
  else
    match a with
    | LimiterAction.runCount =>
      if s.runPc = RunPc.counting then { s with dependCount := uint 0, runPc := RunPc.locking }
      else s
    | LimiterAction.runLock =>
      if s.runPc = RunPc.locking then
        match s.Lock with
        | some s2 => { s2 with runPc := RunPc.body }
        | none => s
      else s
    | LimiterAction.bodyReturns =>
      if s.runPc = RunPc.body then { s with runPc := RunPc.unlocking } else s
    | LimiterAction.runUnlock =>
      if s.runPc = RunPc.unlocking then { s.Unlock with runPc := RunPc.finished } else s
    | LimiterAction.start =>
      if s.runPc = RunPc.body then { s with depends := s.depends ++ [DependPc.entering] }
      else s
    | LimiterAction.enter i =>
      if s.depends[i]? = some DependPc.entering then
        let dependCount := s.dependCount
        { s with dependCount := uint ((dependCount : Int) + 1),
                 depends := s.depends.set i
                   (if dependCount = 0 then DependPc.unlocking else DependPc.waiting) }
      else s
    | LimiterAction.unlock i =>
      if s.depends[i]? = some DependPc.unlocking then
        { s.Unlock with depends := s.depends.set i DependPc.waiting }
      else s
    | LimiterAction.nextReturns i =>
      if s.depends[i]? = some DependPc.waiting then
        { s with depends := s.depends.set i DependPc.leaving }
      else s
    | LimiterAction.leave i =>
      if s.depends[i]? = some DependPc.leaving then
        let dependCount := uint ((s.dependCount : Int) - 1)
        { s with dependCount := dependCount,
                 depends := s.depends.set i
                   (if dependCount = 0 then DependPc.locking else DependPc.finished) }
      else s
    | LimiterAction.lock i =>
      if s.depends[i]? = some DependPc.locking then
        match s.Lock with
        | some s2 => { s2 with depends := s.depends.set i DependPc.finished }
        | none => s
      else s

def Limiter.exec (s : LimiterState) (schedule : List LimiterAction) : LimiterState :=
  schedule.foldl Limiter.step s

/-- The `Lock` and `Unlock` calls strictly alternate, starting with `Lock` and ending
with `Unlock`. -/
def alternates : List LockCall → Bool
  | [] => true
  | LockCall.lock :: LockCall.unlock :: rest => alternates rest
  | _ => false

/-- A body that makes one `depend` call and returns after it. -/
def Example.limiterSequential : List LimiterAction :=
  [LimiterAction.runCount, LimiterAction.runLock, LimiterAction.start,
   LimiterAction.enter 0, LimiterAction.unlock 0, LimiterAction.nextReturns 0,
   LimiterAction.leave 0, LimiterAction.lock 0, LimiterAction.bodyReturns,
   LimiterAction.runUnlock]

/-- A body that calls `depend.SyncGroup(ctx, A, B)`: the call on A goes through the hook
up to the decrement of the count, then the call on B enters the hook. -/
def Example.limiterRace : List LimiterAction :=
  [LimiterAction.runCount, LimiterAction.runLock, LimiterAction.start, LimiterAction.start,
   LimiterAction.enter 0, LimiterAction.unlock 0, LimiterAction.nextReturns 0,
   LimiterAction.leave 0, LimiterAction.enter 1, LimiterAction.unlock 1]

/-- A body that calls `depend.ErrGroup(ctx, A, B)` and returns when A has failed, the call
on B still being inside the hook. -/
def Example.limiterEarlyReturn : List LimiterAction :=
  [LimiterAction.runCount, LimiterAction.runLock, LimiterAction.start, LimiterAction.start,
   LimiterAction.enter 0, LimiterAction.unlock 0, LimiterAction.enter 1,
   LimiterAction.nextReturns 0, LimiterAction.leave 0, LimiterAction.bodyReturns,
   LimiterAction.runUnlock]

/-- The worker of task D of `Example.lazySetHeap` inside its `depend` on task A, which has
not been launched, with a context of the cancellation scope 1, which is cancelled. -/
def Example.cancelWorker : State :=
  { Example.stateOf Example.lazySetHeap
      [Goroutine.worker 3 (Prog.wait 0 (Context.Background.WithCancel 1)
        (Example.sum · { Value := Any.int 2, Err := none }))] with
    cancelled := [(1, "context canceled")] }

/-- `func NewRecover(handle func(interface{}) taskset.Result) taskset.Middleware` of
`middlewares/recover.go`: a panic of `next` is recovered and `handle` gives the result. -/
def NewRecover (handle : String → Result) : Middleware Prog :=
  { Run := some (fun ctx _ next => (next ctx).recover (fun msg => Prog.ret (handle msg)))
    Depend := none }

/-- A set without middlewares and one eager task whose body calls `runtime.Goexit()`. -/
def Example.goexitHeap : Heap :=
  (TaskSet.New Example.emptyHeap 0 (fun _ _ => Prog.goexit) []).1

/-- The program calls `Start` and then `Result` on the task of `Example.goexitHeap`. -/
def Example.goexitStart : State :=
  TaskSet.Start
    (Example.stateOf Example.goexitHeap
      [Goroutine.code (TaskSet.Result Example.goexitHeap 0 Context.Background 0)])
    0 Context.Background

/-- A set without middlewares and one eager task whose body panics with "boom". -/
def Example.panicHeap : Heap :=
  (TaskSet.New Example.emptyHeap 0 (fun _ _ => Prog.panic "boom") []).1

/-- The program calls `Start` and then `Result` on the task of `Example.panicHeap`. -/
def Example.panicStart : State :=
  TaskSet.Start
    (Example.stateOf Example.panicHeap
      [Goroutine.code (TaskSet.Result Example.panicHeap 0 Context.Background 0)])
    0 Context.Background

/-- The task is launched, its body is called and ends without returning, the deferred
close runs, and the wait of `Result` returns. -/
def Example.unwindSchedule : List Action :=
  [Action.run 1 false, Action.run 2 false, Action.run 2 false, Action.run 0 false]

/-- The set of `Example.panicHeap` with the middleware `NewRecover`, the handler turning
the panic into the error of a `Result`. -/
def Example.recoverHeap : Heap :=
  (TaskSet.New
    { tasks := [], sets := [NewTaskSet [NewRecover (fun msg => { Value := Any.nil, Err := some msg })]] }
    0 (fun _ _ => Prog.panic "boom") []).1

/-- The program calls `Start` and then `Result` on the task of `Example.recoverHeap`. -/
def Example.recoverStart : State :=
  TaskSet.Start
    (Example.stateOf Example.recoverHeap
      [Goroutine.code (TaskSet.Result Example.recoverHeap 0 Context.Background 0)])
    0 Context.Background

/-- The code never calls the run function of `T`, nor do the goroutines it starts. -/
def Prog.quiet (T : TaskPtr) : Prog → Prop
  | Prog.ret _ => True
  | Prog.once _ _ k => k.quiet T
  | Prog.wait _ _ k => ∀ res, (k res).quiet T
  | Prog.go p k => p.quiet T ∧ k.quiet T
  | Prog.print _ k => k.quiet T
  | Prog.panic _ => True
  | Prog.goexit => True
  | Prog.invoke t _ k => t ≠ T ∧ k.quiet T

/-- Whatever its waits return, the code calls the run function of `T` exactly once before
it returns and at most once if it panics or calls `runtime.Goexit()` instead; the
goroutines it starts never call it. -/
def Prog.invokesOnce (T : TaskPtr) : Prog → Prop
  | Prog.ret _ => False
  | Prog.once _ _ k => k.invokesOnce T
  | Prog.wait _ _ k => ∀ res, (k res).invokesOnce T
  | Prog.go p k => p.quiet T ∧ k.invokesOnce T
  | Prog.print _ k => k.invokesOnce T
  | Prog.panic _ => True
  | Prog.goexit => True
  | Prog.invoke t _ k => (t = T ∧ k.quiet T) ∨ (t ≠ T ∧ k.invokesOnce T)

/-- The contract "the hook invokes `next` exactly once", for the `Run` hook applied to task
`T`: whenever `next` is code that calls the run function of `T` exactly once, so is the
hook's own code. A hook that calls `next` twice, or returns without calling it, or calls
the run function by other means, does not satisfy it. -/
def RunHook.nextOnce (T : TaskPtr) (run : RunHook Prog) : Prop :=
  ∀ (ctx : Context) (next : Context → Prog),
    (∀ c, (next c).invokesOnce T) → (run ctx T next).invokesOnce T

/-- What the code of a goroutine may still do about the run function of `T`, when it has
been called `n` times: only the worker of `T` may call it, and only if `n` is 0. -/
def Goroutine.ok (T : TaskPtr) (n : Nat) : Goroutine → Prop
  | Goroutine.code p => p.quiet T
  | Goroutine.worker t p =>
    (t ≠ T ∧ p.quiet T) ∨ (t = T ∧ ((n = 0 ∧ p.invokesOnce T) ∨ (n = 1 ∧ p.quiet T)))
  | Goroutine.closing _ => True
  | Goroutine.exited => True

/-- The schedule in which the goroutines of the first `k` entries, one after the other,
see their `depend` call return and count. -/
def Example.countInTurn : Nat → List GroupAction
  | 0 => []
  | k + 1 =>
    Example.countInTurn k
      ++ [GroupAction.ret k { Value := Any.int 1, Err := none }, GroupAction.count k]

/-- The state of `SyncGroup` on `2 ^ 32 + 1` tasks after `Example.countInTurn k`. -/
def Example.countedInTurn (tasks : List TaskPtr) (k : Nat) : SyncGroupState :=
  { tasks := tasks,
    awaiter := fun i => if i < k then Awaiter.finished else Awaiter.calling,
    doneCount := uint32 k,
    done := decide (1 ≤ k),
    closedBy := if k = 0 then [] else if k ≤ 2 ^ 32 then [0] else [0, 2 ^ 32],
    counted := List.range k }

/-! ## Theorems: middleware composition -/

theorem foldl_compose_run {R : Type} (ms : List (Middleware R)) :
    ∀ (acc : Middleware R) (ctx : Context) (task : TaskPtr) (next : Context → R),
      runOr (ms.foldl composeMiddlewares acc).Run ctx task next
        = runOr acc.Run ctx task (fun c => nestRun ms c task next) := by
  induction ms with
  | nil => intro acc ctx task next; rfl
  | cons m rest ih =>
    intro acc ctx task next
    rw [List.foldl_cons, ih]
    cases ha : acc.Run <;> cases hm : m.Run <;>
      simp [composeMiddlewares, composeRun, runOr, nestRun, ha, hm]

theorem foldl_compose_depend {R : Type} (ms : List (Middleware R)) :
    ∀ (acc : Middleware R) (ctx : Context) (task dependency : TaskPtr) (next : Context → R),
      dependOr (ms.foldl composeMiddlewares acc).Depend ctx task dependency next
        = dependOr acc.Depend ctx task dependency
            (fun c => nestDepend ms c task dependency next) := by
  induction ms with
  | nil => intro acc ctx task dependency next; rfl
  | cons m rest ih =>
    intro acc ctx task dependency next
    rw [List.foldl_cons, ih]
    cases ha : acc.Depend <;> cases hm : m.Depend <;>
      simp [composeMiddlewares, composeDepend, dependOr, nestDepend, ha, hm]

theorem NewTaskSet_runAt {R : Type} (ms : List (Middleware R)) (ctx : Context)
    (task : TaskPtr) (next : Context → R) :
    (NewTaskSet ms).middleware.runAt ctx task next = some (nestRun ms ctx task next) := by
  have hr := foldl_compose_run ms { Run := none, Depend := none } ctx task next
  simp only [runOr] at hr
  unfold NewTaskSet chainMiddlewares Middleware.runAt
  cases h : (ms.foldl composeMiddlewares { Run := none, Depend := none }).Run with
  | none =>
    rw [h] at hr
    cases h2 : (ms.foldl composeMiddlewares { Run := none, Depend := none }).Depend <;>
      simp [h, h2, passRun, ← hr]
  | some r =>
    rw [h] at hr
    cases h2 : (ms.foldl composeMiddlewares { Run := none, Depend := none }).Depend <;>
      simp [h, h2, ← hr]

theorem NewTaskSet_dependAt {R : Type} (ms : List (Middleware R)) (ctx : Context)
    (task dependency : TaskPtr) (next : Context → R) :
    (NewTaskSet ms).middleware.dependAt ctx task dependency next
      = some (nestDepend ms ctx task dependency next) := by
  have hd := foldl_compose_depend ms { Run := none, Depend := none } ctx task dependency next
  simp only [dependOr] at hd
  unfold NewTaskSet chainMiddlewares Middleware.dependAt
  cases h : (ms.foldl composeMiddlewares { Run := none, Depend := none }).Depend with
  | none =>
    rw [h] at hd
    cases h2 : (ms.foldl composeMiddlewares { Run := none, Depend := none }).Run <;>
      simp [h, h2, passDepend, ← hd]
  | some r =>
    rw [h] at hd
    cases h2 : (ms.foldl composeMiddlewares { Run := none, Depend := none }).Run <;>
      simp [h, h2, ← hd]

/-- C5 (chain order and absent hooks): for every list of middlewares, the middleware of
`NewTaskSet(ms...)` has both hooks present; its `Run` hook on `(ctx, task, next)` is the
reference nesting `nestRun ms` (first entry outermost, entries without a `Run` hook
skipped, the empty list passing through), and likewise its `Depend` hook is `nestDepend ms`. -/
theorem NewTaskSet_chain_order {R : Type} (ms : List (Middleware R)) (ctx : Context)
    (task dependency : TaskPtr) (next : Context → R) :
    (NewTaskSet ms).middleware.runAt ctx task next = some (nestRun ms ctx task next)
    ∧ (NewTaskSet ms).middleware.dependAt ctx task dependency next
        = some (nestDepend ms ctx task dependency next) :=
  ⟨NewTaskSet_runAt ms ctx task next, NewTaskSet_dependAt ms ctx task dependency next⟩

/-- C6 (middleware associativity): `composeMiddlewares a (composeMiddlewares b c)` and
`composeMiddlewares (composeMiddlewares a b) c` are the same middleware: each hook is nil
in one exactly when it is nil in the other, and when present the two hooks produce the
same outcome (result and hook calls made) for every context, task, dependency and `next`. -/
theorem composeMiddlewares_assoc {R : Type} (a b c : Middleware R) (ctx : Context)
    (task dependency : TaskPtr) (next : Context → R) :
    composeMiddlewares a (composeMiddlewares b c)
        = composeMiddlewares (composeMiddlewares a b) c
    ∧ ((composeMiddlewares a (composeMiddlewares b c)).Run.isNone
        = (composeMiddlewares (composeMiddlewares a b) c).Run.isNone)
    ∧ ((composeMiddlewares a (composeMiddlewares b c)).Depend.isNone
        = (composeMiddlewares (composeMiddlewares a b) c).Depend.isNone)
    ∧ (composeMiddlewares a (composeMiddlewares b c)).runAt ctx task next
        = (composeMiddlewares (composeMiddlewares a b) c).runAt ctx task next
    ∧ (composeMiddlewares a (composeMiddlewares b c)).dependAt ctx task dependency next
        = (composeMiddlewares (composeMiddlewares a b) c).dependAt ctx task dependency next := by
  have h : composeMiddlewares a (composeMiddlewares b c)
      = composeMiddlewares (composeMiddlewares a b) c := by
    cases a with
    | mk ar ad =>
    cases b with
    | mk br bd =>
    cases c with
    | mk cr cd =>
    cases ar <;> cases br <;> cases cr <;> cases ad <;> cases bd <;> cases cd <;> rfl
  exact ⟨h, by rw [h], by rw [h], by rw [h], by rw [h]⟩

/-- C7 (middleware identity): composing with the pass-through pair `identity` on either
side gives, on every context, task and `next`, what the hook of `m` gives where `m` has
the hook and `next(ctx)` where it has none; and the zero `Middleware` (both hooks nil,
the seed of `chainMiddlewares`) is an exact two-sided unit of `composeMiddlewares`. -/
theorem composeMiddlewares_identity {R : Type} (m : Middleware R) (ctx : Context)
    (task dependency : TaskPtr) (next : Context → R) :
    (composeMiddlewares Middleware.identity m).runAt ctx task next
        = some (runOr m.Run ctx task next)
    ∧ (composeMiddlewares m Middleware.identity).runAt ctx task next
        = some (runOr m.Run ctx task next)
    ∧ (composeMiddlewares Middleware.identity m).dependAt ctx task dependency next
        = some (dependOr m.Depend ctx task dependency next)
    ∧ (composeMiddlewares m Middleware.identity).dependAt ctx task dependency next
        = some (dependOr m.Depend ctx task dependency next)
    ∧ composeMiddlewares Middleware.zero m = m
    ∧ composeMiddlewares m Middleware.zero = m
    ∧ chainMiddlewares ([] : List (Middleware R)) = Middleware.zero := by
  cases m with
  | mk mr md =>
  cases mr <;> cases md <;>
    simp [composeMiddlewares, composeRun, composeDepend, Middleware.identity, Middleware.zero,
      Middleware.runAt, Middleware.dependAt, runOr, dependOr, passRun, passDepend,
      chainMiddlewares]

/-! ## Theorems: once-only launch -/

theorem workersOf_set_same (T : TaskPtr) (pool : List Goroutine) (g : Nat) (x y : Goroutine)
    (hx : pool[g]? = some x) (hxy : x.tag = y.tag) :
    workersOf T (pool.set g y) = workersOf T pool := by
  have hlt : g < pool.length := by
    rcases List.getElem?_eq_some.1 hx with ⟨h, _⟩; exact h
  have hget : pool[g] = x := by
    rcases List.getElem?_eq_some.1 hx with ⟨_, h⟩; exact h
  unfold workersOf
  rw [List.countP_set _ _ _ _ hlt, hget, hxy]
  have := List.boole_getElem_le_countP (fun g => g.tag == some T) pool g hlt
  rw [hget, hxy] at this
  omega

theorem workersOf_pos (T : TaskPtr) (pool : List Goroutine) (g : Nat) (x : Goroutine)
    (hx : pool[g]? = some x) (hT : x.tag = some T) : 1 ≤ workersOf T pool := by
  have hlt : g < pool.length := by
    rcases List.getElem?_eq_some.1 hx with ⟨h, _⟩; exact h
  have hget : pool[g] = x := by
    rcases List.getElem?_eq_some.1 hx with ⟨_, h⟩; exact h
  have := List.boole_getElem_le_countP (fun g => g.tag == some T) pool g hlt
  rw [hget, hT] at this
  simpa [workersOf] using this

theorem workersOf_set_exit (T : TaskPtr) (pool : List Goroutine) (g : Nat) (x y : Goroutine)
    (hx : pool[g]? = some x) (hT : x.tag = some T) (hy : y.tag = none) :
    workersOf T (pool.set g y) = workersOf T pool - 1 := by
  have hlt : g < pool.length := by
    rcases List.getElem?_eq_some.1 hx with ⟨h, _⟩; exact h
  have hget : pool[g] = x := by
    rcases List.getElem?_eq_some.1 hx with ⟨_, h⟩; exact h
  unfold workersOf
  rw [List.countP_set _ _ _ _ hlt, hget, hT, hy]
  simp


theorem workersOf_append (T : TaskPtr) (pool : List Goroutine) (x : Goroutine) :
    workersOf T (pool ++ [x]) = workersOf T pool + (if x.tag = some T then 1 else 0) := by
  unfold workersOf
  rw [List.countP_append]
  by_cases h : x.tag = some T <;> simp [List.countP_cons, h]

theorem callsOf_append (T : TaskPtr) (tr tr2 : List Event) :
    callsOf T (tr ++ tr2) = callsOf T tr ++ callsOf T tr2 := by
  simp [callsOf]

theorem launchesOf_append (T : TaskPtr) (tr tr2 : List Event) :
    launchesOf T (tr ++ tr2) = launchesOf T tr ++ launchesOf T tr2 := by
  simp [launchesOf]

theorem donesOf_append (T : TaskPtr) (tr tr2 : List Event) :
    donesOf T (tr ++ tr2) = donesOf T tr ++ donesOf T tr2 := by
  simp [donesOf]

theorem setTask_same (h : Heap) (T : TaskPtr) (task x : Task) (ht : h.tasks[T]? = some task) :
    (h.setTask T x).tasks[T]? = some x := by
  have hlt : T < h.tasks.length := by
    rcases List.getElem?_eq_some.1 ht with ⟨h, _⟩; exact h
  simp [Heap.setTask, List.getElem?_set, hlt]

theorem setTask_other (h : Heap) (t T : TaskPtr) (x : Task) (hne : t ≠ T) :
    (h.setTask t x).tasks[T]? = h.tasks[T]? := by
  simp [Heap.setTask, List.getElem?_set, hne]

/-- An action that changes neither the heap, nor the workers, nor the recorded calls,
launches and completed waits of `T` keeps the invariant. -/
theorem workersOf_set_other (T : TaskPtr) (pool : List Goroutine) (g : Nat) (x y : Goroutine)
    (hx : pool[g]? = some x) (hxT : x.tag ≠ some T) (hyT : y.tag ≠ some T) :
    workersOf T (pool.set g y) = workersOf T pool := by
  have hlt : g < pool.length := by
    rcases List.getElem?_eq_some.1 hx with ⟨h, _⟩; exact h
  have hget : pool[g] = x := by
    rcases List.getElem?_eq_some.1 hx with ⟨_, h⟩; exact h
  unfold workersOf
  rw [List.countP_set _ _ _ _ hlt, hget]
  simp [hxT, hyT]

theorem unwound_tag (cause : Option String) : (Goroutine.unwound cause).tag = none := by
  cases cause <;> rfl

theorem OnceInv.frame {T : TaskPtr} {s s2 : State} {task : Task} (inv : OnceInv T s task)
    (hheap : s2.heap.tasks[T]? = s.heap.tasks[T]?)
    (hpool : workersOf T s2.pool = workersOf T s.pool)
    (hcalls : callsOf T s2.trace = callsOf T s.trace)
    (hlaunch : launchesOf T s2.trace = launchesOf T s.trace)
    (hdones : donesOf T s2.trace = donesOf T s.trace) : OnceInv T s2 task :=
  { here := by rw [hheap]; exact inv.here
    launches := by rw [hlaunch, hcalls]; exact inv.launches
    fired := by rw [hcalls]; exact inv.fired
    idle := by rw [hpool]; exact inv.idle
    running := by rw [hpool, hdones]; exact inv.running
    finished := by rw [hpool, hdones]; exact inv.finished }

theorem once_stepProg_inv (T : TaskPtr) (s : State) (task : Task) (g : Nat) (viaCtx : Bool)
    (wrap : Prog → Goroutine) (x : Goroutine) (inv : OnceInv T s task)
    (hx : s.pool[g]? = some x) (hwrap : ∀ q, (wrap q).tag = x.tag) (p : Prog) :
    ∃ task2, OnceInv T (stepProg s g viaCtx wrap p) task2 := by
  have hset : ∀ q, workersOf T (s.pool.set g (wrap q)) = workersOf T s.pool :=
    fun q => workersOf_set_same T s.pool g x (wrap q) hx (hwrap q).symm
  cases p with
  | ret r => exact ⟨task, inv⟩
  | goexit => exact ⟨task, inv⟩
  | panic msg => exact ⟨task, inv.frame rfl rfl rfl rfl rfl⟩
  | print str k =>
    refine ⟨task, inv.frame rfl (hset k) ?_ ?_ ?_⟩ <;>
      simp [stepProg, callsOf, launchesOf, donesOf]
  | invoke t ctx k =>
    refine ⟨task, inv.frame rfl (hset k) ?_ ?_ ?_⟩ <;>
      simp [stepProg, callsOf, launchesOf, donesOf]
  | go q k =>
    refine ⟨task, inv.frame rfl ?_ rfl rfl rfl⟩
    simp [stepProg, workersOf_append, hset, Goroutine.tag]
  | wait t ctx k =>
    simp only [stepProg]
    cases ht : s.heap.tasks[t]? with
    | none => exact ⟨task, inv.frame rfl rfl rfl rfl rfl⟩
    | some tk =>
      cases viaCtx with
      | true =>
        cases he : ctx.Err s.cancelled with
        | none => simpa [he] using ⟨task, inv⟩
        | some err =>
          refine ⟨task, ?_⟩
          simp only [he, if_true]
          refine inv.frame rfl (hset _) ?_ ?_ ?_ <;> simp [callsOf, launchesOf, donesOf]
      | false =>
        by_cases hd : tk.done = true
        · refine ⟨task, ?_⟩
          simp only [hd, if_true, Bool.false_eq_true, if_false]
          by_cases htT : t = T
          · subst htT
            have htk : tk = task := by
              have := inv.here; rw [ht] at this; exact Option.some.inj this
            subst htk
            have fin := inv.finished hd
            exact
              { here := inv.here
                launches := by
                  simpa [callsOf, launchesOf] using inv.launches
                fired := by simpa [callsOf] using inv.fired
                idle := by
                  intro h; have := (inv.idle h).2; rw [hd] at this; cases this
                running := by intro h; rw [hd] at h; cases h
                finished := by
                  intro _
                  refine ⟨by simpa [hset] using fin.1, ?_⟩
                  intro r hr
                  simp only [donesOf_append] at hr
                  rcases List.mem_append.1 hr with h | h
                  · exact fin.2 r h
                  · simp [donesOf] at h; exact h }
          · refine inv.frame rfl (hset _) ?_ ?_ ?_ <;>
              simp [callsOf, launchesOf, donesOf, htT]
        · simpa [hd] using ⟨task, inv⟩
  | once t ctx k =>
    simp only [stepProg]
    cases ht : s.heap.tasks[t]? with
    | none => exact ⟨task, inv.frame rfl rfl rfl rfl rfl⟩
    | some tk =>
      by_cases ho : tk.once = true
      · refine ⟨task, ?_⟩
        simp only [ho, if_true]
        by_cases htT : t = T
        · subst htT
          have htk : tk = task := by
            have := inv.here; rw [ht] at this; exact Option.some.inj this
          subst htk
          have hne := inv.fired.1 ho
          have hcalls : callsOf t (s.trace ++ [Event.dependCall t ctx])
              = callsOf t s.trace ++ [ctx] := by simp [callsOf]
          exact
            { here := inv.here
              launches := by
                show launchesOf t (s.trace ++ [Event.dependCall t ctx]) = _
                rw [hcalls, launchesOf_append, inv.launches]
                cases hc : callsOf t s.trace with
                | nil => exact absurd hc hne
                | cons c cs => simp [launchesOf]
              fired := by
                show _ ↔ callsOf t (s.trace ++ [Event.dependCall t ctx]) ≠ []
                rw [hcalls]; simp [ho]
              idle := by intro h; rw [ho] at h; cases h
              running := by
                intro h
                have := inv.running h
                refine ⟨by simpa [hset] using this.1, ?_⟩
                simpa [donesOf] using this.2
              finished := by
                intro h
                have := inv.finished h
                refine ⟨by simpa [hset] using this.1, ?_⟩
                simpa [donesOf] using this.2 }
        · refine inv.frame rfl (hset _) ?_ ?_ ?_ <;>
            simp [callsOf, launchesOf, donesOf, htT]
      · simp only [ho, if_false, Bool.false_eq_true]
        by_cases htT : t = T
        · subst htT
          have htk : tk = task := by
            have := inv.here; rw [ht] at this; exact Option.some.inj this
          subst htk
          have hof : tk.once = false := by simpa using ho
          have hidle := inv.idle hof
          have hnil : callsOf t s.trace = [] := by
            by_contra hc; exact ho (inv.fired.2 hc)
          have hrun := inv.running hidle.2
          refine ⟨{ tk with once := true }, ?_⟩
          exact
            { here := setTask_same _ _ _ _ inv.here
              launches := by
                show launchesOf t (s.trace ++ [Event.dependCall t ctx, Event.launch t ctx]) = (callsOf t (s.trace ++ [Event.dependCall t ctx, Event.launch t ctx])).take 1
                rw [launchesOf_append, callsOf_append, inv.launches, hnil]
                simp [launchesOf, callsOf]
              fired := by
                show _ ↔ callsOf t (s.trace ++ [Event.dependCall t ctx, Event.launch t ctx]) ≠ []
                rw [callsOf_append]; simp [callsOf]
              idle := by intro h; cases h
              running := by
                intro _
                refine ⟨?_, ?_⟩
                · show workersOf t (s.pool.set g (wrap k) ++ [Goroutine.worker t _]) ≤ 1
                  rw [workersOf_append, hset, hidle.1]; simp [Goroutine.tag]
                · show donesOf t (s.trace ++ [Event.dependCall t ctx, Event.launch t ctx]) = []
                  rw [donesOf_append, hrun.2]; simp [donesOf]
              finished := by
                intro h
                have : tk.done = true := h
                rw [hidle.2] at this; cases this }
        · refine ⟨task, inv.frame (setTask_other _ _ _ _ htT) ?_ ?_ ?_ ?_⟩
          · show workersOf T (s.pool.set g (wrap k) ++ [Goroutine.worker t _]) = _
            rw [workersOf_append, hset]; simp [Goroutine.tag, htT]
          · simp [callsOf, htT]
          · simp [launchesOf, htT]
          · simp [donesOf]


theorem once_step_inv (T : TaskPtr) (s : State) (task : Task) (g : Nat) (viaCtx : Bool)
    (inv : OnceInv T s task) : ∃ task2, OnceInv T (step s g viaCtx) task2 := by
  unfold step
  split
  · exact ⟨task, inv⟩
  · cases hx : s.pool[g]? with
    | none => exact ⟨task, inv⟩
    | some x =>
      cases x with
      | exited => exact ⟨task, inv⟩
      | code p => exact once_stepProg_inv T s task g viaCtx Goroutine.code _ inv hx (fun _ => rfl) p
      | worker t p =>
        simp only
        cases hr : p.returned with
        | none =>
          simp only
          cases ha : p.aborted with
          | none =>
            exact once_stepProg_inv T s task g viaCtx (Goroutine.worker t) _ inv hx
              (fun _ => rfl) p
          | some cause =>
            simp only
            cases ht : s.heap.tasks[t]? with
            | none => exact ⟨task, inv.frame rfl rfl rfl rfl rfl⟩
            | some tk =>
              simp only
              by_cases htT : t = T
              · subst htT
                have htk : tk = task := by
                  have := inv.here; rw [ht] at this; exact Option.some.inj this
                subst htk
                have hpos := workersOf_pos t s.pool g _ hx rfl
                have hexit : workersOf t (s.pool.set g (Goroutine.unwound cause))
                    = workersOf t s.pool - 1 :=
                  workersOf_set_exit t s.pool g _ _ hx rfl (unwound_tag cause)
                have hnd : tk.done = false := by
                  cases hd : tk.done with
                  | false => rfl
                  | true => have := (inv.finished hd).1; omega
                have hrun := inv.running hnd
                refine ⟨{ tk with done := true }, ?_⟩
                exact
                  { here := setTask_same _ _ _ _ inv.here
                    launches := by simpa [callsOf, launchesOf] using inv.launches
                    fired := by simpa [callsOf] using inv.fired
                    idle := by
                      intro h
                      have := (inv.idle h).1
                      omega
                    running := by intro h; cases h
                    finished := by
                      intro _
                      refine ⟨by rw [hexit]; omega, ?_⟩
                      intro r hr
                      have : donesOf t (s.trace ++ [Event.unwind t cause, Event.close t])
                          = [] := by
                        rw [donesOf_append, hrun.2]; simp [donesOf]
                      rw [this] at hr
                      cases hr }
              · have hset : workersOf T (s.pool.set g (Goroutine.unwound cause))
                    = workersOf T s.pool :=
                  workersOf_set_other T s.pool g _ _ hx
                    (by simp [Goroutine.tag, htT]) (by simp [unwound_tag])
                refine ⟨task, inv.frame (setTask_other _ _ _ _ htT) hset ?_ ?_ ?_⟩ <;>
                  simp [callsOf, launchesOf, donesOf]
        | some r =>
          simp only
          cases ht : s.heap.tasks[t]? with
          | none => exact ⟨task, inv.frame rfl rfl rfl rfl rfl⟩
          | some tk =>
            simp only
            have hset : workersOf T (s.pool.set g (Goroutine.closing t)) = workersOf T s.pool :=
              workersOf_set_same T s.pool g _ _ hx rfl
            by_cases htT : t = T
            · subst htT
              have htk : tk = task := by
                have := inv.here; rw [ht] at this; exact Option.some.inj this
              subst htk
              have hpos := workersOf_pos t s.pool g _ hx rfl
              refine ⟨{ tk with result := r }, ?_⟩
              exact
                { here := setTask_same _ _ _ _ inv.here
                  launches := by simpa [callsOf, launchesOf] using inv.launches
                  fired := by simpa [callsOf] using inv.fired
                  idle := by
                    intro h
                    have := inv.idle h
                    exact ⟨by rw [hset]; exact this.1, this.2⟩
                  running := by
                    intro h
                    have := inv.running h
                    exact ⟨by rw [hset]; exact this.1, by simpa [donesOf] using this.2⟩
                  finished := by
                    intro h
                    have := (inv.finished h).1
                    omega }
            · refine ⟨task, inv.frame (setTask_other _ _ _ _ htT) hset ?_ ?_ ?_⟩ <;>
                simp [callsOf, launchesOf, donesOf]
      | closing t =>
        simp only
        cases ht : s.heap.tasks[t]? with
        | none => exact ⟨task, inv.frame rfl rfl rfl rfl rfl⟩
        | some tk =>
          simp only
          by_cases htT : t = T
          · subst htT
            have htk : tk = task := by
              have := inv.here; rw [ht] at this; exact Option.some.inj this
            subst htk
            have hpos := workersOf_pos t s.pool g _ hx rfl
            have hexit : workersOf t (s.pool.set g Goroutine.exited) = workersOf t s.pool - 1 :=
              workersOf_set_exit t s.pool g _ _ hx rfl rfl
            have hnd : tk.done = false := by
              cases hd : tk.done with
              | false => rfl
              | true => have := (inv.finished hd).1; omega
            have hrun := inv.running hnd
            refine ⟨{ tk with done := true }, ?_⟩
            exact
              { here := setTask_same _ _ _ _ inv.here
                launches := by simpa [callsOf, launchesOf] using inv.launches
                fired := by simpa [callsOf] using inv.fired
                idle := by
                  intro h
                  have := (inv.idle h).1
                  omega
                running := by intro h; cases h
                finished := by
                  intro _
                  refine ⟨by rw [hexit]; omega, ?_⟩
                  intro r hr
                  have : donesOf t (s.trace ++ [Event.close t]) = [] := by
                    rw [donesOf_append, hrun.2]; simp [donesOf]
                  rw [this] at hr
                  cases hr }
          · have hset : workersOf T (s.pool.set g Goroutine.exited) = workersOf T s.pool := by
              have hlt : g < s.pool.length := by
                rcases List.getElem?_eq_some.1 hx with ⟨h, _⟩; exact h
              have hget : s.pool[g] = Goroutine.closing t := by
                rcases List.getElem?_eq_some.1 hx with ⟨_, h⟩; exact h
              unfold workersOf
              rw [List.countP_set _ _ _ _ hlt, hget]
              simp [Goroutine.tag, htT]
            refine ⟨task, inv.frame (setTask_other _ _ _ _ htT) hset ?_ ?_ ?_⟩ <;>
              simp [callsOf, launchesOf, donesOf]

theorem once_exec_inv (T : TaskPtr) (schedule : List Action) :
    ∀ (s : State) (task : Task), OnceInv T s task →
      ∃ task2, OnceInv T (exec s schedule) task2 := by
  induction schedule with
  | nil => intro s task inv; exact ⟨task, inv⟩
  | cons a rest ih =>
    intro s task inv
    have h1 : ∃ task1, OnceInv T (act s a) task1 := by
      cases a with
      | run g viaCtx => exact once_step_inv T s task g viaCtx inv
      | cancel scope cause => exact ⟨task, inv.frame rfl rfl rfl rfl rfl⟩
    rcases h1 with ⟨task1, inv1⟩
    exact ih (act s a) task1 inv1

theorem nodup_lt_length_le (l : List Nat) (n : Nat) (hnd : l.Nodup) (hlt : ∀ x ∈ l, x < n) :
    l.length ≤ n := by
  have hsub : l.toFinset ⊆ Finset.range n := by
    intro x hx
    exact Finset.mem_range.2 (hlt x (List.mem_toFinset.1 hx))
  have := Finset.card_le_card hsub
  rwa [List.toFinset_card_of_nodup hnd, Finset.card_range] at this

theorem nodup_lt_length_eq (l : List Nat) (n : Nat) (hnd : l.Nodup) (hlt : ∀ x ∈ l, x < n)
    (hlen : l.length = n) : ∀ i, i < n → i ∈ l := by
  have hsub : l.toFinset ⊆ Finset.range n := by
    intro x hx
    exact Finset.mem_range.2 (hlt x (List.mem_toFinset.1 hx))
  have hcard : (Finset.range n).card ≤ l.toFinset.card := by
    rw [List.toFinset_card_of_nodup hnd, Finset.card_range, hlen]
  have heq := Finset.eq_of_subset_of_card_le hsub hcard
  intro i hi
  have : i ∈ l.toFinset := by rw [heq]; exact Finset.mem_range.2 hi
  exact List.mem_toFinset.1 this

/-- The counter reaches `uint32(len)` only at the increment number `len`, while the
increments made are at most `len` and `len` is between 1 and `2 ^ 32`. -/
theorem uint32_succ_eq_iff (c n : Nat) (hc : c + 1 ≤ n) (hn : n ≤ 2 ^ 32) :
    uint32 (uint32 c + 1) = uint32 n ↔ c + 1 = n := by
  unfold uint32
  constructor
  · intro h
    have h1 : (c % 2 ^ 32 + 1) % 2 ^ 32 = (c + 1) % 2 ^ 32 := by omega
    rw [h1] at h
    omega
  · intro h
    subst h
    omega

theorem ErrGroup_step_tasks (s : ErrGroupState) (a : GroupAction) :
    (ErrGroup.step s a).tasks = s.tasks := by
  cases a with
  | ret i r => simp only [ErrGroup.step]; split <;> rfl
  | publish i =>
    simp only [ErrGroup.step]
    split
    · split <;> rfl
    · rfl
  | count i =>
    simp only [ErrGroup.step]
    split
    · split <;> rfl
    · rfl

theorem ErrGroup_winner_append_of_none (tasks : List TaskPtr) (published : List (Nat × Result))
    (p : Nat × Result) (h : ∀ q ∈ published, q.2.Err = none) :
    ErrGroup.winner tasks (published ++ [p])
      = if p.2.Err.isSome then tasks[p.1]? else none := by
  have hf : published.find? (fun q => q.2.Err.isSome) = none := by
    rw [List.find?_eq_none]
    intro q hq
    simp [h q hq]
  unfold ErrGroup.winner
  rw [List.find?_append, hf]
  by_cases hp : p.2.Err.isSome <;> simp [hp]

theorem ErrGroup_winner_append_of_some (tasks : List TaskPtr) (published : List (Nat × Result))
    (p : Nat × Result) (h : ∃ q ∈ published, q.2.Err ≠ none) :
    ErrGroup.winner tasks (published ++ [p]) = ErrGroup.winner tasks published := by
  rcases h with ⟨q, hq, hne⟩
  unfold ErrGroup.winner
  rw [List.find?_append]
  cases hf : published.find? (fun q => q.2.Err.isSome) with
  | some x => rfl
  | none =>
    rw [List.find?_eq_none] at hf
    have := hf q hq
    simp [Option.isSome_iff_ne_none, hne] at this

theorem ErrGroup_step_inv (s : ErrGroupState) (a : GroupAction) (inv : ErrInv s) :
    ErrInv (ErrGroup.step s a) := by
  cases a with
  | ret i r =>
    simp only [ErrGroup.step]
    split
    · rename_i hc
      have hcall := hc.2
      exact
        { pos := inv.pos
          bound := inv.bound
          once_done := inv.once_done
          count_eq := inv.count_eq
          nodup := inv.nodup
          counted_iff := by
            intro j
            by_cases hj : j = i
            · subst hj
              simp only [Function.update_same]
              constructor
              · intro h; have := (inv.counted_iff j).1 h; rw [hcall] at this; cases this
              · intro h; cases h
            · simp only [Function.update_noteq hj]; exact inv.counted_iff j
          lt := by
            intro j
            by_cases hj : j = i
            · subst hj; intro _; exact hc.1
            · simp only [Function.update_noteq hj]; exact inv.lt j
          pub_of := by
            intro j
            by_cases hj : j = i
            · subst hj
              simp only [Function.update_same]
              intro h; rcases h with h | h <;> cases h
            · simp only [Function.update_noteq hj]; exact inv.pub_of j
          pub_lt := inv.pub_lt
          idle := inv.idle
          fired := by
            intro h
            refine ⟨(inv.fired h).1, ?_⟩
            intro hr
            have := ((inv.fired h).2 hr).2 i hc.1
            rw [hcall] at this; cases this
          live := inv.live }
    · exact inv
  | publish i =>
    simp only [ErrGroup.step]
    cases hA : s.awaiter i with
    | calling => exact inv
    | counting => exact inv
    | finished => exact inv
    | returned r =>
      simp only
      have hlt : i < s.tasks.length := inv.lt i (by rw [hA]; intro h; cases h)
      have hnotin : i ∉ s.counted := by
        intro h; have := (inv.counted_iff i).1 h; rw [hA] at this; cases this
      have hci : ∀ j, j ∈ s.counted ↔ Function.update s.awaiter i Awaiter.counting j = Awaiter.finished := by
        intro j
        by_cases hj : j = i
        · subst hj
          simp only [Function.update_same]
          constructor
          · intro h; exact absurd h hnotin
          · intro h; cases h
        · simp only [Function.update_noteq hj]; exact inv.counted_iff j
      have hltu : ∀ j, Function.update s.awaiter i Awaiter.counting j ≠ Awaiter.calling →
          j < s.tasks.length := by
        intro j
        by_cases hj : j = i
        · subst hj; intro _; exact hlt
        · simp only [Function.update_noteq hj]; exact inv.lt j
      have hpub : ∀ j, Function.update s.awaiter i Awaiter.counting j = Awaiter.counting ∨
          Function.update s.awaiter i Awaiter.counting j = Awaiter.finished →
          ∃ r2, (j, r2) ∈ s.published ++ [(i, r)] := by
        intro j
        by_cases hj : j = i
        · subst hj; intro _; exact ⟨r, by simp⟩
        · simp only [Function.update_noteq hj]
          intro h
          rcases inv.pub_of j h with ⟨r2, hr2⟩
          exact ⟨r2, List.mem_append_left _ hr2⟩
      have hplt : ∀ p ∈ s.published ++ [(i, r)], p.1 < s.tasks.length := by
        intro p hp
        rcases List.mem_append.1 hp with h | h
        · exact inv.pub_lt p h
        · simp at h; subst h; exact hlt
      have hsome : ∃ tk, s.tasks[i]? = some tk := ⟨s.tasks[i], List.getElem?_eq_getElem hlt⟩
      split
      · rename_i hc
        have hidle := inv.idle hc.2
        have hErr : r.Err.isSome = true := by
          cases hE : r.Err with
          | none => exact absurd hE hc.1
          | some e => rfl
        exact
          { pos := inv.pos
            bound := inv.bound
            once_done := rfl
            count_eq := inv.count_eq
            nodup := inv.nodup
            counted_iff := hci
            lt := hltu
            pub_of := hpub
            pub_lt := hplt
            idle := by intro h; cases h
            fired := by
              intro _
              refine ⟨?_, ?_⟩
              · show s.tasks[i]? = ErrGroup.winner s.tasks (s.published ++ [(i, r)])
                rw [ErrGroup_winner_append_of_none _ _ _ hidle.2]
                simp [hErr]
              · intro hr
                rcases hsome with ⟨tk, htk⟩
                have : s.tasks[i]? = none := hr
                rw [htk] at this; cases this
            live := fun _ => rfl }
      · rename_i hc
        have hcase : r.Err = none ∨ s.doneOnce = true := by
          by_cases h1 : r.Err = none
          · exact Or.inl h1
          · right
            cases h2 : s.doneOnce with
            | true => rfl
            | false => exact absurd ⟨h1, h2⟩ hc
        exact
          { pos := inv.pos
            bound := inv.bound
            once_done := inv.once_done
            count_eq := inv.count_eq
            nodup := inv.nodup
            counted_iff := hci
            lt := hltu
            pub_of := hpub
            pub_lt := hplt
            idle := by
              intro h
              have hidle := inv.idle h
              refine ⟨hidle.1, ?_⟩
              intro p hp
              rcases List.mem_append.1 hp with hp | hp
              · exact hidle.2 p hp
              · simp at hp; subst hp
                rcases hcase with h1 | h1
                · exact h1
                · have h2 : s.doneOnce = false := h
                  rw [h1] at h2; cases h2
            fired := by
              intro h
              have hf := inv.fired h
              have hres : s.result ≠ none := by
                intro hr
                have := (hf.2 hr).2 i hlt
                rw [hA] at this; cases this
              refine ⟨?_, fun hr => absurd hr hres⟩
              show s.result = ErrGroup.winner s.tasks (s.published ++ [(i, r)])
              rw [ErrGroup_winner_append_of_some, ← hf.1]
              by_contra hno
              apply hres
              rw [hf.1]
              have hall : ∀ q ∈ s.published, q.2.Err = none := by
                intro q hq
                by_contra hq2
                exact hno ⟨q, hq, hq2⟩
              unfold ErrGroup.winner
              have hfn : s.published.find? (fun q => q.2.Err.isSome) = none := by
                rw [List.find?_eq_none]
                intro q hq
                simp [hall q hq]
              rw [hfn]
            live := inv.live }
  | count i =>
    simp only [ErrGroup.step]
    cases hA : s.awaiter i with
    | calling => exact inv
    | returned r => exact inv
    | finished => exact inv
    | counting =>
      simp only
      have hlt : i < s.tasks.length := inv.lt i (by rw [hA]; intro h; cases h)
      have hnotin : i ∉ s.counted := by
        intro h; have := (inv.counted_iff i).1 h; rw [hA] at this; cases this
      have hnd : (s.counted ++ [i]).Nodup := by
        rw [List.nodup_append]
        refine ⟨inv.nodup, List.nodup_singleton i, ?_⟩
        intro x hx hx2
        simp at hx2; subst hx2; exact hnotin hx
      have hall_lt : ∀ x ∈ s.counted ++ [i], x < s.tasks.length := by
        intro x hx
        rcases List.mem_append.1 hx with h | h
        · exact inv.lt x (by rw [(inv.counted_iff x).1 h]; intro h2; cases h2)
        · simp at h; subst h; exact hlt
      have hlen : s.counted.length + 1 ≤ s.tasks.length := by
        have := nodup_lt_length_le _ _ hnd hall_lt
        simpa using this
      have hci : ∀ j, j ∈ s.counted ++ [i] ↔
          Function.update s.awaiter i Awaiter.finished j = Awaiter.finished := by
        intro j
        by_cases hj : j = i
        · subst hj; simp
        · simp only [Function.update_noteq hj, List.mem_append, List.mem_singleton, hj, or_false]
          exact inv.counted_iff j
      have hltu : ∀ j, Function.update s.awaiter i Awaiter.finished j ≠ Awaiter.calling →
          j < s.tasks.length := by
        intro j
        by_cases hj : j = i
        · subst hj; intro _; exact hlt
        · simp only [Function.update_noteq hj]; exact inv.lt j
      have hpub : ∀ j, Function.update s.awaiter i Awaiter.finished j = Awaiter.counting ∨
          Function.update s.awaiter i Awaiter.finished j = Awaiter.finished →
          ∃ r2, (j, r2) ∈ s.published := by
        intro j
        by_cases hj : j = i
        · subst hj; intro _; exact inv.pub_of j (Or.inl hA)
        · simp only [Function.update_noteq hj]; exact inv.pub_of j
      have hcnt : uint32 (s.doneCount + 1) = uint32 (s.counted ++ [i]).length := by
        rw [inv.count_eq]
        simp only [List.length_append, List.length_singleton]
        unfold uint32; omega
      have hiff := uint32_succ_eq_iff s.counted.length s.tasks.length hlen inv.bound
      rw [← inv.count_eq] at hiff
      have hfin_all : s.counted.length + 1 = s.tasks.length →
          ∀ j, j < s.tasks.length → Function.update s.awaiter i Awaiter.finished j = Awaiter.finished := by
        intro h j hj
        have := nodup_lt_length_eq _ _ hnd hall_lt (by simpa using h) j hj
        exact (hci j).1 this
      split
      · rename_i hc
        have hidle := inv.idle hc.2
        have hfull := hiff.1 hc.1
        exact
          { pos := inv.pos
            bound := inv.bound
            once_done := rfl
            count_eq := hcnt
            nodup := hnd
            counted_iff := hci
            lt := hltu
            pub_of := hpub
            pub_lt := inv.pub_lt
            idle := by intro h; cases h
            fired := by
              intro _
              refine ⟨?_, fun _ => ⟨hidle.2, hfin_all hfull⟩⟩
              show s.result = ErrGroup.winner s.tasks s.published
              rw [hidle.1]
              unfold ErrGroup.winner
              have hfn : s.published.find? (fun q => q.2.Err.isSome) = none := by
                rw [List.find?_eq_none]
                intro q hq
                simp [hidle.2 q hq]
              rw [hfn]
            live := fun _ => rfl }
      · rename_i hc
        exact
          { pos := inv.pos
            bound := inv.bound
            once_done := inv.once_done
            count_eq := hcnt
            nodup := hnd
            counted_iff := hci
            lt := hltu
            pub_of := hpub
            pub_lt := inv.pub_lt
            idle := inv.idle
            fired := by
              intro h
              have hf := inv.fired h
              refine ⟨hf.1, ?_⟩
              intro hr
              refine ⟨(hf.2 hr).1, ?_⟩
              intro j hj
              by_cases hji : j = i
              · subst hji; simp
              · simp only [Function.update_noteq hji]; exact (hf.2 hr).2 j hj
            live := by
              intro h
              have hfull : s.counted.length + 1 = s.tasks.length := by simpa using h
              cases h2 : s.doneOnce with
              | true => rfl
              | false => exact absurd ⟨hiff.2 hfull, h2⟩ hc }

theorem ErrGroup_exec_inv (schedule : List GroupAction) :
    ∀ s : ErrGroupState, ErrInv s → ErrInv (ErrGroup.exec s schedule) := by
  induction schedule with
  | nil => intro s inv; exact inv
  | cons a rest ih => intro s inv; exact ih _ (ErrGroup_step_inv s a inv)

theorem ErrGroup_init_inv (tasks : List TaskPtr) (hpos : tasks ≠ []) (hbound : tasks.length ≤ 2 ^ 32) :
    ErrInv (ErrGroup.init tasks) :=
  { pos := List.length_pos.2 hpos
    bound := hbound
    once_done := rfl
    count_eq := rfl
    nodup := List.nodup_nil
    counted_iff := by intro i; simp [ErrGroup.init]
    lt := by intro i h; exact absurd rfl h
    pub_of := by intro i h; rcases h with h | h <;> cases h
    pub_lt := by intro p hp; cases hp
    idle := by intro _; exact ⟨rfl, by intro p hp; cases hp⟩
    fired := by intro h; cases h
    live := by
      intro h
      have h1 : tasks.length = 0 := h.symm
      exact absurd (List.length_eq_zero.1 h1) hpos }

theorem ErrGroup_step_stable (s : ErrGroupState) (a : GroupAction) (inv : ErrInv s)
    (hd : s.done = true) :
    (ErrGroup.step s a).done = true ∧ (ErrGroup.step s a).result = s.result := by
  have ho : s.doneOnce = true := by rw [inv.once_done]; exact hd
  cases a with
  | ret i r => simp only [ErrGroup.step]; split <;> exact ⟨hd, rfl⟩
  | publish i =>
    simp only [ErrGroup.step]
    split
    · simp [ho, hd]
    · exact ⟨hd, rfl⟩
  | count i =>
    simp only [ErrGroup.step]
    split
    · simp [ho, hd]
    · exact ⟨hd, rfl⟩

theorem ErrGroup_exec_stable (more : List GroupAction) :
    ∀ s : ErrGroupState, ErrInv s → s.done = true →
      (ErrGroup.exec s more).done = true ∧ (ErrGroup.exec s more).result = s.result := by
  induction more with
  | nil => intro s _ hd; exact ⟨hd, rfl⟩
  | cons a rest ih =>
    intro s inv hd
    have h1 := ErrGroup_step_stable s a inv hd
    have h2 := ih (ErrGroup.step s a) (ErrGroup_step_inv s a inv) h1.1
    exact ⟨h2.1, h2.2.trans h1.2⟩

theorem ErrGroup_exec_tasks (schedule : List GroupAction) :
    ∀ s : ErrGroupState, (ErrGroup.exec s schedule).tasks = s.tasks := by
  induction schedule with
  | nil => intro s; rfl
  | cons a rest ih => intro s; exact (ih _).trans (ErrGroup_step_tasks s a)

theorem length_ge_of_all_mem (l : List Nat) (n : Nat) (h : ∀ i, i < n → i ∈ l) : n ≤ l.length := by
  have hsub : Finset.range n ⊆ l.toFinset := by
    intro x hx
    exact List.mem_toFinset.2 (h x (Finset.mem_range.1 hx))
  have := Finset.card_le_card hsub
  rw [Finset.card_range] at this
  exact this.trans (List.toFinset_card_le l)

/-- `ErrGroup` where `uint32(len(tasks))` is exact: for every non-empty list of at most
`2 ^ 32` tasks, whatever the awaited `depend` calls return and in every order of the
goroutines' actions: once `ErrGroup` is released, the task it returns is the
task of the first published result that carries an error, nil when no published result
does; it returns nil exactly when every published result has a nil error, and then every
listed task has been awaited and published a nil error; when every goroutine has
finished, `ErrGroup` has been released; and after the release no later failure or count
changes the released state or the result. -/
theorem ErrGroup_first_failure (tasks : List TaskPtr) (schedule more : List GroupAction)
    (hpos : tasks ≠ []) (hbound : tasks.length ≤ 2 ^ 32) :
    ((ErrGroup.exec (ErrGroup.init tasks) schedule).done = true →
        (ErrGroup.exec (ErrGroup.init tasks) schedule).result
          = ErrGroup.winner tasks (ErrGroup.exec (ErrGroup.init tasks) schedule).published)
    ∧ ((ErrGroup.exec (ErrGroup.init tasks) schedule).done = true →
        ((ErrGroup.exec (ErrGroup.init tasks) schedule).result = none ↔
          ∀ p ∈ (ErrGroup.exec (ErrGroup.init tasks) schedule).published, p.2.Err = none))
    ∧ ((ErrGroup.exec (ErrGroup.init tasks) schedule).done = true →
        (ErrGroup.exec (ErrGroup.init tasks) schedule).result = none →
        ∀ i, i < tasks.length →
          ∃ r, (i, r) ∈ (ErrGroup.exec (ErrGroup.init tasks) schedule).published ∧ r.Err = none)
    ∧ ((∀ i, i < tasks.length →
          (ErrGroup.exec (ErrGroup.init tasks) schedule).awaiter i = Awaiter.finished) →
        (ErrGroup.exec (ErrGroup.init tasks) schedule).done = true)
    ∧ ((ErrGroup.exec (ErrGroup.init tasks) schedule).done = true →
        (ErrGroup.exec (ErrGroup.exec (ErrGroup.init tasks) schedule) more).done = true
        ∧ (ErrGroup.exec (ErrGroup.exec (ErrGroup.init tasks) schedule) more).result
            = (ErrGroup.exec (ErrGroup.init tasks) schedule).result) := by
  have inv := ErrGroup_exec_inv schedule _ (ErrGroup_init_inv tasks hpos hbound)
  have htasks : (ErrGroup.exec (ErrGroup.init tasks) schedule).tasks = tasks :=
    ErrGroup_exec_tasks schedule _
  generalize ErrGroup.exec (ErrGroup.init tasks) schedule = s at inv htasks ⊢
  have hfired : s.done = true → s.doneOnce = true := fun h => by rw [inv.once_done]; exact h
  refine ⟨?_, ?_, ?_, ?_, ?_⟩
  · intro hd
    rw [← htasks]; exact (inv.fired (hfired hd)).1
  · intro hd
    have hf := inv.fired (hfired hd)
    constructor
    · intro hr; exact (hf.2 hr).1
    · intro hall
      rw [hf.1]
      unfold ErrGroup.winner
      have hfn : s.published.find? (fun q => q.2.Err.isSome) = none := by
        rw [List.find?_eq_none]
        intro q hq
        simp [hall q hq]
      rw [hfn]
  · intro hd hr i hi
    have hf := (inv.fired (hfired hd)).2 hr
    rcases inv.pub_of i (Or.inr (hf.2 i (by rw [htasks]; exact hi))) with ⟨r, hmem⟩
    exact ⟨r, hmem, hf.1 _ hmem⟩
  · intro hall
    rw [← inv.once_done]
    apply inv.live
    have hmem : ∀ i, i < s.tasks.length → i ∈ s.counted := by
      intro i hi
      exact (inv.counted_iff i).2 (hall i (by rw [← htasks]; exact hi))
    have h1 := length_ge_of_all_mem _ _ hmem
    have h2 := nodup_lt_length_le s.counted s.tasks.length inv.nodup (by
      intro x hx
      exact inv.lt x (by rw [(inv.counted_iff x).1 hx]; intro h; cases h))
    omega
  · intro hd
    exact ErrGroup_exec_stable more s inv hd

theorem ErrGroup_overflow_run (tasks : List TaskPtr) (h : tasks.length = 2 ^ 32 + 1)
    (r0 r1 : Result) (h0 : r0.Err = none) :
    ErrGroup.returns (ErrGroup.exec (ErrGroup.init tasks)
        [GroupAction.ret 0 r0, GroupAction.publish 0, GroupAction.count 0])
      = some none
    ∧ (ErrGroup.exec (ErrGroup.init tasks)
        [GroupAction.ret 0 r0, GroupAction.publish 0, GroupAction.count 0]).awaiter 1
      = Awaiter.calling
    ∧ ErrGroup.returns (ErrGroup.exec (ErrGroup.init tasks)
        [GroupAction.ret 0 r0, GroupAction.publish 0, GroupAction.count 0,
         GroupAction.ret 1 r1, GroupAction.publish 1])
      = some none
    ∧ (ErrGroup.exec (ErrGroup.init tasks)
        [GroupAction.ret 0 r0, GroupAction.publish 0, GroupAction.count 0,
         GroupAction.ret 1 r1, GroupAction.publish 1]).published
      = [(0, r0), (1, r1)] := by
  have hu : uint32 (0 + 1) = uint32 tasks.length := by rw [h]; unfold uint32; norm_num
  simp [ErrGroup.exec, ErrGroup.step, ErrGroup.init, ErrGroup.returns, Function.update, h, h0, hu]

theorem SyncGroup_step_tasks (s : SyncGroupState) (a : GroupAction) :
    (SyncGroup.step s a).tasks = s.tasks := by
  cases a with
  | ret i r => simp only [SyncGroup.step]; split <;> rfl
  | publish i => rfl
  | count i =>
    simp only [SyncGroup.step]
    split
    · split <;> rfl
    · rfl

theorem SyncGroup_step_inv (s : SyncGroupState) (a : GroupAction) (inv : SyncInv s) :
    SyncInv (SyncGroup.step s a) := by
  cases a with
  | publish i => exact inv
  | ret i r =>
    simp only [SyncGroup.step]
    split
    · rename_i hc
      have hcall := hc.2
      exact
        { pos := inv.pos
          bound := inv.bound
          count_eq := inv.count_eq
          nodup := inv.nodup
          counted_iff := by
            intro j
            by_cases hj : j = i
            · subst hj
              simp only [Function.update_same]
              constructor
              · intro h; have := (inv.counted_iff j).1 h; rw [hcall] at this; cases this
              · intro h; cases h
            · simp only [Function.update_noteq hj]; exact inv.counted_iff j
          lt := by
            intro j
            by_cases hj : j = i
            · subst hj; intro _; exact hc.1
            · simp only [Function.update_noteq hj]; exact inv.lt j
          open_ := inv.open_
          closed := inv.closed }
    · exact inv
  | count i =>
    simp only [SyncGroup.step]
    cases hA : s.awaiter i with
    | calling => exact inv
    | returned r => exact inv
    | finished => exact inv
    | counting =>
      simp only
      have hlt : i < s.tasks.length := inv.lt i (by rw [hA]; intro h; cases h)
      have hnotin : i ∉ s.counted := by
        intro h; have := (inv.counted_iff i).1 h; rw [hA] at this; cases this
      have hnd : (s.counted ++ [i]).Nodup := by
        rw [List.nodup_append]
        refine ⟨inv.nodup, List.nodup_singleton i, ?_⟩
        intro x hx hx2
        simp at hx2; subst hx2; exact hnotin hx
      have hall_lt : ∀ x ∈ s.counted ++ [i], x < s.tasks.length := by
        intro x hx
        rcases List.mem_append.1 hx with h | h
        · exact inv.lt x (by rw [(inv.counted_iff x).1 h]; intro h2; cases h2)
        · simp at h; subst h; exact hlt
      have hlen : s.counted.length + 1 ≤ s.tasks.length := by
        have := nodup_lt_length_le _ _ hnd hall_lt
        simpa using this
      have hci : ∀ j, j ∈ s.counted ++ [i] ↔
          Function.update s.awaiter i Awaiter.finished j = Awaiter.finished := by
        intro j
        by_cases hj : j = i
        · subst hj; simp
        · simp only [Function.update_noteq hj, List.mem_append, List.mem_singleton, hj, or_false]
          exact inv.counted_iff j
      have hltu : ∀ j, Function.update s.awaiter i Awaiter.finished j ≠ Awaiter.calling →
          j < s.tasks.length := by
        intro j
        by_cases hj : j = i
        · subst hj; intro _; exact hlt
        · simp only [Function.update_noteq hj]; exact inv.lt j
      have hcnt : uint32 (s.doneCount + 1) = uint32 (s.counted ++ [i]).length := by
        rw [inv.count_eq]
        simp only [List.length_append, List.length_singleton]
        unfold uint32; omega
      have hiff := uint32_succ_eq_iff s.counted.length s.tasks.length hlen inv.bound
      rw [← inv.count_eq] at hiff
      have hopen := inv.open_ (by omega)
      split
      · rename_i hc
        exact
          { pos := inv.pos
            bound := inv.bound
            count_eq := hcnt
            nodup := hnd
            counted_iff := hci
            lt := hltu
            open_ := by
              intro h
              have := hiff.1 hc
              simp only [List.length_append, List.length_singleton] at h
              exact absurd this h
            closed := by
              intro _
              refine ⟨rfl, i, ?_, ?_⟩
              · show s.closedBy ++ [i] = [i]
                rw [hopen.2]; rfl
              · simp }
      · rename_i hc
        exact
          { pos := inv.pos
            bound := inv.bound
            count_eq := hcnt
            nodup := hnd
            counted_iff := hci
            lt := hltu
            open_ := fun _ => hopen
            closed := by
              intro h
              simp only [List.length_append, List.length_singleton] at h
              exact absurd (hiff.2 h) hc }

theorem SyncGroup_exec_inv (schedule : List GroupAction) :
    ∀ s : SyncGroupState, SyncInv s → SyncInv (SyncGroup.exec s schedule) := by
  induction schedule with
  | nil => intro s inv; exact inv
  | cons a rest ih => intro s inv; exact ih _ (SyncGroup_step_inv s a inv)

theorem SyncGroup_exec_tasks (schedule : List GroupAction) :
    ∀ s : SyncGroupState, (SyncGroup.exec s schedule).tasks = s.tasks := by
  induction schedule with
  | nil => intro s; rfl
  | cons a rest ih => intro s; exact (ih _).trans (SyncGroup_step_tasks s a)

theorem SyncGroup_init_inv (tasks : List TaskPtr) (hpos : tasks ≠ []) (hbound : tasks.length ≤ 2 ^ 32) :
    SyncInv (SyncGroup.init tasks) :=
  { pos := List.length_pos.2 hpos
    bound := hbound
    count_eq := rfl
    nodup := List.nodup_nil
    counted_iff := by intro i; simp [SyncGroup.init]
    lt := by intro i h; exact absurd rfl h
    open_ := fun _ => ⟨rfl, rfl⟩
    closed := by
      intro h
      have h1 : tasks.length = 0 := h.symm
      exact absurd (List.length_eq_zero.1 h1) hpos }

/-- `SyncGroup` where `uint32(len(tasks))` is exact: for every non-empty list of at most
`2 ^ 32` tasks (one goroutine per occurrence) and every order of the goroutines'
actions: once `done` is closed, so before `SyncGroup` returns, the
`depend` call of every listed task has returned and its goroutine has counted; `done` is
closed at most once, so never twice and without panic; whoever closed it is the goroutine
that counted last, its increment making the counter equal to `uint32(len(tasks))` as the
`len(tasks)`-th increment; `done` is closed exactly when it was closed exactly once; and
once every goroutine has finished, it is closed. -/
theorem SyncGroup_waits_for_all (tasks : List TaskPtr) (schedule : List GroupAction)
    (hpos : tasks ≠ []) (hbound : tasks.length ≤ 2 ^ 32) :
    ((SyncGroup.exec (SyncGroup.init tasks) schedule).done = true →
        ∀ i, i < tasks.length →
          (SyncGroup.exec (SyncGroup.init tasks) schedule).awaiter i = Awaiter.finished)
    ∧ (SyncGroup.exec (SyncGroup.init tasks) schedule).closedBy.length ≤ 1
    ∧ SyncGroup.panicked (SyncGroup.exec (SyncGroup.init tasks) schedule) = false
    ∧ (∀ i ∈ (SyncGroup.exec (SyncGroup.init tasks) schedule).closedBy,
        (SyncGroup.exec (SyncGroup.init tasks) schedule).counted.length = tasks.length
        ∧ (SyncGroup.exec (SyncGroup.init tasks) schedule).counted.getLast? = some i
        ∧ (SyncGroup.exec (SyncGroup.init tasks) schedule).doneCount = uint32 tasks.length)
    ∧ ((SyncGroup.exec (SyncGroup.init tasks) schedule).done = true ↔
        (SyncGroup.exec (SyncGroup.init tasks) schedule).closedBy.length = 1)
    ∧ ((∀ i, i < tasks.length →
          (SyncGroup.exec (SyncGroup.init tasks) schedule).awaiter i = Awaiter.finished) →
        (SyncGroup.exec (SyncGroup.init tasks) schedule).done = true) := by
  have inv := SyncGroup_exec_inv schedule _ (SyncGroup_init_inv tasks hpos hbound)
  have htasks : (SyncGroup.exec (SyncGroup.init tasks) schedule).tasks = tasks :=
    SyncGroup_exec_tasks schedule _
  generalize SyncGroup.exec (SyncGroup.init tasks) schedule = s at inv htasks ⊢
  have hall_lt : ∀ x ∈ s.counted, x < s.tasks.length := by
    intro x hx
    exact inv.lt x (by rw [(inv.counted_iff x).1 hx]; intro h; cases h)
  by_cases hfull : s.counted.length = s.tasks.length
  · rcases inv.closed hfull with ⟨hd, i, hcb, hlast⟩
    refine ⟨?_, ?_, ?_, ?_, ?_, ?_⟩
    · intro _ j hj
      exact (inv.counted_iff j).1
        (nodup_lt_length_eq _ _ inv.nodup hall_lt hfull j (by rw [htasks]; exact hj))
    · rw [hcb]; simp
    · simp [SyncGroup.panicked, hcb]
    · intro j hj
      rw [hcb] at hj
      simp at hj; subst hj
      refine ⟨by rw [hfull, htasks], hlast, ?_⟩
      rw [inv.count_eq, hfull, htasks]
    · rw [hcb]; simp [hd]
    · intro _; exact hd
  · have ho := inv.open_ hfull
    refine ⟨?_, ?_, ?_, ?_, ?_, ?_⟩
    · intro hd; rw [ho.1] at hd; cases hd
    · rw [ho.2]; simp
    · simp [SyncGroup.panicked, ho.2]
    · intro j hj; rw [ho.2] at hj; cases hj
    · rw [ho.1, ho.2]; simp
    · intro hall
      exfalso
      apply hfull
      have hmem : ∀ i, i < s.tasks.length → i ∈ s.counted := by
        intro i hi
        exact (inv.counted_iff i).2 (hall i (by rw [← htasks]; exact hi))
      have h1 := length_ge_of_all_mem _ _ hmem
      have h2 := nodup_lt_length_le s.counted s.tasks.length inv.nodup hall_lt
      omega

theorem SyncGroup_overflow_run (tasks : List TaskPtr) (h : tasks.length = 2 ^ 32 + 1) (r0 : Result) :
    SyncGroup.returned (SyncGroup.exec (SyncGroup.init tasks)
        [GroupAction.ret 0 r0, GroupAction.count 0]) = true
    ∧ (SyncGroup.exec (SyncGroup.init tasks)
        [GroupAction.ret 0 r0, GroupAction.count 0]).awaiter 1 = Awaiter.calling := by
  have hu : uint32 (0 + 1) = uint32 tasks.length := by rw [h]; unfold uint32; norm_num
  simp [SyncGroup.exec, SyncGroup.step, SyncGroup.init, SyncGroup.returned, Function.update, h, hu]

theorem SyncGroup_overflow_turn (tasks : List TaskPtr) (h : tasks.length = 2 ^ 32 + 1)
    (k : Nat) (hk : k < 2 ^ 32 + 1) :
    SyncGroup.step
        (SyncGroup.step (Example.countedInTurn tasks k)
          (GroupAction.ret k { Value := Any.int 1, Err := none }))
        (GroupAction.count k)
      = Example.countedInTurn tasks (k + 1) := by
  have hlen : uint32 tasks.length = 1 := by rw [h]; unfold uint32; norm_num
  have hcount : uint32 (uint32 k + 1) = 1 ↔ k = 0 ∨ k = 2 ^ 32 := by
    unfold uint32
    omega
  have hcnt : uint32 (uint32 k + 1) = uint32 (k + 1) := by
    unfold uint32
    omega
  have haw : Function.update
        (Function.update (fun i => if i < k then Awaiter.finished else Awaiter.calling) k
          Awaiter.counting) k Awaiter.finished
      = fun i => if i < k + 1 then Awaiter.finished else Awaiter.calling := by
    funext i
    by_cases hik : i = k
    · subst hik
      simp
    · by_cases hlt : i < k
      · simp [Function.update, hik, hlt, show i < k + 1 by omega]
      · simp [Function.update, hik, hlt, show ¬ i < k + 1 by omega]
  have key : ∀ (d : Bool) (cb : List Nat), d = decide (1 ≤ k + 1) →
      cb = (if k + 1 = 0 then [] else if k + 1 ≤ 2 ^ 32 then [0] else [0, 2 ^ 32]) →
      ({ tasks := tasks,
         awaiter := Function.update
           (Function.update (fun i => if i < k then Awaiter.finished else Awaiter.calling) k
             Awaiter.counting) k Awaiter.finished,
         doneCount := uint32 (uint32 k + 1), done := d, closedBy := cb,
         counted := List.range k ++ [k] } : SyncGroupState)
        = Example.countedInTurn tasks (k + 1) := by
    intro d cb hd hcb
    subst hd hcb
    unfold Example.countedInTurn
    rw [haw, hcnt, List.range_succ]
  have e1 : SyncGroup.step (Example.countedInTurn tasks k)
        (GroupAction.ret k { Value := Any.int 1, Err := none })
      = { Example.countedInTurn tasks k with
          awaiter := Function.update
            (fun i => if i < k then Awaiter.finished else Awaiter.calling) k
            Awaiter.counting } := by
    simp only [SyncGroup.step, Example.countedInTurn]
    rw [if_pos]
    exact ⟨by rw [h]; exact hk, by rw [if_neg (lt_irrefl k)]⟩
  rw [e1]
  simp only [SyncGroup.step, Example.countedInTurn, Function.update_same, hlen]
  by_cases hc : uint32 (uint32 k + 1) = 1
  · rw [if_pos hc]
    apply key
    · exact (decide_eq_true (by omega : 1 ≤ k + 1)).symm
    · rcases hcount.mp hc with h0 | h32
      · subst h0
        rfl
      · rw [if_neg (by omega), if_pos (by omega), if_neg (by omega), if_neg (by omega), h32]
        rfl
  · rw [if_neg hc]
    have hne : ¬ (k = 0 ∨ k = 2 ^ 32) := fun h => hc (hcount.mpr h)
    apply key
    · rw [decide_eq_true (by omega : 1 ≤ k), decide_eq_true (by omega : 1 ≤ k + 1)]
    · rw [if_neg (by omega), if_pos (by omega), if_neg (by omega), if_pos (by omega)]

theorem SyncGroup_overflow_turns (tasks : List TaskPtr) (h : tasks.length = 2 ^ 32 + 1)
    (k : Nat) (hk : k ≤ 2 ^ 32 + 1) :
    SyncGroup.exec (SyncGroup.init tasks) (Example.countInTurn k)
      = Example.countedInTurn tasks k := by
  induction k with
  | zero => rfl
  | succ k ih =>
    have ih2 := ih (by omega)
    simp only [SyncGroup.exec] at ih2
    simp only [Example.countInTurn, SyncGroup.exec, List.foldl_append, List.foldl_cons,
      List.foldl_nil]
    rw [ih2]
    exact SyncGroup_overflow_turn tasks h k (by omega)

theorem SyncGroup_overflow_closes_twice (tasks : List TaskPtr)
    (h : tasks.length = 2 ^ 32 + 1) :
    (SyncGroup.exec (SyncGroup.init tasks) (Example.countInTurn (2 ^ 32 + 1))).closedBy
        = [0, 2 ^ 32]
    ∧ SyncGroup.panicked
        (SyncGroup.exec (SyncGroup.init tasks) (Example.countInTurn (2 ^ 32 + 1))) = true := by
  rw [SyncGroup_overflow_turns tasks h _ (le_refl _)]
  have e : (Example.countedInTurn tasks (2 ^ 32 + 1)).closedBy = [0, 2 ^ 32] := by
    unfold Example.countedInTurn
    simp only
    rw [if_neg (by omega), if_neg (by omega)]
  refine ⟨e, ?_⟩
  unfold SyncGroup.panicked
  rw [e]
  rfl

/-- With no tasks there is no goroutine, and nothing ever closes `done`. -/
theorem ErrGroup_empty_blocked (schedule : List GroupAction) :
    ∀ s : ErrGroupState, s.tasks = [] → (∀ i, s.awaiter i = Awaiter.calling) → s.done = false →
      (ErrGroup.exec s schedule).done = false := by
  induction schedule with
  | nil => intro s _ _ hd; exact hd
  | cons a rest ih =>
    intro s ht ha hd
    have hstep : ErrGroup.step s a = s := by
      cases a with
      | ret i r => simp [ErrGroup.step, ht]
      | publish i => simp [ErrGroup.step, ha i]
      | count i => simp [ErrGroup.step, ha i]
    show (ErrGroup.exec (ErrGroup.step s a) rest).done = false
    rw [hstep]
    exact ih s ht ha hd

theorem SyncGroup_empty_blocked (schedule : List GroupAction) :
    ∀ s : SyncGroupState, s.tasks = [] → (∀ i, s.awaiter i = Awaiter.calling) → s.done = false →
      (SyncGroup.exec s schedule).done = false := by
  induction schedule with
  | nil => intro s _ _ hd; exact hd
  | cons a rest ih =>
    intro s ht ha hd
    have hstep : SyncGroup.step s a = s := by
      cases a with
      | ret i r => simp [SyncGroup.step, ht]
      | publish i => simp [SyncGroup.step]
      | count i => simp [SyncGroup.step, ha i]
    show (SyncGroup.exec (SyncGroup.step s a) rest).done = false
    rw [hstep]
    exact ih s ht ha hd

/-! ## Theorems: one step of a goroutine -/

theorem step_code (s : State) (g : Nat) (viaCtx : Bool) (p : Prog) (hnp : s.panicked = none)
    (hg : s.pool[g]? = some (Goroutine.code p)) :
    step s g viaCtx = stepProg s g viaCtx Goroutine.code p := by
  unfold step
  rw [hnp]
  simp only [Option.isSome_none, Bool.false_eq_true, if_false]
  rw [hg]

theorem step_worker (s : State) (g : Nat) (viaCtx : Bool) (t : TaskPtr) (p : Prog)
    (hnp : s.panicked = none) (hg : s.pool[g]? = some (Goroutine.worker t p))
    (hr : p.returned = none) (ha : p.aborted = none) :
    step s g viaCtx = stepProg s g viaCtx (Goroutine.worker t) p := by
  unfold step
  rw [hnp]
  simp only [Option.isSome_none, Bool.false_eq_true, if_false]
  rw [hg]
  simp only [hr, ha]

theorem step_worker_ret (s : State) (g : Nat) (viaCtx : Bool) (t : TaskPtr) (p : Prog)
    (r : Result) (task : Task) (hnp : s.panicked = none)
    (hg : s.pool[g]? = some (Goroutine.worker t p)) (hr : p.returned = some r)
    (ht : s.heap.tasks[t]? = some task) :
    step s g viaCtx =
      { s with heap := s.heap.setTask t { task with result := r },
               pool := s.pool.set g (Goroutine.closing t),
               trace := s.trace ++ [Event.store t r] } := by
  unfold step
  rw [hnp]
  simp only [Option.isSome_none, Bool.false_eq_true, if_false]
  rw [hg]
  simp only [hr, ht]

/-! ## Theorems: reentrant `Result`, cross-set use, `Result` as a wait -/

theorem nestRun_passes {R : Type} (P : Context → Prop) (ms : List (Middleware R))
    (hms : ∀ m ∈ ms, Middleware.passes P m) :
    ∀ (ctx : Context) (task : TaskPtr) (next1 next2 : Context → R),
      P ctx → (∀ c, P c → next1 c = next2 c) →
        nestRun ms ctx task next1 = nestRun ms ctx task next2 := by
  induction ms with
  | nil => intro ctx task next1 next2 hP h; exact h ctx hP
  | cons m rest ih =>
    intro ctx task next1 next2 hP h
    have ihr := ih (fun m2 hm2 => hms m2 (List.mem_cons_of_mem _ hm2))
    unfold nestRun
    cases hm : m.Run with
    | none => exact ihr ctx task next1 next2 hP h
    | some run =>
      exact (hms m (List.mem_cons_self _ _)).1 run hm ctx task _ _ hP
        (fun c hc => ihr c task next1 next2 hc h)

theorem nestDepend_passes {R : Type} (P : Context → Prop) (ms : List (Middleware R))
    (hms : ∀ m ∈ ms, Middleware.passes P m) :
    ∀ (ctx : Context) (task dependency : TaskPtr) (next1 next2 : Context → R),
      P ctx → (∀ c, P c → next1 c = next2 c) →
        nestDepend ms ctx task dependency next1 = nestDepend ms ctx task dependency next2 := by
  induction ms with
  | nil => intro ctx task dependency next1 next2 hP h; exact h ctx hP
  | cons m rest ih =>
    intro ctx task dependency next1 next2 hP h
    have ihr := ih (fun m2 hm2 => hms m2 (List.mem_cons_of_mem _ hm2))
    unfold nestDepend
    cases hm : m.Depend with
    | none => exact ihr ctx task dependency next1 next2 hP h
    | some dep =>
      exact (hms m (List.mem_cons_self _ _)).2 dep hm ctx task dependency _ _ hP
        (fun c hc => ihr c task dependency next1 next2 hc h)

theorem callRun_NewTaskSet (ms : List (Middleware Prog)) (ctx : Context) (task : TaskPtr)
    (next : Context → Prog) :
    callRun (NewTaskSet ms).middleware.Run ctx task next = nestRun ms ctx task next := by
  have h := NewTaskSet_runAt ms ctx task next
  unfold Middleware.runAt at h
  cases hr : (NewTaskSet ms).middleware.Run with
  | none => rw [hr] at h; cases h
  | some run => rw [hr] at h; simpa [callRun] using h

theorem callDepend_NewTaskSet (ms : List (Middleware Prog)) (ctx : Context)
    (task dependency : TaskPtr) (next : Context → Prog) :
    callDepend (NewTaskSet ms).middleware.Depend ctx task dependency next
      = nestDepend ms ctx task dependency next := by
  have h := NewTaskSet_dependAt ms ctx task dependency next
  unfold Middleware.dependAt at h
  cases hr : (NewTaskSet ms).middleware.Depend with
  | none => rw [hr] at h; cases h
  | some dep => rw [hr] at h; simpa [callDepend] using h

theorem marked_WithValue_user (S : SetPtr) (ctx : Context) (n : Nat) (v : Any) :
    Context.marked S (ctx.WithValue (Key.user n) v) ↔ Context.marked S ctx := by
  have hne : (Key.taskSet S == Key.user n) = false := by
    rw [beq_eq_false_iff_ne]; intro h; cases h
  simp [Context.marked, Context.Value, Context.WithValue, List.lookup, hne]

theorem marked_startContext (S : SetPtr) (ctx : Context) :
    Context.marked S (TaskSet.startContext S ctx) := by
  simp [Context.marked, Context.Value, Context.WithValue, TaskSet.startContext, List.lookup]

theorem Example.tracing_passes (S : SetPtr) :
    Middleware.passes (Context.marked S) Example.tracing := by
  constructor
  · intro run hrun ctx task next1 next2 hP h
    simp only [Example.tracing, Option.some.injEq] at hrun
    subst hrun
    simp only
    rw [h _ ((marked_WithValue_user S ctx 0 (Any.int 1)).2 hP)]
  · intro dep hdep ctx task dependency next1 next2 hP h
    simp only [Example.tracing, Option.some.injEq] at hdep
    subst hdep
    simp only
    rw [h _ hP]

theorem Result_marked (h : Heap) (S : SetPtr) (t : TaskPtr) (tt : Task) (c : Context)
    (ht : h.tasks[t]? = some tt) (htS : tt.taskSet = S) (hc : Context.marked S c) :
    TaskSet.Result h S c t = Prog.panic reentrantResult := by
  unfold Context.marked at hc
  simp [TaskSet.Result, ht, htS, hc]

/-- Where the marker of the set reaches the body, a reentrant `Result` panics: let every
middleware of the set `S` pass to `next` only contexts that still carry the marker of `S`
when its input does. The context
`Start` gives to the tasks it launches carries the marker; with a context that carries it,
`S.Result(c, t)` panics for every task `t` of `S`; the `Run` hook chain started with a
marked context hands the body only marked contexts, so a body that calls `S.Result(c, t)`
with the context `c` it received behaves as one that panics there; and the `Depend` hook
chain called with a marked context reaches `d.depend` (the lazy launch of `d`) only with
marked contexts. -/
theorem reentrant_Result_panics (h : Heap) (S : SetPtr) (ms : List (Middleware Prog))
    (T t d : TaskPtr) (tt : Task) (ctx0 ctx : Context) (body : Context → Prog → Prog)
    (other : Context → Prog)
    (hms : ∀ m ∈ ms, Middleware.passes (Context.marked S) m)
    (ht : h.tasks[t]? = some tt) (htS : tt.taskSet = S) (hctx : Context.marked S ctx) :
    Context.marked S (TaskSet.startContext S ctx0)
    ∧ (∀ c, Context.marked S c → TaskSet.Result h S c t = Prog.panic reentrantResult)
    ∧ callRun (NewTaskSet ms).middleware.Run ctx T (fun c => body c (TaskSet.Result h S c t))
        = callRun (NewTaskSet ms).middleware.Run ctx T
            (fun c => body c (Prog.panic reentrantResult))
    ∧ callDepend (NewTaskSet ms).middleware.Depend ctx T d (fun c => Task.depend d c)
        = callDepend (NewTaskSet ms).middleware.Depend ctx T d
            (fun c => if Context.marked S c then Task.depend d c else other c) := by
  refine ⟨marked_startContext S ctx0, fun c hc => Result_marked h S t tt c ht htS hc, ?_, ?_⟩
  · rw [callRun_NewTaskSet, callRun_NewTaskSet]
    exact nestRun_passes _ ms hms ctx T _ _ hctx
      (fun c hc => by simp only [Result_marked h S t tt c ht htS hc])
  · rw [callDepend_NewTaskSet, callDepend_NewTaskSet]
    exact nestDepend_passes _ ms hms ctx T d _ _ hctx (fun c hc => by simp [hc])

/-- An instance of `reentrant_Result_panics`: a set with the middleware `Example.tracing`,
whose task body prints and then calls `Result` with the context it received from `Start`. -/
theorem reentrant_Result_panics_witness :
    (∀ m ∈ [Example.tracing], Middleware.passes (Context.marked 0) m)
    ∧ Example.fields.tasks[2]? = some (newTask 0 Example.returnsOne)
    ∧ Context.marked 0 (TaskSet.startContext 0 Context.Background)
    ∧ callRun (NewTaskSet [Example.tracing]).middleware.Run
          (TaskSet.startContext 0 Context.Background) 0
          (fun c => Prog.print "body" (TaskSet.Result Example.fields 0 c 2))
        = callRun (NewTaskSet [Example.tracing]).middleware.Run
          (TaskSet.startContext 0 Context.Background) 0
          (fun _ => Prog.print "body" (Prog.panic reentrantResult)) :=
  have hms : ∀ m ∈ [Example.tracing], Middleware.passes (Context.marked 0) m := by
    intro m hm
    rw [List.mem_singleton.1 hm]
    exact Example.tracing_passes 0
  ⟨hms, rfl, by decide,
    (reentrant_Result_panics Example.fields 0 [Example.tracing] 0 2 1
      (newTask 0 Example.returnsOne) Context.Background
      (TaskSet.startContext 0 Context.Background) (fun _ p => Prog.print "body" p)
      (fun _ => Prog.panic "") hms rfl rfl (by decide)).2.2.1⟩

/-- C8 (reentrant `Result`; the code breaks the doc comment of `Result`, "Such a call to
Result will panic"): in a set without middlewares, eager task B calls
`depend(context.Background(), A)`; that launches the lazy task A with a context without
the set's marker, which A's body receives; A's body then calls `taskSet.Result(ctx, C)`
with it, and the call returns C's `Result` instead of panicking: the program ends without
a panic, all three tasks done. -/
theorem reentrant_Result_returns :
    (exec Example.reentrantStart Example.reentrantSchedule).panicked = none
    ∧ Event.launch 0 Context.Background
        ∈ (exec Example.reentrantStart Example.reentrantSchedule).trace
    ∧ Event.waitDone 2 Context.Background { Value := Any.int 1, Err := none }
        ∈ (exec Example.reentrantStart Example.reentrantSchedule).trace
    ∧ (exec Example.reentrantStart Example.reentrantSchedule).heap.tasks.map
        (fun t => (t.taskSet, t.done, t.result))
      = [(0, true, { Value := Any.int 1, Err := none }),
         (0, true, { Value := Any.int 1, Err := none }),
         (0, true, { Value := Any.int 1, Err := none })] := by
  decide

/-- C9 (cross-set use aborts): `t.dependFunc(ctx, d)` panics with "dependency is from a
different task set" when the sets of `t` and `d` differ, and the panic is all it does: no
`Depend` hook is called and `d` is not launched. In the worker of `t` the panic unwinds
the goroutine (its deferred `close(t.done)` runs, `t.result` unwritten, the record of `d`
untouched) and then stops the program. When the sets are equal `dependFunc` does not
panic by itself but calls the `Depend` hook with `d.depend` as `next`. `ts.Eager(d)` and `ts.Result(ctx, d)` panic
with "task doesn't belong to task set" whenever the set of `d` is not `ts`, and `Eager`
then leaves the heap, and with it the eager list, unchanged. -/
theorem cross_set_aborts (s : State) (t d : TaskPtr) (tt dd : Task) (ts : SetPtr)
    (tset : TaskSet Prog) (ctx : Context) (g : Nat) (viaCtx : Bool) (k : Result → Prog)
    (ht : s.heap.tasks[t]? = some tt) (hd : s.heap.tasks[d]? = some dd)
    (hset : s.heap.sets[tt.taskSet]? = some tset)
    (hg : s.pool[g]? = some (Goroutine.worker t ((Task.dependFunc s.heap t ctx d).bind k)))
    (hnp : s.panicked = none) :
    (tt.taskSet ≠ dd.taskSet →
        Task.dependFunc s.heap t ctx d = Prog.panic crossSetDepend
        ∧ step s g viaCtx
            = { s with heap := s.heap.setTask t { tt with done := true },
                       pool := s.pool.set g (Goroutine.code (Prog.panic crossSetDepend)),
                       trace := s.trace
                         ++ [Event.unwind t (some crossSetDepend), Event.close t] }
        ∧ (step s g viaCtx).heap.tasks[d]? = some dd
        ∧ step (step s g viaCtx) g viaCtx
            = { step s g viaCtx with panicked := some crossSetDepend })
    ∧ (tt.taskSet = dd.taskSet →
        Task.dependFunc s.heap t ctx d
          = callDepend tset.middleware.Depend ctx t d (fun c => Task.depend d c))
    ∧ (dd.taskSet ≠ ts →
        TaskSet.Eager s.heap ts d = (some crossSetTask, s.heap)
        ∧ TaskSet.Result s.heap ts ctx d = Prog.panic crossSetTask) := by
  refine ⟨?_, ?_, ?_⟩
  · intro hne
    have hdf : Task.dependFunc s.heap t ctx d = Prog.panic crossSetDepend := by
      simp [Task.dependFunc, ht, hd, hne]
    rw [hdf] at hg
    have hg2 : s.pool[g]? = some (Goroutine.worker t (Prog.panic crossSetDepend)) := hg
    have htd : t ≠ d := by
      intro h
      rw [h, hd] at ht
      exact hne (by rw [Option.some.inj ht])
    have hlt : g < s.pool.length := by
      rcases List.getElem?_eq_some.1 hg2 with ⟨h, _⟩; exact h
    have h1 : step s g viaCtx
        = { s with heap := s.heap.setTask t { tt with done := true },
                   pool := s.pool.set g (Goroutine.code (Prog.panic crossSetDepend)),
                   trace := s.trace
                     ++ [Event.unwind t (some crossSetDepend), Event.close t] } := by
      unfold step
      rw [hnp]
      simp only [Option.isSome_none, Bool.false_eq_true, if_false]
      rw [hg2]
      simp only [Prog.returned, Prog.aborted, ht, Goroutine.unwound]
    refine ⟨hdf, h1, ?_, ?_⟩
    · rw [h1]
      exact (setTask_other _ _ _ _ htd).trans hd
    · have h2 : ∀ s2 : State, s2.panicked = none →
          s2.pool[g]? = some (Goroutine.code (Prog.panic crossSetDepend)) →
          step s2 g viaCtx = { s2 with panicked := some crossSetDepend } := by
        intro s2 hp hp2
        rw [step_code s2 g viaCtx _ hp hp2]
        rfl
      rw [h1]
      exact h2 _ hnp (by simp [hlt])
  · intro heq
    have hne : ¬ (tt.taskSet ≠ dd.taskSet) := fun h => h heq
    simp only [Task.dependFunc, ht, hd, hset, if_neg hne]
  · intro hne
    constructor
    · simp [TaskSet.Eager, hd, hne]
    · simp [TaskSet.Result, hd, hne]

/-- An instance of `cross_set_aborts`: task 0 of set 0 depends on task 1 of set 1. -/
theorem cross_set_aborts_witness :
    Example.crossState.panicked = none
    ∧ (Example.twoSets.tasks.map (fun t => t.taskSet) = [0, 1])
    ∧ Task.dependFunc Example.twoSets 0 Context.Background 1 = Prog.panic crossSetDepend
    ∧ (step (step Example.crossState 0 false) 0 false).panicked = some crossSetDepend
    ∧ (step (step Example.crossState 0 false) 0 false).heap.tasks.map (fun t => (t.once, t.done))
        = [(false, true), (false, false)]
    ∧ TaskSet.Eager Example.twoSets 0 1 = (some crossSetTask, Example.twoSets)
    ∧ TaskSet.Result Example.twoSets 0 Context.Background 1 = Prog.panic crossSetTask :=
  have h := cross_set_aborts Example.crossState 0 1
    (newTask 0 (fun ctx depend => depend ctx 1)) (newTask 1 Example.returnsOne) 0
    (NewTaskSet []) Context.Background 0 false Prog.ret rfl rfl rfl rfl rfl
  ⟨rfl, rfl, (h.1 (by decide)).1,
    by rw [(h.1 (by decide)).2.2.2], by rw [(h.1 (by decide)).2.2.2, (h.1 (by decide)).2.1]; rfl,
    (h.2.2 (by decide)).1, (h.2.2 (by decide)).2⟩

/-- C10 (counterexample to the claim as stated): on a task that was never launched,
`taskSet.Result(ctx, task)` with a context without the marker launches nothing and does
not return, under a schedule under which `task.depend(ctx)` launches the task, runs it and
returns its `Result`. -/
theorem Result_does_not_launch_counterexample :
    (exec Example.resultCaller Example.callerSchedule).heap.tasks.map (fun t => (t.once, t.done))
      = [(false, false)]
    ∧ (exec Example.resultCaller Example.callerSchedule).pool.map Goroutine.returned = [none]
    ∧ (exec Example.resultCaller Example.callerSchedule).trace = []
    ∧ (exec Example.dependCaller Example.callerSchedule).heap.tasks.map (fun t => (t.once, t.done))
      = [(true, true)]
    ∧ ((exec Example.dependCaller Example.callerSchedule).pool.map Goroutine.returned).head?
      = some (some { Value := Any.int 1, Err := none }) := by
  decide

/-- C10 (amended): for every task of the set and every context that does not carry the
set's marker, `taskSet.Result(ctx, task)` is the task's wait (`Task.wait`) with the
caller's context, without the once-only launch of `Task.depend`: its actions never change
the heap nor start a goroutine, so it never launches the task; it returns the task's
stored `Result` once the task has completed, and until then (its context not being
cancelled) it blocks. -/
theorem Result_is_wait (s : State) (ts : SetPtr) (ctx : Context) (task : TaskPtr) (tk : Task)
    (g : Nat) (viaCtx : Bool)
    (htask : s.heap.tasks[task]? = some tk) (hts : tk.taskSet = ts)
    (hctx : ¬ Context.marked ts ctx)
    (hg : s.pool[g]? = some (Goroutine.code (TaskSet.Result s.heap ts ctx task)))
    (hnp : s.panicked = none) :
    TaskSet.Result s.heap ts ctx task = Task.wait task ctx
    ∧ Task.depend task ctx = Prog.once task ctx (Task.wait task ctx)
    ∧ (step s g viaCtx).heap = s.heap
    ∧ (step s g viaCtx).pool.length = s.pool.length
    ∧ launchesOf task (step s g viaCtx).trace = launchesOf task s.trace
    ∧ (tk.done = true →
        (step s g false).pool[g]? = some (Goroutine.code (Prog.ret tk.result)))
    ∧ (tk.done = false → ctx.Err s.cancelled = none → step s g viaCtx = s) := by
  have hres : TaskSet.Result s.heap ts ctx task = Task.wait task ctx := by
    unfold Context.marked at hctx
    have : ctx.Value (Key.taskSet ts) = Any.nil := by
      by_contra h; exact hctx h
    simp [TaskSet.Result, htask, hts, this]
  rw [hres] at hg
  have hlt : g < s.pool.length := by
    rcases List.getElem?_eq_some.1 hg with ⟨h, _⟩; exact h
  refine ⟨hres, rfl, ?_, ?_, ?_, ?_, ?_⟩
  · simp only [step, hnp, hg, Task.wait, stepProg, htask]
    cases viaCtx <;> cases hd : tk.done <;> cases he : ctx.Err s.cancelled <;> simp
  · simp only [step, hnp, hg, Task.wait, stepProg, htask]
    cases viaCtx <;> cases hd : tk.done <;> cases he : ctx.Err s.cancelled <;> simp
  · simp only [step, hnp, hg, Task.wait, stepProg, htask]
    cases viaCtx <;> cases hd : tk.done <;> cases he : ctx.Err s.cancelled <;>
      simp [launchesOf]
  · intro hd
    simp [step, hnp, hg, Task.wait, stepProg, htask, hd, hlt]
  · intro hd he
    simp only [step, hnp, hg, Task.wait, stepProg, htask]
    cases viaCtx <;> simp [hd, he]

/-- An instance of `Result_is_wait`: `Result` on a lazy task that nobody launched blocks
and changes nothing. -/
theorem Result_is_wait_witness :
    Example.resultCaller.heap.tasks[0]? = some (newTask 0 Example.returnsOne)
    ∧ ¬ Context.marked 0 Context.Background
    ∧ Example.resultCaller.panicked = none
    ∧ TaskSet.Result Example.resultCaller.heap 0 Context.Background 0
        = Task.wait 0 Context.Background
    ∧ (step Example.resultCaller 0 false).heap = Example.resultCaller.heap
    ∧ step Example.resultCaller 0 false = Example.resultCaller :=
  have h := Result_is_wait Example.resultCaller 0 Context.Background 0
    (newTask 0 Example.returnsOne) 0 false rfl rfl (by decide) rfl rfl
  ⟨rfl, by decide, rfl, h.1, h.2.2.1, h.2.2.2.2.2.2 rfl rfl⟩

/-! ## Theorems: examples of the once-only launch and of the groups -/

/-- An instance of `ErrGroup_first_failure`: the failure of task 7 is published after
the success of task 8, `ErrGroup` returns task 7, and the later count does not change it. -/
theorem ErrGroup_first_failure_witness :
    ([7, 8] : List TaskPtr) ≠ [] ∧ ([7, 8] : List TaskPtr).length ≤ 2 ^ 32
    ∧ ErrGroup.returns (ErrGroup.exec (ErrGroup.init [7, 8]) Example.groupSchedule) = some (some 7)
    ∧ (ErrGroup.exec (ErrGroup.exec (ErrGroup.init [7, 8]) Example.groupSchedule)
        [GroupAction.count 0]).result = some 7 :=
  have h := ErrGroup_first_failure [7, 8] Example.groupSchedule [GroupAction.count 0]
    (by decide) (by decide)
  ⟨by decide, by decide, by decide, (h.2.2.2.2 (by decide)).2.trans (by decide)⟩

/-- C2 (`ErrGroup` result; the code breaks its doc comment on a list of more than `2 ^ 32`
tasks): the release test compares the counter with `uint32(len(tasks))`, which for
`2 ^ 32 + 1` tasks is 1. The first counted success releases `ErrGroup` with nil while the
second task has not been awaited; its await then fails, and the result stays nil, where
the doc comment promises the failed task. -/
theorem ErrGroup_overflow_returns_nil :
    List.replicate (2 ^ 32 + 1) (0 : TaskPtr) ≠ []
    ∧ ErrGroup.returns (ErrGroup.exec (ErrGroup.init (List.replicate (2 ^ 32 + 1) 0))
        [GroupAction.ret 0 { Value := Any.int 1, Err := none }, GroupAction.publish 0,
         GroupAction.count 0])
      = some none
    ∧ (ErrGroup.exec (ErrGroup.init (List.replicate (2 ^ 32 + 1) 0))
        [GroupAction.ret 0 { Value := Any.int 1, Err := none }, GroupAction.publish 0,
         GroupAction.count 0]).awaiter 1
      = Awaiter.calling
    ∧ ErrGroup.returns (ErrGroup.exec (ErrGroup.init (List.replicate (2 ^ 32 + 1) 0))
        [GroupAction.ret 0 { Value := Any.int 1, Err := none }, GroupAction.publish 0,
         GroupAction.count 0, GroupAction.ret 1 { Value := Any.nil, Err := some "fail" },
         GroupAction.publish 1])
      = some none
    ∧ (ErrGroup.exec (ErrGroup.init (List.replicate (2 ^ 32 + 1) 0))
        [GroupAction.ret 0 { Value := Any.int 1, Err := none }, GroupAction.publish 0,
         GroupAction.count 0, GroupAction.ret 1 { Value := Any.nil, Err := some "fail" },
         GroupAction.publish 1]).published
      = [(0, { Value := Any.int 1, Err := none }), (1, { Value := Any.nil, Err := some "fail" })] :=
  ⟨by
      intro h
      have := congrArg List.length h
      rw [List.length_replicate] at this
      exact absurd this (by norm_num),
    ErrGroup_overflow_run (List.replicate (2 ^ 32 + 1) 0) (List.length_replicate _ _)
      { Value := Any.int 1, Err := none } { Value := Any.nil, Err := some "fail" } rfl⟩

/-- C3 (empty task list; the code blocks): called with no tasks, `ErrGroup` and
`SyncGroup` start no goroutine, so under every schedule the channel `done` stays open:
`ErrGroup` never returns (neither nil nor a task) and `SyncGroup` never returns. -/
theorem groups_block_on_empty_list (schedule : List GroupAction) :
    ErrGroup.returns (ErrGroup.exec (ErrGroup.init []) schedule) = none
    ∧ SyncGroup.returned (SyncGroup.exec (SyncGroup.init []) schedule) = false := by
  constructor
  · have := ErrGroup_empty_blocked schedule (ErrGroup.init []) rfl (fun _ => rfl) rfl
    simp [ErrGroup.returns, this]
  · exact SyncGroup_empty_blocked schedule (SyncGroup.init []) rfl (fun _ => rfl) rfl

/-- An instance of `SyncGroup_waits_for_all`: three entries, `done` still open after two
counts and closed once, by the goroutine that counts third. -/
theorem SyncGroup_waits_for_all_witness :
    ([7, 8, 7] : List TaskPtr) ≠ [] ∧ ([7, 8, 7] : List TaskPtr).length ≤ 2 ^ 32
    ∧ (SyncGroup.exec (SyncGroup.init [7, 8, 7]) Example.syncSchedule).closedBy = [0]
    ∧ (SyncGroup.exec (SyncGroup.init [7, 8, 7]) (Example.syncSchedule.take 5)).done = false
    ∧ (SyncGroup.exec (SyncGroup.init [7, 8, 7]) Example.syncSchedule).closedBy.length ≤ 1 :=
  ⟨by decide, by decide, by decide, by decide,
    (SyncGroup_waits_for_all [7, 8, 7] Example.syncSchedule (by decide) (by decide)).2.1⟩

/-- C4 (`SyncGroup` waits for all; the code breaks its doc comment on a list of more than
`2 ^ 32` tasks): the test compares the counter with `uint32(len(tasks))`, which for
`2 ^ 32 + 1` tasks is 1. The first goroutine to count closes `done` and `SyncGroup`
returns while the `depend` call of the second task has not returned; and when all
goroutines have counted, one after the other, the counter has wrapped to 1 again and the
last one has closed `done` a second time, which panics. -/
theorem SyncGroup_overflow_returns_early :
    List.replicate (2 ^ 32 + 1) (0 : TaskPtr) ≠ []
    ∧ SyncGroup.returned (SyncGroup.exec (SyncGroup.init (List.replicate (2 ^ 32 + 1) 0))
        [GroupAction.ret 0 { Value := Any.int 1, Err := none }, GroupAction.count 0]) = true
    ∧ (SyncGroup.exec (SyncGroup.init (List.replicate (2 ^ 32 + 1) 0))
        [GroupAction.ret 0 { Value := Any.int 1, Err := none }, GroupAction.count 0]).awaiter 1
      = Awaiter.calling
    ∧ (SyncGroup.exec (SyncGroup.init (List.replicate (2 ^ 32 + 1) 0))
        (Example.countInTurn (2 ^ 32 + 1))).closedBy = [0, 2 ^ 32]
    ∧ SyncGroup.panicked (SyncGroup.exec (SyncGroup.init (List.replicate (2 ^ 32 + 1) 0))
        (Example.countInTurn (2 ^ 32 + 1))) = true :=
  ⟨by
      intro h
      have := congrArg List.length h
      rw [List.length_replicate] at this
      exact absurd this (by norm_num),
    (SyncGroup_overflow_run (List.replicate (2 ^ 32 + 1) 0) (List.length_replicate _ _)
      { Value := Any.int 1, Err := none }).1,
    (SyncGroup_overflow_run (List.replicate (2 ^ 32 + 1) 0) (List.length_replicate _ _)
      { Value := Any.int 1, Err := none }).2,
    SyncGroup_overflow_closes_twice (List.replicate (2 ^ 32 + 1) 0)
      (List.length_replicate _ _)⟩

/-! ## Theorems: static fields -/

theorem static_task (h h2 : Heap) (hs : h.static = h2.static) (t : TaskPtr) :
    (h.tasks[t]?).map (fun t => (t.taskSet, t.run))
      = (h2.tasks[t]?).map (fun t => (t.taskSet, t.run)) := by
  have h1 : h.tasks.map (fun t => (t.taskSet, t.run))
      = h2.tasks.map (fun t => (t.taskSet, t.run)) := congrArg Prod.fst hs
  have := congrArg (fun l => l[t]?) h1
  simpa [List.getElem?_map] using this

theorem static_set (h h2 : Heap) (hs : h.static = h2.static) (ts : SetPtr) :
    (h.sets[ts]?).map (fun ts => ts.middleware)
      = (h2.sets[ts]?).map (fun ts => ts.middleware) := by
  have h1 : h.sets.map (fun ts => ts.middleware) = h2.sets.map (fun ts => ts.middleware) :=
    congrArg Prod.snd hs
  have := congrArg (fun l => l[ts]?) h1
  simpa [List.getElem?_map] using this

theorem dependFunc_static (h h2 : Heap) (hs : h.static = h2.static) (t : TaskPtr) :
    Task.dependFunc h t = Task.dependFunc h2 t := by
  funext ctx d
  have ht := static_task h h2 hs t
  have hd := static_task h h2 hs d
  unfold Task.dependFunc
  cases h1 : h.tasks[t]? with
  | none =>
    rw [h1] at ht
    cases h3 : h2.tasks[t]? with
    | none => rfl
    | some x => rw [h3] at ht; cases ht
  | some tt =>
    rw [h1] at ht
    cases h3 : h2.tasks[t]? with
    | none => rw [h3] at ht; cases ht
    | some tt2 =>
      rw [h3] at ht
      simp only [Option.map_some', Option.some.injEq, Prod.mk.injEq] at ht
      cases h4 : h.tasks[d]? with
      | none =>
        rw [h4] at hd
        cases h5 : h2.tasks[d]? with
        | none => rfl
        | some x => rw [h5] at hd; cases hd
      | some dd =>
        rw [h4] at hd
        cases h5 : h2.tasks[d]? with
        | none => rw [h5] at hd; cases hd
        | some dd2 =>
          rw [h5] at hd
          simp only [Option.map_some', Option.some.injEq, Prod.mk.injEq] at hd
          have hset := static_set h h2 hs tt.taskSet
          simp only [ht.1, hd.1] at hset ⊢
          cases h6 : h.sets[tt2.taskSet]? with
          | none =>
            rw [h6] at hset
            cases h7 : h2.sets[tt2.taskSet]? with
            | none => rfl
            | some x => rw [h7] at hset; cases hset
          | some ts =>
            rw [h6] at hset
            cases h7 : h2.sets[tt2.taskSet]? with
            | none => rw [h7] at hset; cases hset
            | some ts2 =>
              rw [h7] at hset
              simp only [Option.map_some', Option.some.injEq] at hset
              simp only [hset]

theorem worker_static (h h2 : Heap) (hs : h.static = h2.static) (t : TaskPtr) (ctx : Context) :
    Task.worker h t ctx = Task.worker h2 t ctx := by
  have ht := static_task h h2 hs t
  have hdf := dependFunc_static h h2 hs t
  unfold Task.worker
  cases h1 : h.tasks[t]? with
  | none =>
    rw [h1] at ht
    cases h3 : h2.tasks[t]? with
    | none => rfl
    | some x => rw [h3] at ht; cases ht
  | some tt =>
    rw [h1] at ht
    cases h3 : h2.tasks[t]? with
    | none => rw [h3] at ht; cases ht
    | some tt2 =>
      rw [h3] at ht
      simp only [Option.map_some', Option.some.injEq, Prod.mk.injEq] at ht
      have hset := static_set h h2 hs tt.taskSet
      simp only [ht.1] at hset ⊢
      cases h6 : h.sets[tt2.taskSet]? with
      | none =>
        rw [h6] at hset
        cases h7 : h2.sets[tt2.taskSet]? with
        | none => rfl
        | some x => rw [h7] at hset; cases hset
      | some ts =>
        rw [h6] at hset
        cases h7 : h2.sets[tt2.taskSet]? with
        | none => rw [h7] at hset; cases hset
        | some ts2 =>
          rw [h7] at hset
          simp only [Option.map_some', Option.some.injEq] at hset
          simp only [hset, ht.2, hdf]

theorem static_setTask (h : Heap) (t : TaskPtr) (task x : Task) (ht : h.tasks[t]? = some task)
    (h1 : x.taskSet = task.taskSet) (h2 : x.run = task.run) :
    (h.setTask t x).static = h.static := by
  unfold Heap.static Heap.setTask
  simp only [Prod.mk.injEq, and_true]
  apply List.ext_getElem?
  intro i
  simp only [List.getElem?_map, List.getElem?_set]
  by_cases hi : t = i
  · subst hi
    have hlt : t < h.tasks.length := by
      rcases List.getElem?_eq_some.1 ht with ⟨h, _⟩; exact h
    simp [hlt, ht, h1, h2]
  · simp [hi]

/-! ## Theorems: waits -/

/-- A goroutine that is a caller's code or the worker of a task, neither returned nor
ended, performs the next action of its code. -/
theorem step_wrap (s : State) (g : Nat) (viaCtx : Bool) (wrap : Prog → Goroutine) (p : Prog)
    (hwrap : wrap = Goroutine.code ∨ ∃ t2, wrap = Goroutine.worker t2)
    (hnp : s.panicked = none) (hg : s.pool[g]? = some (wrap p))
    (hr : p.returned = none) (ha : p.aborted = none) :
    step s g viaCtx = stepProg s g viaCtx wrap p := by
  rcases hwrap with rfl | ⟨t2, rfl⟩
  · exact step_code s g viaCtx p hnp hg
  · exact step_worker s g viaCtx t2 p hnp hg hr ha

/-- C12 (cancellation isolation): the awaiter is any goroutine, the code of a caller of
`Result`, `Wait` or `depend` or the worker of a task whose body called `depend`. While the
task has not completed and the awaiter's context is cancelled, the `select` of `Task.wait`
can only take the branch of the context: the wait returns the `Result` with nil `Value`
and `Err = ctx.Err()`, and changes nothing but the awaiter's own goroutine (the heap, so
the task's launch state and stored `Result`, the cancellations and every other goroutine,
the task's worker included, are as before). A later wait on the task, once completed, by
any goroutine with a context that is not cancelled returns the stored `Result`. -/
theorem wait_cancelled_isolated (s : State) (t : TaskPtr) (tk : Task) (ctx : Context)
    (g : Nat) (wrap : Prog → Goroutine) (k : Result → Prog) (err : String)
    (hwrap : wrap = Goroutine.code ∨ ∃ t2, wrap = Goroutine.worker t2)
    (hnp : s.panicked = none) (ht : s.heap.tasks[t]? = some tk) (hnd : tk.done = false)
    (hg : s.pool[g]? = some (wrap (Prog.wait t ctx k)))
    (herr : ctx.Err s.cancelled = some err) :
    Task.wait t ctx = Prog.wait t ctx Prog.ret
    ∧ Task.depend t ctx = Prog.once t ctx (Task.wait t ctx)
    ∧ step s g false = s
    ∧ (step s g true).pool
        = s.pool.set g (wrap (k { Value := Any.nil, Err := some err }))
    ∧ (step s g true).heap = s.heap
    ∧ (step s g true).cancelled = s.cancelled
    ∧ (step s g true).panicked = none
    ∧ (∀ j, j ≠ g → (step s g true).pool[j]? = s.pool[j]?)
    ∧ (∀ (s2 : State) (tk2 : Task) (ctx2 : Context) (g2 : Nat) (wrap2 : Prog → Goroutine)
          (k2 : Result → Prog),
        (wrap2 = Goroutine.code ∨ ∃ t2, wrap2 = Goroutine.worker t2) →
        s2.panicked = none → s2.heap.tasks[t]? = some tk2 → tk2.done = true →
        ctx2.Err s2.cancelled = none →
        s2.pool[g2]? = some (wrap2 (Prog.wait t ctx2 k2)) →
        step s2 g2 true = s2
        ∧ (step s2 g2 false).pool = s2.pool.set g2 (wrap2 (k2 tk2.result))) := by
  have h1 : step s g true = stepProg s g true wrap (Prog.wait t ctx k) :=
    step_wrap s g true wrap _ hwrap hnp hg rfl rfl
  have h2 : step s g false = stepProg s g false wrap (Prog.wait t ctx k) :=
    step_wrap s g false wrap _ hwrap hnp hg rfl rfl
  refine ⟨rfl, rfl, ?_, ?_, ?_, ?_, ?_, ?_, ?_⟩
  · rw [h2]; simp [stepProg, ht, hnd]
  · rw [h1]; simp [stepProg, ht, herr]
  · rw [h1]; simp [stepProg, ht, herr]
  · rw [h1]; simp [stepProg, ht, herr]
  · rw [h1]; simp [stepProg, ht, herr, hnp]
  · intro j hj
    rw [h1]
    simp only [stepProg, ht, herr, if_true]
    exact List.getElem?_set_ne (Ne.symm hj)
  · intro s2 tk2 ctx2 g2 wrap2 k2 hw2 hnp2 ht2 hd2 hc2 hg2
    rw [step_wrap s2 g2 true wrap2 _ hw2 hnp2 hg2 rfl rfl,
      step_wrap s2 g2 false wrap2 _ hw2 hnp2 hg2 rfl rfl]
    simp [stepProg, ht2, hd2, hc2]

/-! ## Theorems: the worker, the result slot and the completion signal -/

theorem countP_set_of (q : Goroutine → Bool) (pool : List Goroutine) (g : Nat)
    (x y : Goroutine) (hx : pool[g]? = some x) :
    (pool.set g y).countP q + (if q x then 1 else 0)
      = pool.countP q + (if q y then 1 else 0) := by
  have hlt : g < pool.length := by
    rcases List.getElem?_eq_some.1 hx with ⟨h, _⟩; exact h
  have hget : pool[g] = x := by
    rcases List.getElem?_eq_some.1 hx with ⟨_, h⟩; exact h
  rw [List.countP_set _ _ _ _ hlt, hget]
  have := List.boole_getElem_le_countP q pool g hlt
  rw [hget] at this
  omega

theorem countP_set_same (q : Goroutine → Bool) (pool : List Goroutine) (g : Nat)
    (x y : Goroutine) (hx : pool[g]? = some x) (hq : q y = q x) :
    (pool.set g y).countP q = pool.countP q := by
  have := countP_set_of q pool g x y hx
  rw [hq] at this
  omega

theorem countP_pos_of (q : Goroutine → Bool) (pool : List Goroutine) (g : Nat)
    (x : Goroutine) (hx : pool[g]? = some x) (hq : q x = true) : 1 ≤ pool.countP q := by
  have hlt : g < pool.length := by
    rcases List.getElem?_eq_some.1 hx with ⟨h, _⟩; exact h
  have hget : pool[g] = x := by
    rcases List.getElem?_eq_some.1 hx with ⟨_, h⟩; exact h
  have := List.boole_getElem_le_countP q pool g hlt
  rw [hget, hq] at this
  simpa using this

theorem storesOf_append (T : TaskPtr) (tr tr2 : List Event) :
    storesOf T (tr ++ tr2) = storesOf T tr ++ storesOf T tr2 := by
  simp [storesOf]

theorem closesOf_append (T : TaskPtr) (tr tr2 : List Event) :
    closesOf T (tr ++ tr2) = closesOf T tr + closesOf T tr2 := by
  simp [closesOf]

theorem returned_mayReturn (p : Prog) (r : Result) (h : p.returned = some r) :
    p.mayReturn r := by
  cases p <;> simp [Prog.returned] at h
  simpa [Prog.mayReturn] using h

theorem order_append_list (T : TaskPtr) (tr es : List Event) (hne : Event.close T ∉ es)
    (h : closedAfter T tr) : closedAfter T (tr ++ es) := by
  intro i hi
  by_cases hlt : i < tr.length
  · rw [List.getElem?_append_left hlt] at hi
    rcases h i hi with ⟨j, hj, hjr⟩
    refine ⟨j, hj, ?_⟩
    rw [List.getElem?_append_left (by omega)]; exact hjr
  · rw [List.getElem?_append_right (by omega)] at hi
    exact absurd (List.getElem?_mem hi) hne

theorem order_append_close (T : TaskPtr) (tr es : List Event) (e : Event)
    (hne : Event.close T ∉ es) (he : e ∈ tr ++ es)
    (hev : (∃ r, e = Event.store T r) ∨ ∃ cause, e = Event.unwind T cause)
    (h : closedAfter T tr) : closedAfter T (tr ++ es ++ [Event.close T]) := by
  intro i hi
  by_cases hlt : i < (tr ++ es).length
  · rw [List.getElem?_append_left hlt] at hi
    rcases order_append_list T tr es hne h i hi with ⟨j, hj, hjr⟩
    refine ⟨j, hj, ?_⟩
    rw [List.getElem?_append_left (by omega)]; exact hjr
  · rcases List.mem_iff_getElem.1 he with ⟨j, hj, hje⟩
    refine ⟨j, by omega, ?_⟩
    rw [List.getElem?_append_left hj, List.getElem?_eq_getElem hj, hje]
    rcases hev with ⟨r, hr⟩ | ⟨c, hc⟩
    · exact Or.inl ⟨r, by rw [hr]⟩
    · exact Or.inr ⟨c, by rw [hc]⟩

/-- An action that leaves the fields of `T`, its workers and its recorded writes and
closes as they are keeps the invariant. -/
theorem WorkerInv.keep {T : TaskPtr} {R : Result → Prop} {h0 : Heap} {s s2 : State}
    {task : Task} (inv : WorkerInv T R h0 s task) (es : List Event)
    (hheap : s2.heap.tasks[T]? = s.heap.tasks[T]?)
    (hstatic : s2.heap.static = s.heap.static)
    (hcodes : ∀ p, Goroutine.worker T p ∈ s2.pool → ∀ r, p.mayReturn r → R r)
    (hruns : s2.pool.countP (Goroutine.runs T) = s.pool.countP (Goroutine.runs T))
    (hcloses : s2.pool.countP (Goroutine.closes T) = s.pool.countP (Goroutine.closes T))
    (htrace : s2.trace = s.trace ++ es) (hst : storesOf T es = [])
    (hcl : Event.close T ∉ es) : WorkerInv T R h0 s2 task := by
  have hs : storesOf T s2.trace = storesOf T s.trace := by
    rw [htrace, storesOf_append, hst, List.append_nil]
  have hc : closesOf T s2.trace = closesOf T s.trace := by
    rw [htrace, closesOf_append]
    have : closesOf T es = 0 := List.count_eq_zero.2 hcl
    omega
  exact
    { here := by rw [hheap]; exact inv.here
      static := by rw [hstatic]; exact inv.static
      codes := hcodes
      idle := by rw [hruns, hcloses, hs]; exact inv.idle
      busy := by rw [hruns, hcloses, hs]; exact inv.busy
      fin := by
        intro hd
        rcases inv.fin hd with ⟨h1, h2, h3, h4, h5⟩
        refine ⟨h1, by rw [hruns]; exact h2, by rw [hcloses]; exact h3, by rw [hc]; exact h4, ?_⟩
        rw [hs]
        rcases h5 with h5 | ⟨h5, cause, hmem⟩
        · exact Or.inl h5
        · exact Or.inr ⟨h5, cause, by rw [htrace]; exact List.mem_append_left _ hmem⟩
      unclosed := by rw [hc]; exact inv.unclosed
      order := by rw [htrace]; exact order_append_list T _ _ hcl inv.order
      fresh := by rw [hs]; exact inv.fresh }

theorem codes_set {T : TaskPtr} {R : Result → Prop} (pool : List Goroutine) (g : Nat)
    (wrap : Prog → Goroutine) (p k : Prog)
    (hcodes : ∀ p, Goroutine.worker T p ∈ pool → ∀ r, p.mayReturn r → R r)
    (hx : pool[g]? = some (wrap p))
    (hinj : ∀ q p2, wrap q = Goroutine.worker T p2 → q = p2 ∧ wrap p = Goroutine.worker T p)
    (hk : ∀ r, k.mayReturn r → p.mayReturn r) :
    ∀ p2, Goroutine.worker T p2 ∈ pool.set g (wrap k) → ∀ r, p2.mayReturn r → R r := by
  intro p2 hmem r hr
  rcases List.mem_or_eq_of_mem_set hmem with h | h
  · exact hcodes p2 h r hr
  · rcases hinj k p2 h.symm with ⟨h1, h2⟩
    subst h1
    have hin : Goroutine.worker T p ∈ pool := by
      rw [← h2]; exact List.getElem?_mem hx
    exact hcodes p hin r (hk r hr)

theorem worker_stepProg_inv (T : TaskPtr) (R : Result → Prop) (h0 : Heap) (s : State)
    (task : Task) (g : Nat) (viaCtx : Bool) (wrap : Prog → Goroutine) (p : Prog)
    (hR : ∀ ctx r, (Task.worker h0 T ctx).mayReturn r → R r)
    (inv : WorkerInv T R h0 s task) (hx : s.pool[g]? = some (wrap p))
    (hruns : ∀ q, (wrap q).runs T = (wrap p).runs T)
    (hcloses : ∀ q, (wrap q).closes T = (wrap p).closes T)
    (hinj : ∀ q p2, wrap q = Goroutine.worker T p2 → q = p2 ∧ wrap p = Goroutine.worker T p) :
    ∃ task2, WorkerInv T R h0 (stepProg s g viaCtx wrap p) task2 := by
  have hsetr : ∀ q, (s.pool.set g (wrap q)).countP (Goroutine.runs T)
      = s.pool.countP (Goroutine.runs T) :=
    fun q => countP_set_same _ s.pool g _ _ hx (hruns q)
  have hsetc : ∀ q, (s.pool.set g (wrap q)).countP (Goroutine.closes T)
      = s.pool.countP (Goroutine.closes T) :=
    fun q => countP_set_same _ s.pool g _ _ hx (hcloses q)
  cases p with
  | ret r => exact ⟨task, inv⟩
  | goexit => exact ⟨task, inv⟩
  | panic msg =>
    exact ⟨task, inv.keep [] rfl rfl inv.codes rfl rfl (by simp [stepProg]) rfl (by simp)⟩
  | print str k =>
    refine ⟨task, inv.keep [Event.print str] rfl rfl ?_ (hsetr k) (hsetc k) rfl ?_ ?_⟩
    · exact codes_set s.pool g wrap _ k inv.codes hx hinj (fun r hr => hr)
    · simp [storesOf]
    · simp
  | invoke t ctx k =>
    refine ⟨task, inv.keep [Event.invoke t ctx] rfl rfl ?_ (hsetr k) (hsetc k) rfl ?_ ?_⟩
    · exact codes_set s.pool g wrap _ k inv.codes hx hinj (fun r hr => hr)
    · simp [storesOf]
    · simp
  | go q k =>
    refine ⟨task, inv.keep [] rfl rfl ?_ ?_ ?_ (by simp [stepProg]) rfl (by simp)⟩
    · intro p2 hmem r hr
      simp only [stepProg] at hmem
      rcases List.mem_append.1 hmem with h | h
      · exact codes_set s.pool g wrap _ k inv.codes hx hinj (fun r hr => hr) p2 h r hr
      · simp at h
    · simp [stepProg, List.countP_append, hsetr, List.countP_cons, Goroutine.runs]
    · simp [stepProg, List.countP_append, hsetc, List.countP_cons, Goroutine.closes]
  | wait t ctx k =>
    simp only [stepProg]
    cases ht : s.heap.tasks[t]? with
    | none =>
      exact ⟨task, inv.keep [] rfl rfl inv.codes rfl rfl (by simp) rfl (by simp)⟩
    | some tk =>
      cases viaCtx with
      | true =>
        cases he : ctx.Err s.cancelled with
        | none => simpa [he] using ⟨task, inv⟩
        | some err =>
          refine ⟨task, ?_⟩
          simp only [he, if_true]
          refine inv.keep [Event.waitCancelled t ctx err] rfl rfl ?_ (hsetr _) (hsetc _) rfl
            ?_ ?_
          · exact codes_set s.pool g wrap _ _ inv.codes hx hinj (fun r hr => ⟨_, hr⟩)
          · simp [storesOf]
          · simp
      | false =>
        by_cases hd : tk.done = true
        · refine ⟨task, ?_⟩
          simp only [hd, if_true, Bool.false_eq_true, if_false]
          refine inv.keep [Event.waitDone t ctx tk.result] rfl rfl ?_ (hsetr _) (hsetc _) rfl
            ?_ ?_
          · exact codes_set s.pool g wrap _ _ inv.codes hx hinj (fun r hr => ⟨_, hr⟩)
          · simp [storesOf]
          · simp
        · simpa [hd] using ⟨task, inv⟩
  | once t ctx k =>
    simp only [stepProg]
    cases ht : s.heap.tasks[t]? with
    | none =>
      exact ⟨task, inv.keep [] rfl rfl inv.codes rfl rfl (by simp) rfl (by simp)⟩
    | some tk =>
      have hcs := codes_set s.pool g wrap _ k inv.codes hx hinj (fun r hr => hr)
      by_cases ho : tk.once = true
      · refine ⟨task, ?_⟩
        simp only [ho, if_true]
        refine inv.keep [Event.dependCall t ctx] rfl rfl hcs (hsetr _) (hsetc _) rfl ?_ ?_
        · simp [storesOf]
        · simp
      · simp only [ho, if_false, Bool.false_eq_true]
        have hstat : (s.heap.setTask t { tk with once := true }).static = s.heap.static :=
          static_setTask s.heap t tk _ ht rfl rfl
        have hcodes2 : ∀ p2, Goroutine.worker T p2 ∈
            s.pool.set g (wrap k) ++ [Goroutine.worker t (Task.worker s.heap t ctx)] →
            ∀ r, p2.mayReturn r → R r := by
          intro p2 hmem r hr
          rcases List.mem_append.1 hmem with h | h
          · exact hcs p2 h r hr
          · simp only [List.mem_singleton, Goroutine.worker.injEq] at h
            rcases h with ⟨h1, h2⟩
            subst h1
            rw [h2, worker_static s.heap h0 inv.static] at hr
            exact hR ctx r hr
        by_cases htT : t = T
        · subst htT
          have htk : tk = task := by
            have := inv.here; rw [ht] at this; exact Option.some.inj this
          subst htk
          have hof : tk.once = false := by simpa using ho
          have hidle := inv.idle hof
          refine ⟨{ tk with once := true }, ?_⟩
          exact
            { here := setTask_same _ _ _ _ inv.here
              static := hstat.trans inv.static
              codes := hcodes2
              idle := by intro h; cases h
              busy := by
                intro _ _
                left
                refine ⟨?_, ?_, ?_⟩
                · simp [List.countP_append, hsetr, hidle.1, List.countP_cons, Goroutine.runs]
                · simp [List.countP_append, hsetc, hidle.2.1, List.countP_cons,
                    Goroutine.closes]
                · show storesOf t (s.trace ++ [Event.dependCall t ctx, Event.launch t ctx]) = []
                  rw [storesOf_append, hidle.2.2.1]; simp [storesOf]
              fin := by
                intro h
                have : tk.done = true := h
                rw [hidle.2.2.2] at this; cases this
              unclosed := by
                intro _
                show closesOf t (s.trace ++ [Event.dependCall t ctx, Event.launch t ctx]) = 0
                rw [closesOf_append, inv.unclosed hidle.2.2.2]; simp [closesOf]
              order := order_append_list t _ _ (by simp) inv.order
              fresh := fun _ => inv.fresh hidle.2.2.1 }
        · refine ⟨task, inv.keep [Event.dependCall t ctx, Event.launch t ctx]
            (setTask_other _ _ _ _ htT) hstat hcodes2 ?_ ?_ rfl ?_ ?_⟩
          · simp [List.countP_append, hsetr, List.countP_cons, Goroutine.runs, htT]
          · simp [List.countP_append, hsetc, List.countP_cons, Goroutine.closes]
          · simp [storesOf]
          · simp

theorem stored_index (T : TaskPtr) (tr : List Event) (r : Result) (h : r ∈ storesOf T tr) :
    ∃ j, j < tr.length ∧ tr[j]? = some (Event.store T r) := by
  unfold storesOf at h
  rcases List.mem_filterMap.1 h with ⟨e, he, hf⟩
  have he2 : e = Event.store T r := by
    cases e with
    | store t r2 =>
      by_cases htT : t = T
      · simp [htT] at hf; rw [htT, hf]
      · simp [htT] at hf
    | _ => simp at hf
  subst he2
  rcases List.mem_iff_getElem.1 he with ⟨j, hj, hje⟩
  exact ⟨j, hj, by rw [List.getElem?_eq_getElem hj, hje]⟩

theorem codes_shrink {T : TaskPtr} {R : Result → Prop} (pool : List Goroutine) (g : Nat)
    (y : Goroutine) (hy : ∀ p, y ≠ Goroutine.worker T p)
    (hcodes : ∀ p, Goroutine.worker T p ∈ pool → ∀ r, p.mayReturn r → R r) :
    ∀ p2, Goroutine.worker T p2 ∈ pool.set g y → ∀ r, p2.mayReturn r → R r := by
  intro p2 hmem r hr
  rcases List.mem_or_eq_of_mem_set hmem with h | h
  · exact hcodes p2 h r hr
  · exact absurd h.symm (hy p2)

theorem worker_step_inv (T : TaskPtr) (R : Result → Prop) (h0 : Heap) (s : State)
    (task : Task) (g : Nat) (viaCtx : Bool)
    (hR : ∀ ctx r, (Task.worker h0 T ctx).mayReturn r → R r)
    (inv : WorkerInv T R h0 s task) : ∃ task2, WorkerInv T R h0 (step s g viaCtx) task2 := by
  unfold step
  split
  · exact ⟨task, inv⟩
  · cases hx : s.pool[g]? with
    | none => exact ⟨task, inv⟩
    | some x =>
      cases x with
      | exited => exact ⟨task, inv⟩
      | code p =>
        exact worker_stepProg_inv T R h0 s task g viaCtx Goroutine.code p hR inv hx
          (fun _ => rfl) (fun _ => rfl) (fun q p2 h => by cases h)
      | worker t p =>
        simp only
        cases hr : p.returned with
        | none =>
          simp only
          cases ha : p.aborted with
          | none =>
            exact worker_stepProg_inv T R h0 s task g viaCtx (Goroutine.worker t) p hR inv hx
              (fun _ => rfl) (fun _ => rfl)
              (fun q p2 h => by
                simp only [Goroutine.worker.injEq] at h
                exact ⟨h.2, by rw [h.1]⟩)
          | some cause =>
            simp only
            cases ht : s.heap.tasks[t]? with
            | none =>
              exact ⟨task, inv.keep [] rfl rfl inv.codes rfl rfl (by simp) rfl (by simp)⟩
            | some tk =>
              simp only
              have hcodes2 := codes_shrink (T := T) (R := R) s.pool g (Goroutine.unwound cause)
                (fun p h => by cases cause <;> cases h) inv.codes
              have hstat : (s.heap.setTask t { tk with done := true }).static
                  = s.heap.static :=
                static_setTask s.heap t tk _ ht rfl rfl
              have hur : Goroutine.runs T (Goroutine.unwound cause) = false := by
                cases cause <;> rfl
              have huc : Goroutine.closes T (Goroutine.unwound cause) = false := by
                cases cause <;> rfl
              have hcr := countP_set_of (Goroutine.runs T) s.pool g _
                (Goroutine.unwound cause) hx
              have hcc := countP_set_of (Goroutine.closes T) s.pool g _
                (Goroutine.unwound cause) hx
              rw [hur] at hcr
              rw [huc] at hcc
              by_cases htT : t = T
              · subst htT
                have htk : tk = task := by
                  have := inv.here; rw [ht] at this; exact Option.some.inj this
                subst htk
                have hpos := countP_pos_of (Goroutine.runs t) s.pool g _ hx
                  (by simp [Goroutine.runs])
                simp only [Goroutine.runs, Goroutine.closes, beq_self_eq_true, if_true,
                  Bool.false_eq_true, if_false] at hcr hcc
                have ho : tk.once = true := by
                  cases h : tk.once with
                  | true => rfl
                  | false => have := (inv.idle h).1; omega
                have hnd : tk.done = false := by
                  cases h : tk.done with
                  | false => rfl
                  | true => have := (inv.fin h).2.1; omega
                have hb : s.pool.countP (Goroutine.runs t) = 1
                    ∧ s.pool.countP (Goroutine.closes t) = 0 ∧ storesOf t s.trace = [] := by
                  rcases inv.busy ho hnd with h | h
                  · exact h
                  · omega
                have hst : storesOf t (s.trace ++ [Event.unwind t cause, Event.close t])
                    = [] := by
                  rw [storesOf_append, hb.2.2]; simp [storesOf]
                refine ⟨{ tk with done := true }, ?_⟩
                exact
                  { here := setTask_same _ _ _ _ inv.here
                    static := hstat.trans inv.static
                    codes := hcodes2
                    idle := by
                      intro h
                      have : tk.once = false := h
                      rw [ho] at this; cases this
                    busy := by intro _ h; cases h
                    fin := by
                      intro _
                      refine ⟨ho, by dsimp only; omega, by dsimp only; omega, ?_,
                        Or.inr ⟨hst, cause, ?_⟩⟩
                      · show closesOf t (s.trace ++ [Event.unwind t cause, Event.close t]) = 1
                        rw [closesOf_append, inv.unclosed hnd]; simp [closesOf]
                      · show Event.unwind t cause ∈
                          s.trace ++ [Event.unwind t cause, Event.close t]
                        simp
                    unclosed := by intro h; cases h
                    order := by
                      have := order_append_close t s.trace [Event.unwind t cause]
                        (Event.unwind t cause) (by simp) (by simp) (Or.inr ⟨_, rfl⟩) inv.order
                      simpa using this
                    fresh := fun _ => inv.fresh hb.2.2 }
              · simp only [Goroutine.runs, Goroutine.closes, beq_iff_eq, htT, if_false,
                  Bool.false_eq_true] at hcr hcc
                refine ⟨task, inv.keep [Event.unwind t cause, Event.close t]
                  (setTask_other _ _ _ _ htT) hstat hcodes2 (by dsimp only; omega)
                  (by dsimp only; omega) rfl ?_ ?_⟩
                · simp [storesOf]
                · simp only [List.mem_cons, List.mem_singleton, Event.close.injEq, false_or,
                    List.not_mem_nil, or_false]
                  intro h
                  rcases h with h | h
                  · cases h
                  · exact htT h.symm
        | some r =>
          simp only
          cases ht : s.heap.tasks[t]? with
          | none =>
            exact ⟨task, inv.keep [] rfl rfl inv.codes rfl rfl (by simp) rfl (by simp)⟩
          | some tk =>
            simp only
            have hcodes2 := codes_shrink (T := T) (R := R) s.pool g (Goroutine.closing t)
              (fun p h => by cases h) inv.codes
            have hstat : (s.heap.setTask t { tk with result := r }).static = s.heap.static :=
              static_setTask s.heap t tk _ ht rfl rfl
            have hcr := countP_set_of (Goroutine.runs T) s.pool g _ (Goroutine.closing t) hx
            have hcc := countP_set_of (Goroutine.closes T) s.pool g _ (Goroutine.closing t) hx
            by_cases htT : t = T
            · subst htT
              have htk : tk = task := by
                have := inv.here; rw [ht] at this; exact Option.some.inj this
              subst htk
              have hpos := countP_pos_of (Goroutine.runs t) s.pool g _ hx
                (by simp [Goroutine.runs])
              simp only [Goroutine.runs, Goroutine.closes, beq_self_eq_true, if_true,
                Bool.false_eq_true, if_false] at hcr hcc
              have ho : tk.once = true := by
                cases h : tk.once with
                | true => rfl
                | false => have := (inv.idle h).1; omega
              have hnd : tk.done = false := by
                cases h : tk.done with
                | false => rfl
                | true => have := (inv.fin h).2.1; omega
              have hb : s.pool.countP (Goroutine.runs t) = 1
                  ∧ s.pool.countP (Goroutine.closes t) = 0 ∧ storesOf t s.trace = [] := by
                rcases inv.busy ho hnd with h | h
                · exact h
                · omega
              have hRr : R r :=
                inv.codes p (List.getElem?_mem hx) r (returned_mayReturn p r hr)
              refine ⟨{ tk with result := r }, ?_⟩
              exact
                { here := setTask_same _ _ _ _ inv.here
                  static := hstat.trans inv.static
                  codes := hcodes2
                  idle := by
                    intro h
                    have : tk.once = false := h
                    rw [ho] at this; cases this
                  busy := by
                    intro _ _
                    right
                    refine ⟨by dsimp only; omega, by dsimp only; omega, ?_, hRr⟩
                    show storesOf t (s.trace ++ [Event.store t r]) = [r]
                    rw [storesOf_append, hb.2.2]; simp [storesOf]
                  fin := by
                    intro h
                    have : tk.done = true := h
                    rw [hnd] at this; cases this
                  unclosed := by
                    intro _
                    show closesOf t (s.trace ++ [Event.store t r]) = 0
                    rw [closesOf_append, inv.unclosed hnd]; simp [closesOf]
                  order := order_append_list t _ _ (by simp) inv.order
                  fresh := by
                    intro h
                    have h2 : storesOf t (s.trace ++ [Event.store t r]) = [] := h
                    rw [storesOf_append] at h2
                    simp [storesOf] at h2 }
            · simp only [Goroutine.runs, Goroutine.closes, beq_iff_eq, htT, if_false,
                Bool.false_eq_true] at hcr hcc
              refine ⟨task, inv.keep [Event.store t r] (setTask_other _ _ _ _ htT) hstat
                hcodes2 (by dsimp only; omega) (by dsimp only; omega) rfl ?_ ?_⟩
              · simp [storesOf, htT]
              · simp
      | closing t =>
        simp only
        cases ht : s.heap.tasks[t]? with
        | none =>
          exact ⟨task, inv.keep [] rfl rfl inv.codes rfl rfl (by simp) rfl (by simp)⟩
        | some tk =>
          simp only
          have hcodes2 := codes_shrink (T := T) (R := R) s.pool g Goroutine.exited
            (fun p h => by cases h) inv.codes
          have hstat : (s.heap.setTask t { tk with done := true }).static = s.heap.static :=
            static_setTask s.heap t tk _ ht rfl rfl
          have hcr := countP_set_of (Goroutine.runs T) s.pool g _ Goroutine.exited hx
          have hcc := countP_set_of (Goroutine.closes T) s.pool g _ Goroutine.exited hx
          by_cases htT : t = T
          · subst htT
            have htk : tk = task := by
              have := inv.here; rw [ht] at this; exact Option.some.inj this
            subst htk
            have hpos := countP_pos_of (Goroutine.closes t) s.pool g _ hx
              (by simp [Goroutine.closes])
            simp only [Goroutine.runs, Goroutine.closes, beq_self_eq_true, if_true,
              Bool.false_eq_true, if_false] at hcr hcc
            have ho : tk.once = true := by
              cases h : tk.once with
              | true => rfl
              | false => have := (inv.idle h).2.1; omega
            have hnd : tk.done = false := by
              cases h : tk.done with
              | false => rfl
              | true => have := (inv.fin h).2.2.1; omega
            have hb : s.pool.countP (Goroutine.runs t) = 0
                ∧ s.pool.countP (Goroutine.closes t) = 1
                ∧ storesOf t s.trace = [tk.result] ∧ R tk.result := by
              rcases inv.busy ho hnd with h | h
              · omega
              · exact h
            refine ⟨{ tk with done := true }, ?_⟩
            exact
              { here := setTask_same _ _ _ _ inv.here
                static := hstat.trans inv.static
                codes := hcodes2
                idle := by
                  intro h
                  have : tk.once = false := h
                  rw [ho] at this; cases this
                busy := by intro _ h; cases h
                fin := by
                  intro _
                  refine ⟨ho, by dsimp only; omega, by dsimp only; omega, ?_, Or.inl ⟨?_, hb.2.2.2⟩⟩
                  · show closesOf t (s.trace ++ [Event.close t]) = 1
                    rw [closesOf_append, inv.unclosed hnd]; simp [closesOf]
                  · show storesOf t (s.trace ++ [Event.close t]) = [tk.result]
                    rw [storesOf_append, hb.2.2.1]; simp [storesOf]
                unclosed := by intro h; cases h
                order := by
                  have hmem : tk.result ∈ storesOf t s.trace := by
                    rw [hb.2.2.1]; simp
                  rcases stored_index t s.trace tk.result hmem with ⟨j, hj, hjr⟩
                  have hin : Event.store t tk.result ∈ s.trace ++ [] := by
                    rw [List.append_nil]; exact List.getElem?_mem hjr
                  have := order_append_close t s.trace [] (Event.store t tk.result)
                    (by simp) hin (Or.inl ⟨_, rfl⟩) inv.order
                  simpa using this
                fresh := by
                  intro h
                  have h2 : storesOf t (s.trace ++ [Event.close t]) = [] := h
                  rw [storesOf_append, hb.2.2.1] at h2
                  simp at h2 }
          · simp only [Goroutine.runs, Goroutine.closes, beq_iff_eq, htT, if_false,
              Bool.false_eq_true] at hcr hcc
            refine ⟨task, inv.keep [Event.close t] (setTask_other _ _ _ _ htT) hstat
              hcodes2 (by dsimp only; omega) (by dsimp only; omega) rfl ?_ ?_⟩
            · simp [storesOf]
            · simp only [List.mem_singleton, Event.close.injEq]
              exact fun h => htT h.symm

theorem worker_exec_inv (T : TaskPtr) (R : Result → Prop) (h0 : Heap)
    (hR : ∀ ctx r, (Task.worker h0 T ctx).mayReturn r → R r) (schedule : List Action) :
    ∀ (s : State) (task : Task), WorkerInv T R h0 s task →
      ∃ task2, WorkerInv T R h0 (exec s schedule) task2 := by
  induction schedule with
  | nil => intro s task inv; exact ⟨task, inv⟩
  | cons a rest ih =>
    intro s task inv
    have h1 : ∃ task1, WorkerInv T R h0 (act s a) task1 := by
      cases a with
      | run g viaCtx => exact worker_step_inv T R h0 s task g viaCtx hR inv
      | cancel scope cause =>
        exact ⟨task, inv.keep [] rfl rfl inv.codes rfl rfl (by simp [act]) rfl (by simp)⟩
    rcases h1 with ⟨task1, inv1⟩
    exact ih (act s a) task1 inv1

theorem worker_init_inv (T : TaskPtr) (R : Result → Prop) (s : State) (task : Task)
    (hT : s.heap.tasks[T]? = some task) (honce : task.once = false)
    (hdone : task.done = false) (hpool : ∀ x ∈ s.pool, x.tag ≠ some T)
    (htrace : s.trace = []) : WorkerInv T R s.heap s task := by
  have hr : s.pool.countP (Goroutine.runs T) = 0 := by
    rw [List.countP_eq_zero]
    intro x hx
    have := hpool x hx
    cases x <;> simp_all [Goroutine.runs, Goroutine.tag]
  have hc : s.pool.countP (Goroutine.closes T) = 0 := by
    rw [List.countP_eq_zero]
    intro x hx
    have := hpool x hx
    cases x <;> simp_all [Goroutine.closes, Goroutine.tag]
  exact
    { here := hT
      static := rfl
      codes := by
        intro p hp
        exact absurd rfl (hpool _ hp)
      idle := fun _ => ⟨hr, hc, by rw [htrace]; rfl, hdone⟩
      busy := by intro h; rw [honce] at h; cases h
      fin := by intro h; rw [hdone] at h; cases h
      unclosed := by intro _; rw [htrace]; rfl
      order := by intro i hi; rw [htrace] at hi; simp at hi
      fresh := by
        intro _ t0 h0
        rw [hT] at h0
        rw [Option.some.inj h0] }

theorem stepProg_trace (s : State) (g : Nat) (viaCtx : Bool) (wrap : Prog → Goroutine)
    (p : Prog) : ∃ es, (stepProg s g viaCtx wrap p).trace = s.trace ++ es := by
  cases p with
  | ret r => exact ⟨[], by simp [stepProg]⟩
  | goexit => exact ⟨[], by simp [stepProg]⟩
  | panic msg => exact ⟨[], by simp [stepProg]⟩
  | print str k => exact ⟨_, rfl⟩
  | invoke t ctx k => exact ⟨_, rfl⟩
  | go q k => exact ⟨[], by simp [stepProg]⟩
  | wait t ctx k =>
    simp only [stepProg]
    cases s.heap.tasks[t]? with
    | none => exact ⟨[], by simp⟩
    | some tk =>
      cases viaCtx with
      | true =>
        cases ctx.Err s.cancelled with
        | none => exact ⟨[], by simp⟩
        | some err => exact ⟨_, rfl⟩
      | false =>
        by_cases hd : tk.done = true
        · simp only [hd, if_true, Bool.false_eq_true, if_false]; exact ⟨_, rfl⟩
        · simp only [hd, if_false, Bool.false_eq_true]; exact ⟨[], by simp⟩
  | once t ctx k =>
    simp only [stepProg]
    cases s.heap.tasks[t]? with
    | none => exact ⟨[], by simp⟩
    | some tk =>
      by_cases ho : tk.once = true
      · simp only [ho, if_true]; exact ⟨_, rfl⟩
      · simp only [ho, if_false, Bool.false_eq_true]; exact ⟨_, rfl⟩

theorem step_trace (s : State) (g : Nat) (viaCtx : Bool) :
    ∃ es, (step s g viaCtx).trace = s.trace ++ es := by
  unfold step
  split
  · exact ⟨[], by simp⟩
  · cases s.pool[g]? with
    | none => exact ⟨[], by simp⟩
    | some x =>
      cases x with
      | exited => exact ⟨[], by simp⟩
      | code p => exact stepProg_trace s g viaCtx _ p
      | worker t p =>
        simp only
        cases p.returned with
        | none =>
          simp only
          cases p.aborted with
          | none => exact stepProg_trace s g viaCtx _ p
          | some cause =>
            simp only
            cases s.heap.tasks[t]? with
            | none => exact ⟨[], by simp⟩
            | some tk => exact ⟨_, rfl⟩
        | some r =>
          simp only
          cases s.heap.tasks[t]? with
          | none => exact ⟨[], by simp⟩
          | some tk => exact ⟨_, rfl⟩
      | closing t =>
        simp only
        cases s.heap.tasks[t]? with
        | none => exact ⟨[], by simp⟩
        | some tk => exact ⟨_, rfl⟩

theorem exec_trace (schedule : List Action) :
    ∀ s : State, ∃ es, (exec s schedule).trace = s.trace ++ es := by
  induction schedule with
  | nil => intro s; exact ⟨[], by simp [exec]⟩
  | cons a rest ih =>
    intro s
    have h1 : ∃ es, (act s a).trace = s.trace ++ es := by
      cases a with
      | run g viaCtx => exact step_trace s g viaCtx
      | cancel scope cause => exact ⟨[], by simp [act]⟩
    rcases h1 with ⟨es1, h1⟩
    rcases ih (act s a) with ⟨es2, h2⟩
    refine ⟨es1 ++ es2, ?_⟩
    show (exec (act s a) rest).trace = _
    rw [h2, h1, List.append_assoc]

theorem pool_untagged (T : TaskPtr) (pool : List Goroutine)
    (hpool : ∀ x ∈ pool, x.tag ≠ some T) : workersOf T pool = 0 := by
  unfold workersOf
  rw [List.countP_eq_zero]
  intro x hx
  simpa using hpool x hx

theorem mayReturn_bind (p : Prog) (f : Result → Prog) (r : Result) :
    (p.bind f).mayReturn r ↔ ∃ r0, p.mayReturn r0 ∧ (f r0).mayReturn r := by
  induction p with
  | ret r0 => simp [Prog.bind, Prog.mayReturn]
  | panic msg => simp [Prog.bind, Prog.mayReturn]
  | goexit => simp [Prog.bind, Prog.mayReturn]
  | print str k ih => simpa [Prog.bind, Prog.mayReturn] using ih
  | invoke t ctx k ih => simpa [Prog.bind, Prog.mayReturn] using ih
  | go q k _ ih => simpa [Prog.bind, Prog.mayReturn] using ih
  | once t ctx k ih => simpa [Prog.bind, Prog.mayReturn] using ih
  | wait t ctx k ih =>
    simp only [Prog.bind, Prog.mayReturn]
    constructor
    · rintro ⟨res, h⟩
      rcases (ih res).1 h with ⟨r0, h1, h2⟩
      exact ⟨r0, ⟨res, h1⟩, h2⟩
    · rintro ⟨r0, ⟨res, h1⟩, h2⟩
      exact ⟨res, (ih res).2 ⟨r0, h1, h2⟩⟩

/-! ## Theorems: cancelled waits and the Depend hook -/

/-- An instance of `wait_cancelled_isolated`: the wait of `Result` is cancelled while the
task runs; the task completes all the same and the later wait returns `(1, nil)`; and the
same for a wait made by the worker of another task. -/
theorem wait_cancelled_isolated_witness :
    (exec Example.cancelState Example.cancelPrefix).heap.tasks.map (fun t => (t.once, t.done))
      = [(true, false)]
    ∧ (exec Example.cancelState (Example.cancelPrefix ++ Example.cancelRest)).pool.map
        Goroutine.returned
      = [some { Value := Any.nil, Err := some "context canceled" },
         some { Value := Any.int 1, Err := none }, none]
    ∧ (step (exec Example.cancelState Example.cancelPrefix) 0 true).heap
      = (exec Example.cancelState Example.cancelPrefix).heap
    ∧ step (exec Example.cancelState Example.cancelPrefix) 0 false
      = exec Example.cancelState Example.cancelPrefix
    ∧ (step Example.cancelWorker 0 true).heap = Example.cancelWorker.heap
    ∧ step Example.cancelWorker 0 false = Example.cancelWorker :=
  have h := wait_cancelled_isolated (exec Example.cancelState Example.cancelPrefix) 0
    { newTask 0 Example.returnsOne with once := true } (Context.Background.WithCancel 1) 0
    Goroutine.code Prog.ret "context canceled" (Or.inl rfl) rfl rfl rfl rfl rfl
  have h2 := wait_cancelled_isolated Example.cancelWorker 0 (newTask 0 Example.returnsOne)
    (Context.Background.WithCancel 1) 0 (Goroutine.worker 3) (Example.sum · { Value := Any.int 2, Err := none })
    "context canceled" (Or.inr ⟨3, rfl⟩) rfl rfl rfl rfl rfl
  ⟨by decide, by decide, h.2.2.2.2.1, h.2.2.1, h2.2.2.2.2.1, h2.2.2.1⟩

theorem stepProg_frame (T : TaskPtr) (s : State) (g : Nat) (viaCtx : Bool)
    (wrap : Prog → Goroutine) (task : Task) (hT : s.heap.tasks[T]? = some task) (p : Prog) :
    ∃ task2, (stepProg s g viaCtx wrap p).heap.tasks[T]? = some task2
      ∧ task2.result = task.result ∧ task2.done = task.done := by
  cases p with
  | ret r => exact ⟨task, hT, rfl, rfl⟩
  | goexit => exact ⟨task, hT, rfl, rfl⟩
  | panic msg => exact ⟨task, hT, rfl, rfl⟩
  | print str k => exact ⟨task, hT, rfl, rfl⟩
  | invoke t ctx k => exact ⟨task, hT, rfl, rfl⟩
  | go q k => exact ⟨task, hT, rfl, rfl⟩
  | wait t ctx k =>
    simp only [stepProg]
    cases s.heap.tasks[t]? with
    | none => exact ⟨task, hT, rfl, rfl⟩
    | some tk =>
      cases viaCtx with
      | true =>
        cases ctx.Err s.cancelled with
        | none => exact ⟨task, hT, rfl, rfl⟩
        | some err => exact ⟨task, hT, rfl, rfl⟩
      | false =>
        by_cases hd : tk.done = true
        · simp only [hd, if_true, Bool.false_eq_true, if_false]; exact ⟨task, hT, rfl, rfl⟩
        · simp only [hd, if_false, Bool.false_eq_true]; exact ⟨task, hT, rfl, rfl⟩
  | once t ctx k =>
    simp only [stepProg]
    cases ht : s.heap.tasks[t]? with
    | none => exact ⟨task, hT, rfl, rfl⟩
    | some tk =>
      by_cases ho : tk.once = true
      · simp only [ho, if_true]; exact ⟨task, hT, rfl, rfl⟩
      · simp only [ho, if_false, Bool.false_eq_true]
        by_cases htT : t = T
        · subst htT
          have htk : tk = task := by rw [ht] at hT; exact Option.some.inj hT
          subst htk
          exact ⟨_, setTask_same _ _ _ _ ht, rfl, rfl⟩
        · exact ⟨task, by rw [setTask_other _ _ _ _ htT]; exact hT, rfl, rfl⟩

/-- No action of a goroutine other than the worker of `T` changes the stored `Result` of
`T` or closes its completion signal. -/
theorem step_frame (T : TaskPtr) (s : State) (g : Nat) (viaCtx : Bool) (x : Goroutine)
    (task : Task) (hT : s.heap.tasks[T]? = some task) (hx : s.pool[g]? = some x)
    (hnot : x.tag ≠ some T) :
    ∃ task2, (step s g viaCtx).heap.tasks[T]? = some task2
      ∧ task2.result = task.result ∧ task2.done = task.done := by
  unfold step
  split
  · exact ⟨task, hT, rfl, rfl⟩
  · rw [hx]
    cases x with
    | exited => exact ⟨task, hT, rfl, rfl⟩
    | code p => exact stepProg_frame T s g viaCtx _ task hT p
    | worker t p =>
      have htT : t ≠ T := fun h => hnot (by rw [h]; rfl)
      simp only
      cases p.returned with
      | none =>
        simp only
        cases p.aborted with
        | none => exact stepProg_frame T s g viaCtx _ task hT p
        | some cause =>
          simp only
          cases s.heap.tasks[t]? with
          | none => exact ⟨task, hT, rfl, rfl⟩
          | some tk => exact ⟨task, by rw [setTask_other _ _ _ _ htT]; exact hT, rfl, rfl⟩
      | some r =>
        simp only
        cases s.heap.tasks[t]? with
        | none => exact ⟨task, hT, rfl, rfl⟩
        | some tk => exact ⟨task, by rw [setTask_other _ _ _ _ htT]; exact hT, rfl, rfl⟩
    | closing t =>
      have htT : t ≠ T := fun h => hnot (by rw [h]; rfl)
      simp only
      cases s.heap.tasks[t]? with
      | none => exact ⟨task, hT, rfl, rfl⟩
      | some tk => exact ⟨task, by rw [setTask_other _ _ _ _ htT]; exact hT, rfl, rfl⟩

theorem step_idle (s : State) (g : Nat) (viaCtx : Bool) (h : s.pool[g]? = none) :
    step s g viaCtx = s := by
  unfold step
  split
  · rfl
  · rw [h]

/-- Once `done` is closed no action changes the record's `result` or reopens `done`. -/
theorem done_frozen_act (T : TaskPtr) (R : Result → Prop) (h0 : Heap) (s : State)
    (task : Task) (a : Action) (inv : WorkerInv T R h0 s task) (hd : task.done = true) :
    ∃ task2, (act s a).heap.tasks[T]? = some task2
      ∧ task2.result = task.result ∧ task2.done = true := by
  cases a with
  | cancel scope cause => exact ⟨task, inv.here, rfl, hd⟩
  | run g viaCtx =>
    show ∃ task2, (step s g viaCtx).heap.tasks[T]? = some task2 ∧ _
    cases hx : s.pool[g]? with
    | none => rw [step_idle s g viaCtx hx]; exact ⟨task, inv.here, rfl, hd⟩
    | some x =>
      have hf := inv.fin hd
      have hnot : x.tag ≠ some T := by
        intro htag
        cases x with
        | code p => cases htag
        | exited => cases htag
        | worker t p =>
          have ht : t = T := by simpa [Goroutine.tag] using htag
          have := countP_pos_of (Goroutine.runs T) s.pool g _ hx (by simp [Goroutine.runs, ht])
          omega
        | closing t =>
          have ht : t = T := by simpa [Goroutine.tag] using htag
          have := countP_pos_of (Goroutine.closes T) s.pool g _ hx
            (by simp [Goroutine.closes, ht])
          omega
      rcases step_frame T s g viaCtx x task inv.here hx hnot with ⟨task2, h1, h2, h3⟩
      exact ⟨task2, h1, h2, by rw [h3]; exact hd⟩

theorem done_frozen_exec (T : TaskPtr) (R : Result → Prop) (h0 : Heap)
    (hR : ∀ ctx r, (Task.worker h0 T ctx).mayReturn r → R r) (more : List Action) :
    ∀ (s : State) (task : Task), WorkerInv T R h0 s task → task.done = true →
      ∃ task3, (exec s more).heap.tasks[T]? = some task3
        ∧ task3.result = task.result ∧ task3.done = true := by
  induction more with
  | nil => intro s task inv hd; exact ⟨task, inv.here, rfl, hd⟩
  | cons a rest ih =>
    intro s task inv hd
    rcases done_frozen_act T R h0 s task a inv hd with ⟨task1, h1, h2, h3⟩
    have hinv1 : ∃ t1, WorkerInv T R h0 (act s a) t1 := by
      cases a with
      | run g viaCtx => exact worker_step_inv T R h0 s task g viaCtx hR inv
      | cancel scope cause =>
        exact ⟨task, inv.keep [] rfl rfl inv.codes rfl rfl (by simp [act]) rfl (by simp)⟩
    rcases hinv1 with ⟨t1, inv1⟩
    have e : t1 = task1 := by
      have := inv1.here; rw [h1] at this; exact (Option.some.inj this).symm
    subst e
    rcases ih (act s a) t1 inv1 h3 with ⟨task3, h4, h5, h6⟩
    exact ⟨task3, h4, by rw [h5, h2], h6⟩

/-- C16 (write-before-publish and immutability, amended for a worker that does not
return): start from any state in which task `T` is registered and not launched, and run
any schedule. The result slot of `T` is written at most once; `done` is closed at most
once, and in the trace every `close(T.done)` comes after the end of the worker's code:
after the write of `T.result`, or after the panic or `runtime.Goexit()` that skipped the
write. When `done` is closed, either the slot has been written exactly once and holds what
was written, or the worker's code panicked or called `runtime.Goexit()`, the slot was
never written and holds what it held at registration. Whatever runs afterwards (further
awaits, `depend`, `Result`, `Wait`, hooks): a launched task stays launched, a completed
task stays completed, and its stored `Result` is the same. -/
theorem write_before_publish (s : State) (T : TaskPtr) (task : Task)
    (schedule more : List Action)
    (hT : s.heap.tasks[T]? = some task) (honce : task.once = false)
    (hdone : task.done = false) (hpool : ∀ x ∈ s.pool, x.tag ≠ some T)
    (htrace : s.trace = []) :
    ∃ task2 task3, (exec s schedule).heap.tasks[T]? = some task2
      ∧ (exec (exec s schedule) more).heap.tasks[T]? = some task3
      ∧ (storesOf T (exec s schedule).trace).length ≤ 1
      ∧ closesOf T (exec s schedule).trace ≤ 1
      ∧ closedAfter T (exec s schedule).trace
      ∧ (task2.done = true ↔ closesOf T (exec s schedule).trace = 1)
      ∧ (task2.done = true →
          task2.once = true
          ∧ (storesOf T (exec s schedule).trace = [task2.result]
            ∨ (storesOf T (exec s schedule).trace = []
              ∧ (∃ cause, Event.unwind T cause ∈ (exec s schedule).trace)
              ∧ task2.result = task.result)))
      ∧ (task2.once = false → storesOf T (exec s schedule).trace = [] ∧ task2.done = false)
      ∧ (task2.once = true → task3.once = true)
      ∧ (task2.done = true → task3.done = true ∧ task3.result = task2.result) := by
  have winv0 : WorkerInv T (fun _ => True) s.heap s task :=
    worker_init_inv T _ s task hT honce hdone hpool htrace
  have oinv0 : OnceInv T s task :=
    { here := hT
      launches := by rw [htrace]; rfl
      fired := by rw [htrace, honce]; simp [callsOf]
      idle := fun _ => ⟨pool_untagged T s.pool hpool, hdone⟩
      running := fun _ => ⟨by rw [pool_untagged T s.pool hpool]; omega, by rw [htrace]; rfl⟩
      finished := fun h => by rw [hdone] at h; cases h }
  rcases worker_exec_inv T _ s.heap (fun _ _ _ => trivial) schedule s task winv0 with ⟨task2, w2⟩
  rcases once_exec_inv T schedule s task oinv0 with ⟨task2b, o2⟩
  rcases once_exec_inv T more _ task2b o2 with ⟨task3, o3⟩
  have e2 : task2b = task2 := by
    have := o2.here; rw [w2.here] at this; exact (Option.some.inj this).symm
  subst e2
  rcases exec_trace more (exec s schedule) with ⟨es, hes⟩
  have hlen : (storesOf T (exec s schedule).trace).length ≤ 1 := by
    cases hd : task2b.done with
    | true =>
      rcases (w2.fin hd).2.2.2.2 with h | h
      · rw [h.1]; simp
      · rw [h.1]; simp
    | false =>
      cases ho : task2b.once with
      | false => rw [(w2.idle ho).2.2.1]; simp
      | true =>
        rcases w2.busy ho hd with h | h
        · rw [h.2.2]; simp
        · rw [h.2.2.1]; simp
  refine ⟨task2b, task3, w2.here, o3.here, hlen, ?_, w2.order, ?_, ?_, ?_, ?_, ?_⟩
  · cases hd : task2b.done with
    | true => rw [(w2.fin hd).2.2.2.1]
    | false => rw [w2.unclosed hd]; omega
  · constructor
    · intro hd; exact (w2.fin hd).2.2.2.1
    · intro hc
      cases hd : task2b.done with
      | true => rfl
      | false => rw [w2.unclosed hd] at hc; cases hc
  · intro hd
    refine ⟨(w2.fin hd).1, ?_⟩
    rcases (w2.fin hd).2.2.2.2 with h | h
    · exact Or.inl h.1
    · exact Or.inr ⟨h.1, h.2, w2.fresh h.1 task hT⟩
  · intro ho; exact ⟨(w2.idle ho).2.2.1, (w2.idle ho).2.2.2⟩
  · intro ho
    apply o3.fired.2
    rw [hes, callsOf_append]
    have := o2.fired.1 ho
    intro h
    exact this (List.append_eq_nil.1 h).1
  · intro hd
    rcases done_frozen_exec T _ s.heap (fun _ _ _ => trivial) more _ task2b w2 hd
      with ⟨t3, h1, h2, h3⟩
    have e3 : t3 = task3 := by
      have := o3.here; rw [h1] at this; exact Option.some.inj this
    subst e3
    exact ⟨h3, h2⟩

/-- C14 (the `Run` hook's result is what is stored, amended for a hook chain that does not
return): start from any state in which task `T` is registered and not launched, and run
any schedule. The worker of `T` runs the composed `Run` hook on `(ctx, T, inner)`, `inner`
calling the run function; every property `R` of all the results that this call can return
holds of whatever is written to `T.result`. Once `T` is done, either the chain returned,
its result was written and is the stored `Result`, or the chain panicked or called
`runtime.Goexit()`, nothing was written and the slot holds what it held at registration
(the zero `Result`). Every wait on `T` that returned through the completion signal
returned the content of the slot, so what the chain returned whenever it returned. A hook
that post-processes what `next` returns makes the worker return the post-processed
result. -/
theorem stored_is_Run_hook_result (s : State) (T : TaskPtr) (task : Task)
    (tset : TaskSet Prog) (R : Result → Prop) (schedule : List Action)
    (hT : s.heap.tasks[T]? = some task) (honce : task.once = false)
    (hdone : task.done = false) (hpool : ∀ x ∈ s.pool, x.tag ≠ some T)
    (htrace : s.trace = []) (hset : s.heap.sets[task.taskSet]? = some tset)
    (hR : ∀ ctx r,
      (callRun tset.middleware.Run ctx T
        (fun c => Prog.invoke T c (task.run c (Task.dependFunc s.heap T)))).mayReturn r →
      R r) :
    ∃ task2, (exec s schedule).heap.tasks[T]? = some task2
      ∧ (∀ ctx, Task.worker s.heap T ctx
          = callRun tset.middleware.Run ctx T
              (fun c => Prog.invoke T c (task.run c (Task.dependFunc s.heap T))))
      ∧ (∀ r ∈ storesOf T (exec s schedule).trace, R r)
      ∧ (task2.done = true →
          (R task2.result ∧ storesOf T (exec s schedule).trace = [task2.result])
          ∨ (storesOf T (exec s schedule).trace = []
            ∧ (∃ cause, Event.unwind T cause ∈ (exec s schedule).trace)
            ∧ task2.result = task.result))
      ∧ (∀ r ∈ donesOf T (exec s schedule).trace, r = task2.result)
      ∧ (storesOf T (exec s schedule).trace ≠ [] →
          ∀ r ∈ donesOf T (exec s schedule).trace, R r)
      ∧ (∀ (body : Prog) (post : Result → Prog) (r : Result),
          (body.bind post).mayReturn r ↔ ∃ r0, body.mayReturn r0 ∧ (post r0).mayReturn r) := by
  have hw : ∀ ctx, Task.worker s.heap T ctx
      = callRun tset.middleware.Run ctx T
          (fun c => Prog.invoke T c (task.run c (Task.dependFunc s.heap T))) := by
    intro ctx; simp [Task.worker, hT, hset]
  have hR2 : ∀ ctx r, (Task.worker s.heap T ctx).mayReturn r → R r := by
    intro ctx r h; rw [hw] at h; exact hR ctx r h
  have winv0 : WorkerInv T R s.heap s task :=
    worker_init_inv T _ s task hT honce hdone hpool htrace
  have oinv0 : OnceInv T s task :=
    { here := hT
      launches := by rw [htrace]; rfl
      fired := by rw [htrace, honce]; simp [callsOf]
      idle := fun _ => ⟨pool_untagged T s.pool hpool, hdone⟩
      running := fun _ => ⟨by rw [pool_untagged T s.pool hpool]; omega, by rw [htrace]; rfl⟩
      finished := fun h => by rw [hdone] at h; cases h }
  rcases worker_exec_inv T R s.heap hR2 schedule s task winv0 with ⟨task2, w2⟩
  rcases once_exec_inv T schedule s task oinv0 with ⟨task2b, o2⟩
  have e2 : task2b = task2 := by
    have := o2.here; rw [w2.here] at this; exact (Option.some.inj this).symm
  subst e2
  have hstored : ∀ r ∈ storesOf T (exec s schedule).trace, R r := by
    intro r hr
    cases hd : task2b.done with
    | true =>
      rcases (w2.fin hd).2.2.2.2 with h | h
      · rw [h.1] at hr
        simp at hr; rw [hr]; exact h.2
      · rw [h.1] at hr; cases hr
    | false =>
      cases ho : task2b.once with
      | false => rw [(w2.idle ho).2.2.1] at hr; cases hr
      | true =>
        rcases w2.busy ho hd with h | h
        · rw [h.2.2] at hr; cases hr
        · rw [h.2.2.1] at hr; simp at hr; rw [hr]; exact h.2.2.2
  have hdones : ∀ r ∈ donesOf T (exec s schedule).trace, r = task2b.result := by
    intro r hr
    cases hd : task2b.done with
    | false => have := (o2.running hd).2; rw [this] at hr; cases hr
    | true => exact (o2.finished hd).2 r hr
  refine ⟨task2b, w2.here, hw, hstored, ?_, hdones, ?_, mayReturn_bind⟩
  · intro hd
    rcases (w2.fin hd).2.2.2.2 with h | h
    · exact Or.inl ⟨h.2, h.1⟩
    · exact Or.inr ⟨h.1, h.2, w2.fresh h.1 task hT⟩
  · intro hne r hr
    have hres := hdones r hr
    cases hd : task2b.done with
    | false => have := (o2.running hd).2; rw [this] at hr; cases hr
    | true =>
      rcases (w2.fin hd).2.2.2.2 with h | h
      · rw [hres]; exact h.2
      · exact absurd h.1 hne

/-- An instance of `stored_is_Run_hook_result`: the task fails with "e", the `Run` hook
maps failures to `(0, nil)`, and `Result` returns `(0, nil)`. -/
theorem stored_is_Run_hook_result_witness :
    (∀ x ∈ Example.failingStart.pool, x.tag ≠ some 0)
    ∧ (exec Example.failingStart Example.failingSchedule).heap.tasks.map
        (fun t => (t.done, t.result)) = [(true, { Value := Any.int 0, Err := none })]
    ∧ ((exec Example.failingStart Example.failingSchedule).pool.map Goroutine.returned).head?
        = some (some { Value := Any.int 0, Err := none })
    ∧ ∀ r ∈ storesOf 0 (exec Example.failingStart Example.failingSchedule).trace,
        r = { Value := Any.int 0, Err := none } :=
  have h := stored_is_Run_hook_result Example.failingStart 0
    (newTask 0 (fun _ _ => Prog.ret { Value := Any.nil, Err := some "e" }))
    { (NewTaskSet [Example.failToZero]) with eagerTasks := [0] }
    (fun r => r = { Value := Any.int 0, Err := none }) Example.failingSchedule
    rfl rfl rfl (by decide) rfl rfl
    (fun ctx r hr => by
      have hc : callRun (NewTaskSet [Example.failToZero]).middleware.Run ctx 0
          (fun c => Prog.invoke 0 c (Prog.ret { Value := Any.nil, Err := some "e" }))
          = Prog.invoke 0 ctx (Prog.ret { Value := Any.int 0, Err := none }) := rfl
      have hr2 : (Prog.invoke 0 ctx (Prog.ret { Value := Any.int 0, Err := none })).mayReturn r :=
        hc ▸ hr
      exact hr2.symm)
  ⟨by decide, by decide, by decide, h.elim (fun _ h2 => h2.2.2.1)⟩

/-- With the middleware `NewRecover` the panic of the body is recovered inside the `Run`
hook, so the chain returns what the handler gives and that is stored and observed. -/
theorem recover_stores_handled :
    (exec Example.recoverStart
        (Example.unwindSchedule ++ [Action.run 2 false, Action.run 0 false])).heap.tasks.map
        (fun t => (t.done, t.result)) = [(true, { Value := Any.nil, Err := some "boom" })]
    ∧ ((exec Example.recoverStart
        (Example.unwindSchedule ++ [Action.run 2 false, Action.run 0 false])).pool.map
        Goroutine.returned).head? = some (some { Value := Any.nil, Err := some "boom" })
    ∧ (exec Example.recoverStart
        (Example.unwindSchedule ++ [Action.run 2 false, Action.run 0 false])).panicked
        = none := by
  decide

/-- The claim C14 as stated fails when the hook chain does not return: the body panics
with "boom", no middleware recovers it, the worker's deferred `close(t.done)` runs, and
before the panic stops the program the wait of `Result` returns the zero `Result`, which
no hook returned (the code of the worker returns nothing and nothing was stored). -/
theorem unreturned_hook_counterexample :
    (∀ ctx r, ¬ (Task.worker Example.panicHeap 0 ctx).mayReturn r)
    ∧ storesOf 0 (exec Example.panicStart Example.unwindSchedule).trace = []
    ∧ (exec Example.panicStart Example.unwindSchedule).heap.tasks.map
        (fun t => (t.done, t.result)) = [(true, { Value := Any.nil, Err := none })]
    ∧ donesOf 0 (exec Example.panicStart Example.unwindSchedule).trace
        = [{ Value := Any.nil, Err := none }]
    ∧ ((exec Example.panicStart Example.unwindSchedule).pool.map Goroutine.returned).head?
        = some (some { Value := Any.nil, Err := none })
    ∧ (exec Example.panicStart Example.unwindSchedule).panicked = none
    ∧ (exec Example.panicStart (Example.unwindSchedule ++ [Action.run 2 false])).panicked
        = some "boom" := by
  refine ⟨?_, by decide, by decide, by decide, by decide, by decide, by decide⟩
  intro ctx r h
  exact h

/-- An instance of `write_before_publish`: three callers of `depend`, one worker; the
result is written once, then `done` is closed once, and nothing changes afterwards. -/
theorem write_before_publish_witness :
    (∀ x ∈ Example.threeCallers.pool, x.tag ≠ some 0)
    ∧ storesOf 0 (exec Example.threeCallers Example.threeCallersSchedule).trace
        = [{ Value := Any.int 1, Err := none }]
    ∧ closesOf 0 (exec Example.threeCallers Example.threeCallersSchedule).trace = 1
    ∧ ∃ task2 task3,
        (exec Example.threeCallers Example.threeCallersSchedule).heap.tasks[0]? = some task2
        ∧ (exec (exec Example.threeCallers Example.threeCallersSchedule)
            [Action.run 0 false, Action.run 3 false]).heap.tasks[0]? = some task3
        ∧ (task2.done = true → task3.done = true ∧ task3.result = task2.result) :=
  have h := write_before_publish Example.threeCallers 0 (newTask 0 Example.returnsOne)
    Example.threeCallersSchedule [Action.run 0 false, Action.run 3 false]
    rfl rfl rfl (by decide) rfl
  ⟨by decide, by decide, by decide,
    h.elim (fun task2 h2 => h2.elim (fun task3 h3 =>
      ⟨task2, task3, h3.1, h3.2.1, h3.2.2.2.2.2.2.2.2.2⟩))⟩

/-- The claim C16 as stated fails when the worker's code does not return: the body calls
`runtime.Goexit()`, the deferred `close(t.done)` runs although `t.result` was never
written (no write at all, so not exactly one), and the wait of `Result` returns the zero
`Result`; the program goes on. -/
theorem close_without_write_counterexample :
    storesOf 0 (exec Example.goexitStart Example.unwindSchedule).trace = []
    ∧ closesOf 0 (exec Example.goexitStart Example.unwindSchedule).trace = 1
    ∧ (exec Example.goexitStart Example.unwindSchedule).heap.tasks.map
        (fun t => (t.once, t.done, t.result))
        = [(true, true, { Value := Any.nil, Err := none })]
    ∧ ((exec Example.goexitStart Example.unwindSchedule).pool.map Goroutine.returned).head?
        = some (some { Value := Any.nil, Err := none })
    ∧ (exec Example.goexitStart Example.unwindSchedule).panicked = none
    ∧ ¬ (∀ i, (exec Example.goexitStart Example.unwindSchedule).trace[i]?
          = some (Event.close 0) →
        ∃ (j : Nat) (r : Result), j < i ∧
          (exec Example.goexitStart Example.unwindSchedule).trace[j]?
            = some (Event.store 0 r)) := by
  refine ⟨by decide, by decide, by decide, by decide, by decide, ?_⟩
  intro h
  rcases h 4 (by decide) with ⟨j, r, hj, hjr⟩
  have hmem : r ∈ storesOf 0 (exec Example.goexitStart Example.unwindSchedule).trace := by
    unfold storesOf
    exact List.mem_filterMap.2 ⟨_, List.getElem?_mem hjr, by simp⟩
  have : storesOf 0 (exec Example.goexitStart Example.unwindSchedule).trace = [] := by decide
  rw [this] at hmem
  cases hmem

/-! ## Theorems: lazy tasks -/

theorem within_mono (L L2 : TaskPtr → Prop) (hL : ∀ t, L t → L2 t) (p : Prog) :
    p.within L → p.within L2 := by
  induction p with
  | ret r => intro _; trivial
  | goexit => intro _; trivial
  | panic msg => intro _; trivial
  | print str k ih => exact ih
  | invoke t ctx k ih => exact ih
  | go q k ih1 ih2 => intro h; exact ⟨ih1 h.1, ih2 h.2⟩
  | once t ctx k ih => intro h; exact ⟨hL t h.1, ih h.2⟩
  | wait t ctx k ih => intro h res; exact ih res (h res)

theorem Wait_within (h : Heap) (ts : SetPtr) (ctx : Context) (L : TaskPtr → Prop) :
    (TaskSet.Wait h ts ctx).within L := by
  unfold TaskSet.Wait
  cases h.sets[ts]? with
  | none => trivial
  | some tset =>
    simp only
    induction tset.eagerTasks with
    | nil => trivial
    | cons t rest ih => intro _; exact ih

theorem lazy_frame {L : TaskPtr → Prop} {h0 : Heap} {T : TaskPtr} {task : Task} {s s2 : State}
    (inv : LazyInv L h0 T task s) (es : List Event)
    (hstatic : s2.heap.static = s.heap.static)
    (hpool : ∀ x ∈ s2.pool, x.within L)
    (hheap : s2.heap.tasks[T]? = s.heap.tasks[T]?)
    (htrace : s2.trace = s.trace ++ es)
    (hc : callsOf T es = []) (hl : launchesOf T es = []) (hs : storesOf T es = []) :
    LazyInv L h0 T task s2 :=
  { static := hstatic.trans inv.static
    pool := hpool
    here := by rw [hheap]; exact inv.here
    calls := by rw [htrace, callsOf_append, inv.calls, hc]; rfl
    launches := by rw [htrace, launchesOf_append, inv.launches, hl]; rfl
    stores := by rw [htrace, storesOf_append, inv.stores, hs]; rfl }

theorem within_set (L : TaskPtr → Prop) (pool : List Goroutine) (g : Nat) (y : Goroutine)
    (hpool : ∀ x ∈ pool, x.within L) (hy : y.within L) :
    ∀ x ∈ pool.set g y, x.within L := by
  intro x hx
  rcases List.mem_or_eq_of_mem_set hx with h | h
  · exact hpool x h
  · rw [h]; exact hy

theorem within_set_append (L : TaskPtr → Prop) (pool : List Goroutine) (g : Nat)
    (y z : Goroutine) (hpool : ∀ x ∈ pool, x.within L) (hy : y.within L) (hz : z.within L) :
    ∀ x ∈ pool.set g y ++ [z], x.within L := by
  intro x hx
  rcases List.mem_append.1 hx with h | h
  · exact within_set L pool g y hpool hy x h
  · rw [List.mem_singleton.1 h]; exact hz

theorem lazy_stepProg_inv (L : TaskPtr → Prop) (h0 : Heap) (T : TaskPtr) (task : Task)
    (s : State) (g : Nat) (viaCtx : Bool) (wrap : Prog → Goroutine) (p : Prog)
    (hw : ∀ t, L t → ∀ c, (Task.worker h0 t c).within L) (hL : ¬ L T)
    (inv : LazyInv L h0 T task s) (hp : p.within L)
    (hwrap : ∀ q, q.within L → (wrap q).within L) :
    LazyInv L h0 T task (stepProg s g viaCtx wrap p) := by
  cases p with
  | ret r => exact inv
  | goexit => exact inv
  | panic msg => exact lazy_frame inv [] rfl inv.pool rfl (by simp [stepProg]) rfl rfl rfl
  | print str k =>
    exact lazy_frame inv [Event.print str] rfl
      (within_set L s.pool g _ inv.pool (hwrap k hp)) rfl rfl rfl rfl rfl
  | invoke t ctx k =>
    exact lazy_frame inv [Event.invoke t ctx] rfl
      (within_set L s.pool g _ inv.pool (hwrap k hp)) rfl rfl rfl rfl rfl
  | go q k =>
    exact lazy_frame inv [] rfl
      (within_set_append L s.pool g _ _ inv.pool (hwrap k hp.2) hp.1) rfl
      (by simp [stepProg]) rfl rfl rfl
  | wait t ctx k =>
    simp only [stepProg]
    cases s.heap.tasks[t]? with
    | none => exact lazy_frame inv [] rfl inv.pool rfl (by simp) rfl rfl rfl
    | some tk =>
      cases viaCtx with
      | true =>
        cases ctx.Err s.cancelled with
        | none => exact inv
        | some err =>
          exact lazy_frame inv [Event.waitCancelled t ctx err] rfl
            (within_set L s.pool g _ inv.pool (hwrap _ (hp _))) rfl rfl rfl rfl rfl
      | false =>
        by_cases hd : tk.done = true
        · simp only [hd, if_true, Bool.false_eq_true, if_false]
          exact lazy_frame inv [Event.waitDone t ctx tk.result] rfl
            (within_set L s.pool g _ inv.pool (hwrap _ (hp _))) rfl rfl rfl rfl rfl
        · simp only [hd, if_false, Bool.false_eq_true]; exact inv
  | once t ctx k =>
    have htT : t ≠ T := fun h => hL (h ▸ hp.1)
    simp only [stepProg]
    cases ht : s.heap.tasks[t]? with
    | none => exact lazy_frame inv [] rfl inv.pool rfl (by simp) rfl rfl rfl
    | some tk =>
      by_cases ho : tk.once = true
      · simp only [ho, if_true]
        exact lazy_frame inv [Event.dependCall t ctx] rfl
          (within_set L s.pool g _ inv.pool (hwrap k hp.2)) rfl rfl
          (by simp [callsOf, htT]) rfl rfl
      · simp only [ho, if_false, Bool.false_eq_true]
        refine lazy_frame inv [Event.dependCall t ctx, Event.launch t ctx]
          (static_setTask s.heap t tk _ ht rfl rfl) ?_ (setTask_other _ _ _ _ htT) rfl
          (by simp [callsOf, htT]) (by simp [launchesOf, htT]) rfl
        refine within_set_append L s.pool g _ _ inv.pool (hwrap k hp.2) ⟨hp.1, ?_⟩
        rw [worker_static s.heap h0 inv.static]
        exact hw t hp.1 ctx

theorem lazy_step_inv (L : TaskPtr → Prop) (h0 : Heap) (T : TaskPtr) (task : Task)
    (s : State) (g : Nat) (viaCtx : Bool)
    (hw : ∀ t, L t → ∀ c, (Task.worker h0 t c).within L) (hL : ¬ L T)
    (inv : LazyInv L h0 T task s) : LazyInv L h0 T task (step s g viaCtx) := by
  unfold step
  split
  · exact inv
  · cases hx : s.pool[g]? with
    | none => exact inv
    | some x =>
      have hxin : x.within L := inv.pool x (List.getElem?_mem hx)
      cases x with
      | exited => exact inv
      | code p =>
        exact lazy_stepProg_inv L h0 T task s g viaCtx _ p hw hL inv hxin (fun _ h => h)
      | worker t p =>
        simp only
        cases p.returned with
        | none =>
          simp only
          cases p.aborted with
          | none =>
            exact lazy_stepProg_inv L h0 T task s g viaCtx _ p hw hL inv hxin.2
              (fun _ h => ⟨hxin.1, h⟩)
          | some cause =>
            have htT : t ≠ T := fun h => hL (h ▸ hxin.1)
            simp only
            cases ht : s.heap.tasks[t]? with
            | none => exact lazy_frame inv [] rfl inv.pool rfl (by simp) rfl rfl rfl
            | some tk =>
              exact lazy_frame inv [Event.unwind t cause, Event.close t]
                (static_setTask s.heap t tk _ ht rfl rfl)
                (within_set L s.pool g _ inv.pool (by cases cause <;> trivial))
                (setTask_other _ _ _ _ htT) rfl rfl rfl rfl
        | some r =>
          have htT : t ≠ T := fun h => hL (h ▸ hxin.1)
          simp only
          cases ht : s.heap.tasks[t]? with
          | none => exact lazy_frame inv [] rfl inv.pool rfl (by simp) rfl rfl rfl
          | some tk =>
            exact lazy_frame inv [Event.store t r] (static_setTask s.heap t tk _ ht rfl rfl)
              (within_set L s.pool g _ inv.pool hxin.1) (setTask_other _ _ _ _ htT) rfl
              rfl rfl (by simp [storesOf, htT])
      | closing t =>
        have htT : t ≠ T := fun h => hL (h ▸ hxin)
        simp only
        cases ht : s.heap.tasks[t]? with
        | none => exact lazy_frame inv [] rfl inv.pool rfl (by simp) rfl rfl rfl
        | some tk =>
          exact lazy_frame inv [Event.close t] (static_setTask s.heap t tk _ ht rfl rfl)
            (within_set L s.pool g _ inv.pool trivial) (setTask_other _ _ _ _ htT) rfl
            rfl rfl rfl

theorem lazy_exec_inv (L : TaskPtr → Prop) (h0 : Heap) (T : TaskPtr) (task : Task)
    (hw : ∀ t, L t → ∀ c, (Task.worker h0 t c).within L) (hL : ¬ L T)
    (schedule : List Action) :
    ∀ s : State, LazyInv L h0 T task s → LazyInv L h0 T task (exec s schedule) := by
  induction schedule with
  | nil => intro s inv; exact inv
  | cons a rest ih =>
    intro s inv
    apply ih
    cases a with
    | run g viaCtx => exact lazy_step_inv L h0 T task s g viaCtx hw hL inv
    | cancel scope cause =>
      exact lazy_frame inv [] rfl inv.pool rfl (by simp [act]) rfl rfl rfl

theorem sum_within (L : TaskPtr → Prop) (a b : Result) : (Example.sum a b).within L := by
  unfold Example.sum
  split <;> trivial

/-- C11. Lazy non-execution. `Start` adds to the goroutines exactly one `task.depend(ctx)`
per entry of the eager list, and the code of `Wait` contains no depend call at all. Let `L`
be a set of tasks that contains the eager list and is closed under launches (the worker of
a task of `L` calls `depend` only on tasks of `L`), and `T` a task outside `L`. Then after
`Start`, with `Wait` running, under every schedule: the record of `T` is what it was
(`once` not fired, `done` open, result slot untouched), no `T.depend` was called, `T` was
never launched, nothing was stored for it, and no goroutine is a worker of `T`, so its run
function is never invoked. -/
theorem lazy_never_runs (h : Heap) (ts : SetPtr) (tset : TaskSet Prog) (ctx wctx : Context)
    (L : TaskPtr → Prop) (T : TaskPtr) (task : Task) (schedule : List Action)
    (hset : h.sets[ts]? = some tset)
    (hE : ∀ t ∈ tset.eagerTasks, L t)
    (hw : ∀ t, L t → ∀ c, (Task.worker h t c).within L)
    (hT : h.tasks[T]? = some task) (hL : ¬ L T) :
    let s0 := startThenWait h ts ctx wctx
    s0.pool = Goroutine.code (TaskSet.Wait h ts wctx) :: tset.eagerTasks.map
        (fun t => Goroutine.code (Task.depend t (TaskSet.startContext ts ctx))) ∧
      (TaskSet.Wait h ts wctx).within (fun _ => False) ∧
      (exec s0 schedule).heap.tasks[T]? = some task ∧
      callsOf T (exec s0 schedule).trace = [] ∧
      launchesOf T (exec s0 schedule).trace = [] ∧
      storesOf T (exec s0 schedule).trace = [] ∧
      ∀ x ∈ (exec s0 schedule).pool, x.tag ≠ some T := by
  intro s0
  have hs0 : s0 = Example.stateOf h (Goroutine.code (TaskSet.Wait h ts wctx) ::
      tset.eagerTasks.map
        (fun t => Goroutine.code (Task.depend t (TaskSet.startContext ts ctx)))) := by
    simp only [s0, startThenWait, TaskSet.Start, Example.stateOf, hset, List.singleton_append]
  have inv0 : LazyInv L h T task s0 := by
    rw [hs0]
    refine { static := rfl, pool := ?_, here := hT, calls := rfl, launches := rfl,
             stores := rfl }
    intro x hx
    rcases List.mem_cons.1 hx with hx | hx
    · rw [hx]; exact Wait_within h ts wctx L
    · obtain ⟨t, ht, rfl⟩ := List.mem_map.1 hx
      exact ⟨hE t ht, fun _ => trivial⟩
  have inv := lazy_exec_inv L h T task hw hL schedule s0 inv0
  refine ⟨by rw [hs0]; rfl, Wait_within h ts wctx _, inv.here, inv.calls, inv.launches,
    inv.stores, ?_⟩
  intro x hx htag
  have hin := inv.pool x hx
  cases x with
  | code p => cases htag
  | exited => cases htag
  | worker t p => cases htag; exact hL hin.1
  | closing t => cases htag; exact hL hin

/-- An instance of `lazy_never_runs`, the program of `ExampleTaskSet_NewLazy`: with
`L` all tasks but C, after a schedule in which D, A and B complete and `Wait` returns,
C is still as `NewLazy` made it. -/
theorem lazy_never_runs_witness :
    (exec (startThenWait Example.lazySetHeap 0 Context.Background Context.Background)
      Example.lazySetSchedule).heap.tasks.map (fun t => (t.once, t.done)) =
      [(true, true), (true, true), (false, false), (true, true)] ∧
    ((exec (startThenWait Example.lazySetHeap 0 Context.Background Context.Background)
      Example.lazySetSchedule).pool.map Goroutine.returned).head? =
      some (some { Value := Any.nil, Err := none }) ∧
    launchesOf 2 (exec (startThenWait Example.lazySetHeap 0 Context.Background Context.Background)
      Example.lazySetSchedule).trace = [] := by
  refine ⟨by decide, by decide, ?_⟩
  refine (lazy_never_runs Example.lazySetHeap 0 (Example.lazySetHeap.sets.getD 0 (NewTaskSet []))
    Context.Background Context.Background (fun t => t ≠ 2) 2
    (newTask 0 (fun _ _ => Prog.ret { Value := Any.int 3, Err := none }))
    Example.lazySetSchedule rfl ?_ ?_ rfl (fun h => h rfl)).2.2.2.2.1
  · intro t ht
    have : t = 3 := by simpa [Example.lazySetHeap, TaskSet.New, TaskSet.NewLazy,
      Heap.appendEager, Example.emptyHeap, NewTaskSet] using ht
    rw [this]
    exact fun h => absurd h (by decide)
  · intro t ht c
    rcases t with _ | _ | _ | _ | n
    · trivial
    · trivial
    · exact absurd rfl ht
    · exact ⟨by decide, fun a => ⟨by decide, fun b => sum_within _ _ _⟩⟩
    · trivial

/-! ## Theorems: ErrGroup inside a running program -/

theorem ErrGroup_step_done (s : ErrGroupState) (a : GroupAction) (h : s.done = true) :
    (ErrGroup.step s a).done = true := by
  cases a with
  | ret i r => simp only [ErrGroup.step]; split <;> exact h
  | publish i =>
    simp only [ErrGroup.step]
    split
    · split
      · rfl
      · exact h
    · exact h
  | count i =>
    simp only [ErrGroup.step]
    split
    · split
      · rfl
      · exact h
    · exact h

theorem ErrGroup_step_once (s : ErrGroupState) (a : GroupAction) (h : s.doneOnce = s.done) :
    (ErrGroup.step s a).doneOnce = (ErrGroup.step s a).done := by
  cases a with
  | ret i r => simp only [ErrGroup.step]; split <;> exact h
  | publish i =>
    simp only [ErrGroup.step]
    split
    · split
      · rfl
      · exact h
    · exact h
  | count i =>
    simp only [ErrGroup.step]
    split
    · split
      · rfl
      · exact h
    · exact h

theorem GroupRun_step_done (r : GroupRun) (a : RunAction) (h : r.group.done = true) :
    (GroupRun.step r a).group.done = true := by
  cases a with
  | engine a => exact h
  | ret i =>
    simp only [GroupRun.step]
    split
    · exact ErrGroup_step_done _ _ h
    · exact h
  | publish i => exact ErrGroup_step_done _ _ h
  | count i => exact ErrGroup_step_done _ _ h

theorem GroupRun_exec_done (schedule : List RunAction) :
    ∀ r : GroupRun, r.group.done = true → (GroupRun.exec r schedule).group.done = true := by
  induction schedule with
  | nil => intro r h; exact h
  | cons a rest ih => intro r h; exact ih _ (GroupRun_step_done r a h)

theorem GroupRun_step_once (r : GroupRun) (a : RunAction)
    (h : r.group.doneOnce = r.group.done) :
    (GroupRun.step r a).group.doneOnce = (GroupRun.step r a).group.done := by
  cases a with
  | engine a => exact h
  | ret i =>
    simp only [GroupRun.step]
    split
    · exact ErrGroup_step_once _ _ h
    · exact h
  | publish i => exact ErrGroup_step_once _ _ h
  | count i => exact ErrGroup_step_once _ _ h

theorem GroupRun_exec_once (schedule : List RunAction) :
    ∀ r : GroupRun, r.group.doneOnce = r.group.done →
      (GroupRun.exec r schedule).group.doneOnce = (GroupRun.exec r schedule).group.done := by
  induction schedule with
  | nil => intro r h; exact h
  | cons a rest ih => intro r h; exact ih _ (GroupRun_step_once r a h)

theorem GroupRun_exec_engine (schedule : List RunAction) :
    ∀ r : GroupRun, (GroupRun.exec r schedule).engine = exec r.engine (engineActions schedule) := by
  induction schedule with
  | nil => intro r; rfl
  | cons a rest ih =>
    intro r
    cases a with
    | engine a => exact ih _
    | ret i =>
      show (GroupRun.exec (GroupRun.step r (RunAction.ret i)) rest).engine = _
      rw [ih]
      simp only [GroupRun.step]
      split <;> rfl
    | publish i => exact ih _
    | count i => exact ih _

theorem cancelled_step (s : State) (g : Nat) (viaCtx : Bool) :
    (step s g viaCtx).cancelled = s.cancelled := by
  have hp : ∀ (wrap : Prog → Goroutine) (p : Prog),
      (stepProg s g viaCtx wrap p).cancelled = s.cancelled := by
    intro wrap p
    cases p <;> simp only [stepProg] <;> repeat (first | rfl | split)
  unfold step
  repeat (first | rfl | exact hp _ _ | split)

/-- A `depend` on a completed task whose context is not needed returns the stored
`Result`: the once-only launch is passed, then the wait takes the completion signal. -/
theorem depend_done_returns (s : State) (t : TaskPtr) (tk : Task) (ctx : Context) (g : Nat)
    (hnp : s.panicked = none) (ht : s.heap.tasks[t]? = some tk) (hd : tk.done = true)
    (hg : s.pool[g]? = some (Goroutine.code (Task.depend t ctx))) :
    (exec s [Action.run g false, Action.run g false]).pool[g]? =
      some (Goroutine.code (Prog.ret tk.result)) := by
  have hlt : g < s.pool.length := by
    rcases Nat.lt_or_ge g s.pool.length with h | h
    · exact h
    · rw [List.getElem?_eq_none h] at hg; cases hg
  show (step (step s g false) g false).pool[g]? = _
  have h1 : step s g false = stepProg s g false Goroutine.code (Task.depend t ctx) :=
    step_code s g false _ hnp hg
  obtain ⟨tk2, h1t, h1d, h1r, h1p, h1g⟩ : ∃ tk2, (step s g false).heap.tasks[t]? = some tk2 ∧
      tk2.done = true ∧ tk2.result = tk.result ∧ (step s g false).panicked = none ∧
      (step s g false).pool[g]? = some (Goroutine.code (Task.wait t ctx)) := by
    rw [h1]
    simp only [Task.depend, stepProg, ht]
    by_cases ho : tk.once = true
    · simp only [ho, if_true]
      exact ⟨tk, ht, hd, rfl, hnp, by simp [hlt]⟩
    · simp only [ho, if_false, Bool.false_eq_true]
      refine ⟨{ tk with once := true }, setTask_same _ _ _ _ ht, hd, rfl, hnp, ?_⟩
      rw [List.getElem?_append_left (by simp [hlt])]
      simp [hlt]
  have hlt2 : g < (step s g false).pool.length := by
    rcases Nat.lt_or_ge g (step s g false).pool.length with h | h
    · exact h
    · rw [List.getElem?_eq_none h] at h1g; cases h1g
  rw [step_code _ g false _ h1p h1g]
  simp [Task.wait, stepProg, h1t, h1d, h1r, hlt2]

theorem cancelled_exec (actions : List Action) :
    ∀ s : State, (exec s actions).cancelled = s.cancelled ++ cancelsOf actions := by
  induction actions with
  | nil => intro s; simp [exec, cancelsOf]
  | cons a rest ih =>
    intro s
    show (exec (act s a) rest).cancelled = _
    rw [ih]
    cases a with
    | run g viaCtx => simp only [act, cancelsOf, cancelled_step]
    | cancel scope cause => simp [act, cancelsOf]

theorem engineActions_append (a b : List RunAction) :
    engineActions (a ++ b) = engineActions a ++ engineActions b := by
  induction a with
  | nil => rfl
  | cons x rest ih => cases x <;> simp [engineActions, ih]

theorem GroupRun_exec_tasks (schedule : List RunAction) :
    ∀ r : GroupRun, (GroupRun.exec r schedule).group.tasks = r.group.tasks := by
  induction schedule with
  | nil => intro r; rfl
  | cons a rest ih =>
    intro r
    show (GroupRun.exec (GroupRun.step r a) rest).group.tasks = _
    rw [ih]
    cases a with
    | engine a => rfl
    | ret i =>
      simp only [GroupRun.step]
      split
      · exact ErrGroup_step_tasks _ _
      · rfl
    | publish i => exact ErrGroup_step_tasks _ _
    | count i => exact ErrGroup_step_tasks _ _

theorem ErrGroup_step_lt (s : ErrGroupState) (a : GroupAction)
    (h : ∀ i, s.awaiter i ≠ Awaiter.calling → i < s.tasks.length) :
    ∀ i, (ErrGroup.step s a).awaiter i ≠ Awaiter.calling → i < s.tasks.length := by
  intro j hj
  by_cases hc : s.awaiter j = Awaiter.calling
  · cases a with
    | ret i r =>
      simp only [ErrGroup.step] at hj
      split at hj
      · rename_i hcond
        by_cases hji : j = i
        · rw [hji]; exact hcond.1
        · exact absurd (by simp [Function.update, hji, hc]) hj
      · exact absurd hc hj
    | publish i =>
      simp only [ErrGroup.step] at hj
      split at hj
      · rename_i r hr
        have hji : j ≠ i := by intro e; rw [e, hr] at hc; cases hc
        split at hj <;> exact absurd (by simp [Function.update, hji, hc]) hj
      · exact absurd hc hj
    | count i =>
      simp only [ErrGroup.step] at hj
      split at hj
      · rename_i hr
        have hji : j ≠ i := by intro e; rw [e, hr] at hc; cases hc
        split at hj <;> exact absurd (by simp [Function.update, hji, hc]) hj
      · exact absurd hc hj
  · exact h j hc

theorem GroupRun_exec_lt (schedule : List RunAction) :
    ∀ r : GroupRun, (∀ i, r.group.awaiter i ≠ Awaiter.calling → i < r.group.tasks.length) →
      ∀ i, (GroupRun.exec r schedule).group.awaiter i ≠ Awaiter.calling →
        i < r.group.tasks.length := by
  induction schedule with
  | nil => intro r h; exact h
  | cons a rest ih =>
    intro r h
    have key : ∀ i, (GroupRun.step r a).group.awaiter i ≠ Awaiter.calling →
        i < (GroupRun.step r a).group.tasks.length := by
      cases a with
      | engine a => exact h
      | ret i =>
        simp only [GroupRun.step]
        split
        · rw [ErrGroup_step_tasks]; exact ErrGroup_step_lt _ _ h
        · exact h
      | publish i =>
        show ∀ j, (ErrGroup.step r.group _).awaiter j ≠ _ → j < (ErrGroup.step r.group _).tasks.length
        rw [ErrGroup_step_tasks]; exact ErrGroup_step_lt _ _ h
      | count i =>
        show ∀ j, (ErrGroup.step r.group _).awaiter j ≠ _ → j < (ErrGroup.step r.group _).tasks.length
        rw [ErrGroup_step_tasks]; exact ErrGroup_step_lt _ _ h
    have htasks : (GroupRun.step r a).group.tasks = r.group.tasks :=
      GroupRun_exec_tasks [a] r
    intro i hi
    have := ih _ key i hi
    rw [htasks] at this
    exact this

theorem ErrGroup_publish_failure (g : ErrGroupState) (i : Nat) (res : Result)
    (hret : g.awaiter i = Awaiter.returned res) (herr : res.Err ≠ none)
    (honce : g.doneOnce = g.done) :
    (ErrGroup.step g (GroupAction.publish i)).done = true
    ∧ (g.done = false →
        ErrGroup.returns (ErrGroup.step g (GroupAction.publish i)) = some g.tasks[i]?)
    ∧ ∀ j, j ≠ i → (ErrGroup.step g (GroupAction.publish i)).awaiter j = g.awaiter j := by
  simp only [ErrGroup.step, hret]
  refine ⟨?_, ?_, ?_⟩
  · by_cases hd : g.doneOnce = false
    · simp [herr, hd]
    · have hd2 : g.doneOnce = true := by simpa using hd
      simp only [hd2, Bool.true_eq_false, and_false, if_false]
      rw [← honce]; exact hd2
  · intro hnd
    have hno : g.doneOnce = false := by rw [honce]; exact hnd
    simp [ErrGroup.returns, herr, hno]
  · intro j hj
    split <;> simp [Function.update, hj]

/-- C13. `ErrGroup` early return. At any point of any run of a call
`depend.ErrGroup(ctx, tasks...)` inside a program, if the goroutine of entry `i` has its
awaited `Result` with a non-nil `Err` in hand, then its next statement releases `ErrGroup`
(closes `done`), whatever state the goroutines of the other entries are in (none of them
is needed or changed, and no further step of them is taken); if the call was not released
before, what it returns is `tasks[i]`. That statement leaves the program untouched, the
release is permanent, and over the whole run the program's state is exactly what its own
actions produce: the group cancels no context (the cancellations are those of the
program's own actions), the targets' workers run as they would without the group, and a
later `depend` on a completed target returns its stored `Result`. -/
theorem ErrGroup_early_release (s : State) (depend : Depend) (ctx : Context)
    (tasks : List TaskPtr) (schedule more : List RunAction) (i : Nat) (res : Result)
    (hret : (GroupRun.exec (ErrGroup.start s depend ctx tasks) schedule).group.awaiter i
      = Awaiter.returned res)
    (herr : res.Err ≠ none) :
    let r := GroupRun.exec (ErrGroup.start s depend ctx tasks) schedule
    let r2 := GroupRun.step r (RunAction.publish i)
    r2.group.done = true
    ∧ (∃ t, tasks[i]? = some t ∧
        (r.group.done = false → ErrGroup.returns r2.group = some (some t)))
    ∧ (∀ j, j ≠ i → r2.group.awaiter j = r.group.awaiter j)
    ∧ r2.engine = r.engine
    ∧ (GroupRun.exec r2 more).group.done = true
    ∧ (GroupRun.exec r2 more).engine
        = exec (ErrGroup.start s depend ctx tasks).engine
            (engineActions schedule ++ engineActions more)
    ∧ (GroupRun.exec r2 more).engine.cancelled
        = s.cancelled ++ cancelsOf (engineActions schedule ++ engineActions more)
    ∧ ∀ (t : TaskPtr) (tk : Task) (g : Nat) (c : Context),
        (GroupRun.exec r2 more).engine.panicked = none →
        (GroupRun.exec r2 more).engine.heap.tasks[t]? = some tk → tk.done = true →
        (GroupRun.exec r2 more).engine.pool[g]? = some (Goroutine.code (Task.depend t c)) →
        (exec (GroupRun.exec r2 more).engine [Action.run g false, Action.run g false]).pool[g]?
          = some (Goroutine.code (Prog.ret tk.result)) := by
  intro r r2
  have honce : r.group.doneOnce = r.group.done := GroupRun_exec_once schedule _ rfl
  have htasks : r.group.tasks = tasks := GroupRun_exec_tasks schedule _
  have hlt : i < tasks.length := by
    have := GroupRun_exec_lt schedule (ErrGroup.start s depend ctx tasks)
      (fun j hj => absurd rfl hj) i (by
        show r.group.awaiter i ≠ Awaiter.calling
        rw [hret]; intro h; cases h)
    exact this
  have hpub := ErrGroup_publish_failure r.group i res hret herr honce
  have hdone : r2.group.done = true := hpub.1
  have heng : (GroupRun.exec r2 more).engine
      = exec (ErrGroup.start s depend ctx tasks).engine
          (engineActions schedule ++ engineActions more) := by
    rw [GroupRun_exec_engine more r2]
    show exec r.engine _ = _
    rw [GroupRun_exec_engine schedule]
    simp [exec, List.foldl_append]
  refine ⟨hdone, ⟨tasks[i], List.getElem?_eq_getElem hlt, ?_⟩, ?_, rfl,
    GroupRun_exec_done more r2 hdone, heng, ?_, ?_⟩
  · intro hnd
    have := hpub.2.1 hnd
    rw [htasks, List.getElem?_eq_getElem hlt] at this
    exact this
  · exact hpub.2.2
  · rw [heng, cancelled_exec]; rfl
  · intro t tk g c hnp ht hd hg
    exact depend_done_returns _ t tk c g hnp ht hd hg

/-- An instance of `ErrGroup_early_release`, the program of `ExampleDepend_ErrGroup`:
A's failure releases the group while the call on B has not returned, `ErrGroup` returns
A, nothing is cancelled, and B, completed later, gives `(2, nil)` to a later `depend`. -/
theorem ErrGroup_early_release_witness :
    (GroupRun.exec Example.groupStart Example.groupFailure).group.awaiter 0
      = Awaiter.returned { Value := Any.nil, Err := some "fail" }
    ∧ (GroupRun.exec Example.groupStart Example.groupFailure).group.awaiter 1
      = Awaiter.calling
    ∧ (GroupRun.exec Example.groupStart Example.groupFailure).group.done = false
    ∧ ErrGroup.returns (GroupRun.step (GroupRun.exec Example.groupStart Example.groupFailure)
        (RunAction.publish 0)).group = some (some 0)
    ∧ (GroupRun.exec (GroupRun.step (GroupRun.exec Example.groupStart Example.groupFailure)
        (RunAction.publish 0)) Example.groupLater).engine.cancelled = []
    ∧ ((GroupRun.exec (GroupRun.step (GroupRun.exec Example.groupStart Example.groupFailure)
        (RunAction.publish 0)) Example.groupLater).engine.pool.map Goroutine.returned).head?
      = some (some { Value := Any.int 2, Err := none }) := by
  have h := ErrGroup_early_release
    (Example.stateOf Example.groupHeap
      [Goroutine.code (Task.dependFunc Example.groupHeap 2
        (TaskSet.startContext 0 Context.Background) 1)])
    (Task.dependFunc Example.groupHeap 2) (TaskSet.startContext 0 Context.Background) [0, 1]
    Example.groupFailure Example.groupLater 0 { Value := Any.nil, Err := some "fail" }
    rfl (by decide)
  refine ⟨rfl, rfl, rfl, ?_, h.2.2.2.2.2.2.1, by decide⟩
  obtain ⟨t, ht, hres⟩ := h.2.1
  cases ht
  exact hres rfl

/-! ## Theorems: the property bag -/

theorem equal_eq (a b : Any) : Any.equal a b = true ↔ a ≠ Any.nan ∧ a = b := by
  cases a <;> simp [Any.equal]

theorem mapGet_mapSet_same (m : List (Any × Any)) (k v : Any) (hk : Any.equal k k = true) :
    mapGet (mapSet m k v) k = v := by
  unfold mapSet
  split
  · rename_i hany
    unfold mapGet
    induction m with
    | nil => simp at hany
    | cons p rest ih =>
      by_cases hp : Any.equal p.1 k = true
      · simp [List.find?, hp]
      · have hp2 : Any.equal p.1 k = false := by simpa using hp
        have hrest : rest.any (fun p => Any.equal p.1 k) = true := by
          simpa [hp2] using hany
        simp only [List.map_cons, hp2, Bool.false_eq_true, if_false, List.find?]
        exact ih hrest
  · rename_i hany
    have hnone : m.find? (fun p => Any.equal p.1 k) = none := by
      rw [List.find?_eq_none]
      intro p hp hpk
      exact hany (List.any_eq_true.2 ⟨p, hp, hpk⟩)
    simp [mapGet, List.find?_append, hnone, hk]

theorem mapGet_mapSet_other (m : List (Any × Any)) (k k2 v : Any)
    (hne : Any.equal k2 k = false) (hk2 : Any.equal k2 k2 = true) :
    mapGet (mapSet m k v) k2 = mapGet m k2 := by
  have hk2n : k2 ≠ Any.nan := ((equal_eq k2 k2).1 hk2).1
  have key : ∀ p : Any × Any, Any.equal p.1 k2 = true → Any.equal p.1 k = false := by
    intro p hp
    have h1 := (equal_eq _ _).1 hp
    cases hpk : Any.equal p.1 k with
    | false => rfl
    | true =>
      have h2 := (equal_eq _ _).1 hpk
      have : Any.equal k2 k = true := (equal_eq _ _).2 ⟨hk2n, h1.2.symm.trans h2.2⟩
      rw [hne] at this; cases this
  unfold mapSet
  split
  · rename_i hany
    clear hany
    unfold mapGet
    induction m with
    | nil => rfl
    | cons p rest ih =>
      by_cases hp : Any.equal p.1 k2 = true
      · have hpk := key p hp
        simp [List.find?, hp, hpk]
      · have hp2 : Any.equal p.1 k2 = false := by simpa using hp
        by_cases hpk : Any.equal p.1 k = true
        · simp only [List.map_cons, hpk, if_true, List.find?, hp2]
          exact ih
        · have hpk2 : Any.equal p.1 k = false := by simpa using hpk
          simp only [List.map_cons, hpk2, Bool.false_eq_true, if_false, List.find?, hp2]
          exact ih
  · have hkk : Any.equal k k2 = false := by
      cases h : Any.equal k k2 with
      | false => rfl
      | true =>
        have h1 := (equal_eq _ _).1 h
        have : Any.equal k2 k = true := (equal_eq _ _).2 ⟨hk2n, h1.2.symm⟩
        rw [hne] at this; cases this
    unfold mapGet
    rw [List.find?_append]
    cases hf : m.find? (fun p => Any.equal p.1 k2) with
    | some p => rfl
    | none => simp [List.find?, hkk]

theorem mapGet_nan (m : List (Any × Any)) : mapGet m Any.nan = Any.nil := by
  have hnone : m.find? (fun p => Any.equal p.1 Any.nan) = none := by
    rw [List.find?_eq_none]
    intro p _ hp
    have := (equal_eq _ _).1 hp
    exact this.1 this.2
  simp [mapGet, hnone]

theorem mapGet_absent (m : List (Any × Any)) (k : Any)
    (h : ∀ p ∈ m, Any.equal p.1 k = false) : mapGet m k = Any.nil := by
  have hnone : m.find? (fun p => Any.equal p.1 k) = none := by
    rw [List.find?_eq_none]
    intro p hp hpk
    rw [h p hp] at hpk; cases hpk
  simp [mapGet, hnone]

theorem Name_WithName (name : String) (t : Task) : Name (WithName name t) = Except.ok name := by
  have h := mapGet_mapSet_same t.properties nameProperty (Any.str name) rfl
  simp only [Name, WithName, Task.ModifyProperty, Task.Property, nameProperty, Any.comparable]
  simp only [nameProperty] at h
  simp [h]

theorem Name_names (names : List String) :
    ∀ t : Task, Name (names.foldl (fun task n => WithName n task) t) =
      match names.getLast? with
      | some n => Except.ok n
      | none => Name t := by
  induction names with
  | nil => intro t; rfl
  | cons n rest ih =>
    intro t
    rw [List.foldl_cons, ih]
    cases rest with
    | nil => simp [Name_WithName]
    | cons y ys =>
      rw [List.getLast?_cons_cons]
      obtain ⟨x, hx⟩ : ∃ x, (y :: ys).getLast? = some x :=
        ⟨_, List.getLast?_eq_getLast _ (by simp)⟩
      rw [hx]

/-- C18 (property bag, for keys that equal themselves). For every task, every function `f`
and every non-nil key `k` of a comparable type with `k == k`: `Property(k)` returns a
value `v` (nil when no entry has the key), `ModifyProperty(k, f)` returns, and afterwards
`Property(k)` returns `f(v)`; `Property(k2)` is unchanged for every key `k2` that is not
equal to `k`; a key without an entry, and every such key on a new task, reads as nil.
`properties.Name` of a task created by `NewLazy` with a list of `WithName` properties is
the name of the last one, the empty string when the list is empty, and `Name` after
`WithName(name)` on any task is `name`. -/
theorem Property_read_modify_write (t : Task) (k : Any) (f : Any → Any)
    (hnil : k ≠ Any.nil) (hcmp : k.comparable = true) (hrefl : Any.equal k k = true) :
    (∃ v t2, t.Property k = Except.ok v ∧ t.ModifyProperty k f = Except.ok t2
        ∧ t2.Property k = Except.ok (f v)
        ∧ (∀ k2, Any.equal k2 k = false → t2.Property k2 = t.Property k2)
        ∧ t2.taskSet = t.taskSet ∧ t2.once = t.once ∧ t2.done = t.done
        ∧ t2.result = t.result)
    ∧ ((∀ p ∈ t.properties, Any.equal p.1 k = false) → t.Property k = Except.ok Any.nil)
    ∧ (∀ (ts : SetPtr) (run : RunFunc), (newTask ts run).Property k = Except.ok Any.nil)
    ∧ (∀ name : String, Name (WithName name t) = Except.ok name)
    ∧ (∀ (ts : SetPtr) (run : RunFunc), Name (newTask ts run) = Except.ok "")
    ∧ ∀ (h : Heap) (ts : SetPtr) (run : RunFunc) (names : List String),
        ((TaskSet.NewLazy h ts run (names.map WithName)).1.tasks[
            (TaskSet.NewLazy h ts run (names.map WithName)).2]?).map Name
          = some (Except.ok (names.getLast?.getD "")) := by
  refine ⟨⟨mapGet t.properties k,
      { t with properties := mapSet t.properties k (f (mapGet t.properties k)) },
      ?_, ?_, ?_, ?_, rfl, rfl, rfl, rfl⟩, ?_, ?_, fun name => Name_WithName name t, fun _ _ => rfl, ?_⟩
  · simp [Task.Property, hnil, hcmp]
  · simp [Task.ModifyProperty, hnil, hcmp]
  · simp [Task.Property, hnil, hcmp, mapGet_mapSet_same _ _ _ hrefl]
  · intro k2 hne
    by_cases h2 : k2 = Any.nan
    · subst h2
      simp [Task.Property, mapGet_nan]
    · have hk2 : Any.equal k2 k2 = true := (equal_eq _ _).2 ⟨h2, rfl⟩
      simp only [Task.Property, mapGet_mapSet_other _ _ _ _ hne hk2]
  · intro habs
    simp [Task.Property, hnil, hcmp, mapGet_absent _ _ habs]
  · intro ts run
    simp [Task.Property, hnil, hcmp, newTask, mapGet]
  · intro h ts run names
    simp only [TaskSet.NewLazy, List.foldl_map]
    rw [List.getElem?_append_right (le_refl _)]
    simp only [Nat.sub_self, List.getElem?_cons_zero, Option.map_some', Name_names]
    cases names.getLast? with
    | none => rfl
    | some n => rfl

/-- An instance of `Property_read_modify_write`: the key `nameProperty{}` on a new task
reads nil, and after `ModifyProperty` with the constant "A" it reads "A". -/
theorem Property_read_modify_write_witness :
    (newTask 0 Example.returnsOne).Property nameProperty = Except.ok Any.nil
    ∧ Name (WithName "B" (newTask 0 Example.returnsOne)) = Except.ok "B"
    ∧ ((TaskSet.NewLazy Example.emptyHeap 0 Example.returnsOne
          (["A", "B"].map WithName)).1.tasks[
        (TaskSet.NewLazy Example.emptyHeap 0 Example.returnsOne
          (["A", "B"].map WithName)).2]?).map Name = some (Except.ok "B") := by
  have h := Property_read_modify_write (newTask 0 Example.returnsOne) nameProperty
    (fun _ => Any.str "A") (by decide) rfl rfl
  exact ⟨h.2.2.1 0 Example.returnsOne, h.2.2.2.1 "B",
    h.2.2.2.2.2 Example.emptyHeap 0 Example.returnsOne ["A", "B"]⟩

/-- The claim as stated, for every non-nil key of a comparable type, fails for the key
NaN: its type `float64` is comparable and it is not nil, `ModifyProperty(NaN, f)` with
`f` constantly 1 returns, yet `Property(NaN)` afterwards is nil, not `f(nil) = 1`. -/
theorem Property_NaN_counterexample :
    Any.nan ≠ Any.nil ∧ Any.nan.comparable = true
    ∧ (newTask 0 Example.returnsOne).Property Any.nan = Except.ok Any.nil
    ∧ ((newTask 0 Example.returnsOne).ModifyProperty Any.nan (fun _ => Any.int 1)).bind
        (fun t => t.Property Any.nan) = Except.ok Any.nil
    ∧ ((newTask 0 Example.returnsOne).ModifyProperty Any.nan (fun _ => Any.int 1)).bind
        (fun t => t.Property Any.nan) ≠ Except.ok (Any.int 1) := by
  refine ⟨by decide, rfl, rfl, rfl, ?_⟩
  intro h
  cases h

/-! ## Theorems: the concurrency limiter -/

/-- C19. The lock discipline of `NewConcurrencyLimiter` fails when `depend` calls of one
task overlap. With a `sync.Mutex` of its own as the task's lock: (1) the body calls
`depend.SyncGroup(ctx, A, B)`; the call on A enters the hook (count 0 to 1, `Unlock`),
returns, and decrements the count to 0; before its `Lock`, the call on B enters the hook,
reads the count 0 and calls `Unlock` on the mutex the task does not hold: the calls are
Lock, Unlock, Unlock and the program dies with "sync: unlock of unlocked mutex".
(2) the body calls `depend.ErrGroup(ctx, A, B)` and returns when A has failed while the
call on B is still inside the hook (count 1): the deferred `Unlock` of the `Run` hook
hits the unlocked mutex in the same way. A body with one `depend` call at a time gives
Lock, Unlock, Lock, Unlock. -/
theorem limiter_unlocks_unheld_lock :
    (Limiter.exec Limiter.init Example.limiterRace.dropLast).fatal = none
    ∧ (Limiter.exec Limiter.init Example.limiterRace.dropLast).locked = false
    ∧ (Limiter.exec Limiter.init Example.limiterRace.dropLast).dependCount = 1
    ∧ (Limiter.exec Limiter.init Example.limiterRace.dropLast).depends
        = [DependPc.locking, DependPc.unlocking]
    ∧ (Limiter.exec Limiter.init Example.limiterRace).calls
        = [LockCall.lock, LockCall.unlock, LockCall.unlock]
    ∧ alternates (Limiter.exec Limiter.init Example.limiterRace).calls = false
    ∧ (Limiter.exec Limiter.init Example.limiterRace).fatal
        = some "sync: unlock of unlocked mutex"
    ∧ (Limiter.exec Limiter.init Example.limiterEarlyReturn.dropLast).fatal = none
    ∧ (Limiter.exec Limiter.init Example.limiterEarlyReturn.dropLast).locked = false
    ∧ (Limiter.exec Limiter.init Example.limiterEarlyReturn.dropLast).dependCount = 1
    ∧ (Limiter.exec Limiter.init Example.limiterEarlyReturn.dropLast).depends
        = [DependPc.finished, DependPc.waiting]
    ∧ (Limiter.exec Limiter.init Example.limiterEarlyReturn).calls
        = [LockCall.lock, LockCall.unlock, LockCall.unlock]
    ∧ (Limiter.exec Limiter.init Example.limiterEarlyReturn).fatal
        = some "sync: unlock of unlocked mutex"
    ∧ (Limiter.exec Limiter.init Example.limiterSequential).calls
        = [LockCall.lock, LockCall.unlock, LockCall.lock, LockCall.unlock]
    ∧ alternates (Limiter.exec Limiter.init Example.limiterSequential).calls = true
    ∧ (Limiter.exec Limiter.init Example.limiterSequential).fatal = none := by
  refine ⟨?_, ?_, ?_, ?_, ?_, ?_, ?_, ?_, ?_, ?_, ?_, ?_, ?_, ?_, ?_, ?_⟩ <;> decide

/-! ## Theorems: calls of the run function -/

theorem nestRun_nextOnce (T : TaskPtr) (ms : List (Middleware Prog))
    (h : ∀ m ∈ ms, ∀ run, m.Run = some run → RunHook.nextOnce T run) :
    ∀ (ctx : Context) (next : Context → Prog),
      (∀ c, (next c).invokesOnce T) → (nestRun ms ctx T next).invokesOnce T := by
  induction ms with
  | nil => intro ctx next hn; exact hn ctx
  | cons m rest ih =>
    intro ctx next hn
    have ih2 := ih (fun m2 hm2 => h m2 (List.mem_cons_of_mem _ hm2))
    cases hr : m.Run with
    | none => simp only [nestRun, hr]; exact ih2 ctx next hn
    | some run =>
      simp only [nestRun, hr]
      exact h m (List.mem_cons_self _ _) run hr ctx _ (fun c => ih2 c next hn)

/-- When every `Run` hook given to `NewTaskSet` invokes `next` exactly once, so does the
composed hook of the set. -/
theorem NewTaskSet_nextOnce (T : TaskPtr) (ms : List (Middleware Prog))
    (h : ∀ m ∈ ms, ∀ run, m.Run = some run → RunHook.nextOnce T run) :
    ∀ run, (NewTaskSet ms).middleware.Run = some run → RunHook.nextOnce T run := by
  intro run hrun ctx next hn
  have hc := callRun_NewTaskSet ms ctx T next
  rw [hrun] at hc
  have : run ctx T next = nestRun ms ctx T next := hc
  rw [this]
  exact nestRun_nextOnce T ms h ctx next hn

end Taskset
